import Mathlib

/-!
# jsWords: probability trie, normalization, generation and the minified form

A shallow embedding of `src/jsWords.js`.

* JS strings are lists of characters (`List Char`), one `Char` per UTF-16 code unit; every
  alphabet of the registry lies in the basic plane, where the two coincide.
* `Language[language]`, the alphabet of a table, is resolved once and passed as the
  parameter `alphabet`: every node of a trie is created with the language of its parent.
* `String.prototype.toLowerCase` / `toUpperCase` are platform functions; the operations take
  them as a `Casing` and the general theorems hold for every casing.
* Raw counts are natural numbers. A JS number is a `JSNumber`: a finite number with its
  rational value, an infinity or `NaN`. The quotient of two counts is kept exact and stands
  for the double nearest to it; the sums of `getCharFromProb` and the arithmetic of
  `weighedEndFactor` are IEEE 754 double operations (`roundDouble`). `Math.cos` is a
  parameter, the cosine of the platform.
* A file written by `writeToFileSync` is kept as the object that its JSON text denotes, in
  which a number that JSON cannot write is `null`.
* The in-place updates of the JS objects are rebuilt functionally: an operation returns the
  updated trie.
-/

namespace JsWords

/-! ## Platform: numbers and case mapping -/

/-- A JS number: a finite number with its rational value, `Infinity`, `-Infinity` or `NaN`.
A number that a division of two counts produces is kept as the exact quotient, which stands
for the double nearest to it (`toDouble`); the operations of the generator read a stored
number through `toDouble` and round what they compute. Negative zero is not kept apart from
zero: no operation of the program tells them apart. -/
inductive JSNumber where
  | finite (q : ℚ)
  | infinity
  | negInfinity
  | nan
  deriving DecidableEq

/-- Rounding to the nearest integer, a tie going to the even one. -/
def roundHalfEven (x : ℚ) : ℤ :=
  if x - (Int.floor x : ℚ) < 1 / 2 then Int.floor x
  else if 1 / 2 < x - (Int.floor x : ℚ) then Int.floor x + 1
  else if Int.floor x % 2 = 0 then Int.floor x
  else Int.floor x + 1

/-- The exponent of the last binary digit that a double keeps of a number of the size of
`q`: 52 below the exponent of `q`, and -1074 where that would be lower (the subnormal
range). -/
def ulpExp (q : ℚ) : ℤ := max (Int.log 2 |q| - 52) (-1074)

/-- The multiple of `2 ^ ulpExp q` nearest to `q`, a tie going to the even multiple: the
double nearest to `q` while the result is in range. -/
def roundValue (q : ℚ) : ℚ := (roundHalfEven (q / 2 ^ ulpExp q) : ℚ) * 2 ^ ulpExp q

/-- IEEE 754 binary64 rounding (to nearest, ties to even), which every arithmetic operation
of JS applies to its exact result: out of range the result is an infinity. -/
def roundDouble (q : ℚ) : JSNumber :=
  if 2 ^ 1024 ≤ roundValue q then JSNumber.infinity
  else if roundValue q ≤ -2 ^ 1024 then JSNumber.negInfinity
  else JSNumber.finite (roundValue q)

namespace JSNumber

/-- The quotient `a / b` of two counts, before rounding: `NaN` for `0 / 0`, `Infinity` for
`a / 0` with `a > 0`. -/
def div (a b : Nat) : JSNumber :=
  if b = 0 then (if a = 0 then nan else infinity) else finite ((a : ℚ) / (b : ℚ))

/-- The sum `a + b`, before rounding. -/
def add : JSNumber → JSNumber → JSNumber
  | finite a, finite b => finite (a + b)
  | nan, _ => nan
  | _, nan => nan
  | infinity, negInfinity => nan
  | negInfinity, infinity => nan
  | infinity, _ => infinity
  | _, infinity => infinity
  | negInfinity, _ => negInfinity
  | _, negInfinity => negInfinity

/-- JS `p > x` for a finite `p`: false against `NaN` and against `Infinity`. -/
def ltRat (x : JSNumber) (p : ℚ) : Bool :=
  match x with
  | finite q => decide (q < p)
  | negInfinity => true
  | _ => false

/-- The double that a stored number stands for. -/
def toDouble : JSNumber → JSNumber
  | finite q => roundDouble q
  | x => x

/-- JS `a + b` on doubles. -/
def addDouble : JSNumber → JSNumber → JSNumber
  | finite a, finite b => roundDouble (a + b)
  | nan, _ => nan
  | _, nan => nan
  | infinity, negInfinity => nan
  | negInfinity, infinity => nan
  | infinity, _ => infinity
  | _, infinity => infinity
  | negInfinity, _ => negInfinity
  | _, negInfinity => negInfinity

/-- The product of an infinity of sign `positive` and the finite number `b`. -/
def mulInfinity (positive : Bool) (b : ℚ) : JSNumber :=
  if b = 0 then nan
  else if decide (0 < b) = positive then infinity
  else negInfinity

/-- JS `a * b` on doubles. -/
def mulDouble : JSNumber → JSNumber → JSNumber
  | finite a, finite b => roundDouble (a * b)
  | nan, _ => nan
  | _, nan => nan
  | infinity, finite b => mulInfinity true b
  | negInfinity, finite b => mulInfinity false b
  | finite a, infinity => mulInfinity true a
  | finite a, negInfinity => mulInfinity false a
  | infinity, infinity => infinity
  | negInfinity, negInfinity => infinity
  | infinity, negInfinity => negInfinity
  | negInfinity, infinity => negInfinity

/-- JS `a / b` on doubles. A divisor that is zero is the positive zero: the one divisor of
the program that can be zero is a difference of two equal numbers. -/
def divDouble : JSNumber → JSNumber → JSNumber
  | finite a, finite b =>
    if b = 0 then (if a = 0 then nan else if 0 < a then infinity else negInfinity)
    else roundDouble (a / b)
  | nan, _ => nan
  | _, nan => nan
  | finite _, _ => finite 0
  | infinity, finite b => if 0 ≤ b then infinity else negInfinity
  | negInfinity, finite b => if 0 ≤ b then negInfinity else infinity
  | _, _ => nan

end JSNumber

/-- `Math.PI`: the double nearest to pi, `3.141592653589793`. -/
def mathPI : ℚ := 884279719003555 / 281474976710656

/-- `Math.cos(x)`. The cosine of the platform on finite numbers is the parameter `cos`; at
`NaN` and at an infinity `Math.cos` returns `NaN`. -/
def mathCos (cos : ℚ → ℚ) : JSNumber → JSNumber
  | JSNumber.finite x => JSNumber.finite (cos x)
  | _ => JSNumber.nan

/-- The two string functions of the platform that the program calls on single characters.
`toLowerCase` is taken character to character (the only character whose lowercase form is
longer than one code unit, U+0130, is in no alphabet of the registry); `toUpperCase` returns
a string, since it may lengthen its argument. -/
structure Casing where
  toLowerCase : Char → Char
  toUpperCase : Char → List Char

/-- JS `toLowerCase` on every character whose lowercase form is an ASCII or Latin-1
character or U+0153, and so on every character whose lowercase form is in an alphabet of the
registry: the ASCII and Latin-1 capitals, U+0152, U+0178, U+1E9E (capital sharp s), U+212A
(Kelvin sign) and U+212B (Angstrom sign). Other characters are left as they are. -/
def jsLower (c : Char) : Char :=
  let n := c.toNat
  if (65 ≤ n ∧ n ≤ 90) ∨ (192 ≤ n ∧ n ≤ 222 ∧ n ≠ 215) then Char.ofNat (n + 32)
  else if n = 338 then Char.ofNat 339
  else if n = 376 then Char.ofNat 255
  else if n = 7838 then Char.ofNat 223
  else if n = 8490 then Char.ofNat 107
  else if n = 8491 then Char.ofNat 229
  else c

/-- JS `toUpperCase` on ASCII, on the Latin-1 letters and on U+0153, which covers every
character of the registry; other characters are left as they are. U+00DF (sharp s) has no
single uppercase character and becomes the two characters `SS`. -/
def jsUpper (c : Char) : List Char :=
  let n := c.toNat
  if (97 ≤ n ∧ n ≤ 122) ∨ (224 ≤ n ∧ n ≤ 254 ∧ n ≠ 247) then [Char.ofNat (n - 32)]
  else if n = 223 then ['S', 'S']
  else if n = 181 then [Char.ofNat 924]
  else if n = 255 then [Char.ofNat 376]
  else if n = 339 then [Char.ofNat 338]
  else [c]

/-- The casing of the JS platform on the characters above. -/
def jsCasing : Casing := ⟨jsLower, jsUpper⟩

/-! ## Language -/

namespace Language

def enEN : List Char := "abcdefghijklmnopqrstuvwqxyz".toList
def enEN_dashed : List Char := "abcdefghijklmnopqrstuvwqxyz-".toList
def deDE : List Char := "abcdefghijklmnopqrstuvwqxyzäöüß".toList
def deDE_dashed : List Char := "abcdefghijklmnopqrstuvwqxyzäöüß-".toList
def frFR : List Char := "abcdefghijklmnopqrstuvwqyz'àéèìòùçâêîôûäëïüœ".toList
def frFR_dashed : List Char := "abcdefghijklmnopqrstuvwqyz'àéèìòùçâêîôûäëïüœ-".toList

/-- The charsets of the `Language` object, by language id. Its other keys (`default`,
`isValid`, `createCharTrail`) are not charsets and are left out. -/
def registry : String → Option (List Char)
  | "enEN" => some enEN
  | "enEN_dashed" => some enEN_dashed
  | "deDE" => some deDE
  | "deDE_dashed" => some deDE_dashed
  | "frFR" => some frFR
  | "frFR_dashed" => some frFR_dashed
  | _ => none

/-- `Language.isValid(char, language)`: `Language[language].includes(char)`. -/
def isValid (char : Char) (alphabet : List Char) : Bool :=
  alphabet.contains char

/-- `String.prototype.indexOf` for one character: the first position, or `-1`. -/
def indexOf (alphabet : List Char) (char : Char) : Int :=
  match alphabet.findIdx? (fun a => a == char) with
  | some i => (i : Int)
  | none => -1

/-- `Language.createCharTrail(text, language)`. -/
def createCharTrail (cs : Casing) (text : List Char) (alphabet : List Char) : List Int :=
  text.map (fun char => indexOf alphabet (cs.toLowerCase char))

end Language

/-! ## ProbTable: the trainable trie -/

/-- A `ProbTable` node. `next` is the sparse JS array of children: position `i` is `none`
(or beyond the end of the list) while `next[i]` is `undefined`. The JS field `total` is a
cache that only `getNormalizedTable` writes, recomputing it first; it is `ProbTable.total`. -/
inductive ProbTable where
  | mk (language : String) (levels : Nat) (probabilities : List Nat)
      (endProbability : List Nat) (next : List (Option ProbTable))

namespace ProbTable

def language : ProbTable → String
  | mk g _ _ _ _ => g

def levels : ProbTable → Nat
  | mk _ l _ _ _ => l

def probabilities : ProbTable → List Nat
  | mk _ _ p _ _ => p

def endProbability : ProbTable → List Nat
  | mk _ _ _ e _ => e

def next : ProbTable → List (Option ProbTable)
  | mk _ _ _ _ n => n

/-- The sum of the raw counts of a node. -/
def total (t : ProbTable) : Nat := t.probabilities.sum

/-- `new ProbTable(language, levels)`: `Language[language].length + 1` zero counts, `levels`
zero end counts, no child. -/
def create (alphabet : List Char) (language : String) (levels : Nat) : ProbTable :=
  mk language levels (List.replicate (alphabet.length + 1) 0) (List.replicate levels 0) []

/-- `a[i]++` on an array of counts, for `i` inside the array. -/
def incrAt : List Nat → Nat → List Nat
  | [], _ => []
  | x :: xs, 0 => (x + 1) :: xs
  | x :: xs, i + 1 => x :: incrAt xs i

/-- `a[i] = v` on a sparse array: positions skipped over stay `undefined`. -/
def setAt {α : Type} : List (Option α) → Nat → α → List (Option α)
  | [], 0, v => [some v]
  | [], i + 1, v => none :: setAt [] i v
  | _ :: xs, 0, v => some v :: xs
  | x :: xs, i + 1, v => x :: setAt xs i v

/-- `a[i]` on a sparse array, `none` for `undefined`. -/
def childAt (n : List (Option ProbTable)) (i : Int) : Option ProbTable :=
  if i < 0 then none else (n.get? i.toNat).join

/-- `incrementCharTrail(charTrail)`: at each index the count of the current node goes up by
one, the child is created when it is `undefined`, and the walk goes on in the child.
A negative index names a property outside the array part of `probabilities` and `next`;
`parseTextLines` never passes one, and the walk is cut there. -/
def incrementCharTrail (alphabet : List Char) : ProbTable → List Int → ProbTable
  | t, [] => t
  | t, charID :: rest =>
    if charID < 0 then t
    else
      let child := match childAt t.next charID with
        | some c => c
        | none => create alphabet t.language t.levels
      mk t.language t.levels (incrAt t.probabilities charID.toNat) t.endProbability
        (setAt t.next charID.toNat (incrementCharTrail alphabet child rest))

/-- The second loop of `incrementEndWord` at the node reached: `endProbability[i]++` for
`i < n`. -/
def bumpEnd : Nat → List Nat → List Nat
  | 0, e => e
  | _ + 1, [] => []
  | n + 1, x :: xs => (x + 1) :: bumpEnd n xs

/-- The first loop of `incrementEndWord` followed by the second: walk down `charTrail` while
the child exists, then raise the first `n` end counts of the node where the walk stopped. -/
def endAt : ProbTable → List Int → Nat → ProbTable
  | t, [], n => mk t.language t.levels t.probabilities (bumpEnd n t.endProbability) t.next
  | t, charID :: rest, n =>
    match childAt t.next charID with
    | some c =>
      mk t.language t.levels t.probabilities t.endProbability
        (setAt t.next charID.toNat (endAt c rest n))
    | none => mk t.language t.levels t.probabilities (bumpEnd n t.endProbability) t.next

/-- `incrementEndWord(charTrail, backTrack)`: `this.levels - backTrack` end counts are raised
at the deepest existing node along `charTrail`; then the same for the trail without its first
index, with `backTrack = charTrail.length - 2`. -/
def incrementEndWord : ProbTable → List Int → Nat → ProbTable
  | t, [], backTrack => endAt t [] (t.levels - backTrack)
  | t, [c], backTrack => endAt t [c] (t.levels - backTrack)
  | t, c :: c2 :: rest, backTrack =>
    incrementEndWord (endAt t (c :: c2 :: rest) (t.levels - backTrack)) (c2 :: rest) rest.length

/-- The variables of `parseTextLines` that live across characters. The counter `words` is
only printed and is left out. -/
structure ParseState where
  table : ProbTable
  charTrail : List Char
  firstChar : Bool

/-- One turn of the inner loop of `parseTextLines`. -/
def parseChar (cs : Casing) (alphabet : List Char) (capitals : Bool)
    (s : ParseState) (char : Char) : ParseState :=
  if Language.isValid (cs.toLowerCase char) alphabet
      && (!capitals || (s.firstChar && cs.toUpperCase char == [char]) || !s.firstChar) then
    let charTrail := s.charTrail ++ [char]
    let charTrail := if charTrail.length > s.table.levels then charTrail.drop 1 else charTrail
    { table := incrementCharTrail alphabet s.table
        (Language.createCharTrail cs charTrail alphabet)
      charTrail := charTrail
      firstChar := false }
  else if s.charTrail.length > 0 then
    { table := incrementEndWord s.table (Language.createCharTrail cs s.charTrail alphabet) 0
      charTrail := []
      firstChar := true }
  else s

/-- One turn of the outer loop of `parseTextLines`: `firstChar` is set, then the line is
read character by character. `charTrail` is declared before the outer loop and is not
touched here. -/
def parseLine (cs : Casing) (alphabet : List Char) (capitals : Bool)
    (s : ParseState) (line : List Char) : ParseState :=
  line.foldl (parseChar cs alphabet capitals) { s with firstChar := true }

/-- `parseTextLines(lines, capitals)`. -/
def parseTextLines (cs : Casing) (alphabet : List Char) (t : ProbTable)
    (lines : List (List Char)) (capitals : Bool) : ProbTable :=
  (lines.foldl (parseLine cs alphabet capitals)
    { table := t, charTrail := [], firstChar := true }).table

end ProbTable

/-! ## NormalizedTable: the runtime tree -/

/-- An entry of `probabilities` in a runtime node. `char` is `Language[language][i]`, which
is `undefined` (`none`) when `i` is past the end of the alphabet. -/
structure ProbEntry where
  value : JSNumber
  char : Option Char
  deriving DecidableEq

/-- A `NormalizedTable` node. -/
inductive NormalizedTable where
  | mk (language : String) (levels : Nat) (probabilities : List ProbEntry)
      (endProbability : List JSNumber) (next : List NormalizedTable)

namespace NormalizedTable

def language : NormalizedTable → String
  | mk g _ _ _ _ => g

def levels : NormalizedTable → Nat
  | mk _ l _ _ _ => l

def probabilities : NormalizedTable → List ProbEntry
  | mk _ _ p _ _ => p

def endProbability : NormalizedTable → List JSNumber
  | mk _ _ _ e _ => e

def next : NormalizedTable → List NormalizedTable
  | mk _ _ _ _ n => n

end NormalizedTable

namespace ProbTable

/-- The entries pushed by the last loop of `getNormalizedTable`, for the counts from
position `i` on: one entry for each positive count. -/
def entriesFrom (alphabet : List Char) (total : Nat) : Nat → List Nat → List ProbEntry
  | _, [] => []
  | i, p :: ps =>
    if p > 0 then ⟨JSNumber.div p total, alphabet.get? i⟩ :: entriesFrom alphabet total (i + 1) ps
    else entriesFrom alphabet total (i + 1) ps

mutual
/-- `getNormalizedTable()`. -/
def getNormalizedTable (alphabet : List Char) : ProbTable → NormalizedTable
  | mk language levels probabilities endProbability next =>
    NormalizedTable.mk language levels
      (entriesFrom alphabet probabilities.sum 0 probabilities)
      (endProbability.map (fun e => JSNumber.div e (probabilities.sum + e)))
      (normalizedChildren alphabet probabilities next)
/-- The children pushed by the last loop of `getNormalizedTable`: for each position with a
positive count, the normalized child when `next[i]` is not `undefined`. -/
def normalizedChildren (alphabet : List Char) :
    List Nat → List (Option ProbTable) → List NormalizedTable
  | [], _ => []
  | _ :: _, [] => []
  | _ :: ps, none :: ns => normalizedChildren alphabet ps ns
  | p :: ps, some c :: ns =>
    if p > 0 then getNormalizedTable alphabet c :: normalizedChildren alphabet ps ns
    else normalizedChildren alphabet ps ns
end

end ProbTable

namespace NormalizedTable

/-- `getChildByChar(char)`: the node itself for the empty string, else the child at the
position of the first entry with that character, `none` for `null` or `undefined`. -/
def getChildByChar (t : NormalizedTable) (char : List Char) : Option NormalizedTable :=
  if char = [] then some t
  else
    match t.probabilities.findIdx? (fun e => e.char.map (fun c => [c]) == some char) with
    | some i => t.next.get? i
    | none => none

/-- `getChildByCharTrail(charTrail)`. -/
def getChildByCharTrail : NormalizedTable → List Char → Option NormalizedTable
  | t, [] => some t
  | t, [c] => t.getChildByChar [c]
  | t, c :: c2 :: rest =>
    match t.getChildByChar [c] with
    | none => none
    | some child => getChildByCharTrail child (c2 :: rest)

/-- The `while` loop of `getCharFromProb`: `total` is the running total at the current
entry, whose character is `char`; `rest` are the entries the iterator has not yielded. -/
def scanProb (prob : ℚ) : JSNumber → Option Char → List ProbEntry → Option Char
  | _, char, [] => char
  | total, char, e :: rest =>
    if total.ltRat prob then scanProb prob (total.addDouble e.value.toDouble) e.char rest
    else char

/-- `getCharFromProb(prob)`. The outer `none` is the `TypeError` of reading `.value` of
`undefined` on an empty entry list; the inner option is the character of the entry. -/
def getCharFromProb (t : NormalizedTable) (prob : ℚ) : Option (Option Char) :=
  match t.probabilities with
  | [] => none
  | e :: rest => some (scanProb prob e.value.toDouble e.char rest)

/-- The type of `options.endFactor`: `(prob, value, length, minLength, maxLength)`, where
`prob` is `undefined` when `endProbability` has no such index. -/
abbrev EndFactor := Option JSNumber → ℚ → Nat → Nat → Nat → Bool

/-- The `options` of `generateWord`; `none` is `undefined`. -/
structure Options where
  minLength : Nat
  maxLength : Nat
  endFactor : Option EndFactor := none
  levels : Option Int := none
  endBacktrack : Option Int := none
  endProbIndex : Option Int := none

/-- The local `levels` of `generateWord`. -/
def genLevels (t : NormalizedTable) (options : Options) : Int :=
  match options.levels with
  | some l => if l < (t.levels : Int) then l else t.levels
  | none => t.levels

/-- The local `endBacktrack` of `generateWord`. -/
def genEndBacktrack (t : NormalizedTable) (options : Options) : Int :=
  let levels := genLevels t options
  let endBacktrack := levels - 1
  let endBacktrack := match options.endBacktrack with
    | some b => if b > 0 ∧ b < (t.levels : Int) - levels then endBacktrack + b else endBacktrack
    | none => endBacktrack
  match options.endProbIndex with
  | some i => i
  | none => endBacktrack

/-- `a[i]` for a number `i`, `none` for `undefined`. -/
def endProbAt (e : List JSNumber) (i : Int) : Option JSNumber :=
  if i < 0 then none else e.get? i.toNat

/-- `s += char`: an `undefined` character is appended as the text `undefined`. -/
def appendChar (s : List Char) (char : Option Char) : List Char :=
  match char with
  | some c => s ++ [c]
  | none => s ++ "undefined".toList

/-- `charTrail += char; if (charTrail.length > levels) charTrail = charTrail.slice(1)`. -/
def pushTrail (levels : Int) (charTrail : List Char) (char : Option Char) : List Char :=
  let charTrail := appendChar charTrail char
  if (charTrail.length : Int) > levels then charTrail.drop 1 else charTrail

/-- The inner `while` loop of `generateWord` with the lookup before it. The loop has no
bound of its own, so the model counts down `fuel` and is `none` when it runs out; the result
is the number of times the trail was shortened, the trail left and the node found. -/
def backoff (root : NormalizedTable) : Nat → List Char → Option (Nat × List Char × NormalizedTable)
  | 0, _ => none
  | fuel + 1, charTrail =>
    let again := (backoff root fuel (charTrail.drop 1)).map (fun r => (r.1 + 1, r.2))
    match root.getChildByCharTrail charTrail with
    | none => again
    | some temp => if temp.probabilities.length = 0 then again else some (0, charTrail, temp)

/-- The `for` loop of `generateWord`, `remaining` turns from turn `i` on. The draw of turn
`i` is `rnd (i + 1)`. The result is the word and, for each turn, the number of shortenings
of its backoff loop; `none` when a backoff loop runs out of fuel or `getCharFromProb`
throws. -/
def genLoop (root : NormalizedTable) (minLength maxLength : Nat) (endFactor : EndFactor)
    (levels endBacktrack : Int) (fuel : Nat) (rnd : Nat → ℚ) :
    Nat → Nat → List Char → List Char → Option Char → Option (List Char × List Nat)
  | 0, _, word, _, _ => some (word, [])
  | remaining + 1, i, word, charTrail, char =>
    let word := appendChar word char
    let charTrail := pushTrail levels charTrail char
    match backoff root fuel charTrail with
    | none => none
    | some (k, charTrail, temp) =>
      if decide (word.length ≥ minLength)
          && endFactor (endProbAt temp.endProbability endBacktrack) (rnd (i + 1))
            word.length minLength maxLength then
        some (word, [k])
      else
        match temp.getCharFromProb (rnd (i + 1)) with
        | none => none
        | some char =>
          (genLoop root minLength maxLength endFactor levels endBacktrack fuel rnd
            remaining (i + 1) word charTrail char).map (fun r => (r.1, k :: r.2))

/-- `generateWord` up to the `return`: the word before its first character is capitalized,
with the shortenings of each backoff loop. `weighed1` stands for
`NormalizedTable.weighedEndFactor(1)`, the default of `options.endFactor`; `rnd 0` is the
draw before the loop. -/
def generateRaw (t : NormalizedTable) (weighed1 : EndFactor) (options : Options)
    (fuel : Nat) (rnd : Nat → ℚ) : Option (List Char × List Nat) :=
  let endFactor := match options.endFactor with
    | some f => f
    | none => weighed1
  match t.getCharFromProb (rnd 0) with
  | none => none
  | some char =>
    genLoop t options.minLength options.maxLength endFactor (genLevels t options)
      (genEndBacktrack t options) fuel rnd options.maxLength 0 [] [] char

/-- `word.charAt(0).toUpperCase() + word.slice(1)`. -/
def capitalize (cs : Casing) : List Char → List Char
  | [] => []
  | c :: rest => cs.toUpperCase c ++ rest

/-- `generateWord(options)`. -/
def generateWord (cs : Casing) (t : NormalizedTable) (weighed1 : EndFactor)
    (options : Options) (fuel : Nat) (rnd : Nat → ℚ) : Option (List Char) :=
  (generateRaw t weighed1 options fuel rnd).map (fun r => capitalize cs r.1)

end NormalizedTable

namespace NormalizedTable

/-- JS `prob > 0` for an end-probability: false for `undefined` and for `NaN`. -/
def probPositive : Option JSNumber → Bool
  | some x =>
    match x.toDouble with
    | JSNumber.finite q => decide (0 < q)
    | JSNumber.infinity => true
    | _ => false
  | none => false

/-- The threshold of `weighedEndFactor(weight)`:
`(1 + Math.cos(Math.PI / (maxLength - minLength) * (length - minLength))) * weight`, each
operation on doubles. The lengths are integers that doubles hold exactly, and so are the
two differences. -/
def endThreshold (cos : ℚ → ℚ) (weight : ℚ) (length minLength maxLength : Nat) : JSNumber :=
  ((JSNumber.finite 1).addDouble
      (mathCos cos
        (((JSNumber.finite mathPI).divDouble
            (JSNumber.finite ((maxLength : ℚ) - (minLength : ℚ)))).mulDouble
          (JSNumber.finite ((length : ℚ) - (minLength : ℚ)))))).mulDouble
    (JSNumber.finite weight)

/-- `NormalizedTable.weighedEndFactor(weight)`, for the cosine `cos` of the platform:
`prob > 0 && value > threshold`. -/
def weighedEndFactor (cos : ℚ → ℚ) (weight : ℚ) : EndFactor :=
  fun prob value length minLength maxLength =>
    probPositive prob && (endThreshold cos weight length minLength maxLength).ltRat value

end NormalizedTable

/-! ## The minified form -/

/-- What a loaded object holds where the program expects a number: a number, or `null`,
which is what a JSON text has in the place of `NaN` and of an infinity. -/
inductive JSONNumber where
  | number (x : JSNumber)
  | null
  deriving DecidableEq

/-- An entry of the object read from a file; `none` is a key that is not there. -/
structure MinifiedEntry where
  v : Option JSONNumber
  c : Option Char

/-- A table of the object read from a file, as `convertToNormalizedTable` receives it;
`none` is a key that is not there. -/
inductive MinifiedTable where
  | mk (g : Option String) (l : Option Nat) (p : Option (List MinifiedEntry))
      (e : Option (List JSONNumber)) (n : Option (List MinifiedTable))

/-- An entry of the object `convertToNormalizedTable` returns: each field is `undefined`
when its key was missing. -/
structure LoadedEntry where
  value : Option JSONNumber
  char : Option Char

/-- The object `convertToNormalizedTable` returns: a `NormalizedTable` whose fields are
`undefined` where the key was missing from the input. -/
inductive LoadedTable where
  | mk (language : Option String) (levels : Option Nat) (probabilities : List LoadedEntry)
      (endProbability : Option (List JSONNumber)) (next : List LoadedTable)

namespace JSONMinify

/-- A number as `JSON.stringify` writes it and `require` reads it back: a finite number is
read back as it was, `NaN` and the infinities are written as `null`. -/
def writeNumber (x : JSNumber) : JSONNumber :=
  match x.toDouble with
  | JSNumber.finite _ => JSONNumber.number x
  | _ => JSONNumber.null

/-- `minify` on an entry as `JSON.stringify` applies it: `value` is written under `v` and
`char` under `c`. `JSON.stringify` calls the replacer again on the value under each key,
and `minify` reads `hasOwnProperty` of that value: on the `undefined` character of an entry
it throws a `TypeError`. -/
def minifyEntry (e : ProbEntry) : Except String MinifiedEntry :=
  match e.char with
  | some c => Except.ok ⟨some (writeNumber e.value), some c⟩
  | none => Except.error "TypeError: Cannot read properties of undefined"

/-- `minify` on the entries of a table, in order. -/
def minifyEntries : List ProbEntry → Except String (List MinifiedEntry)
  | [] => Except.ok []
  | e :: es =>
    match minifyEntry e with
    | Except.error err => Except.error err
    | Except.ok m =>
      match minifyEntries es with
      | Except.error err => Except.error err
      | Except.ok ms => Except.ok (m :: ms)

mutual
/-- `JSON.stringify(table, JSONMinify.minify, 0)` as `require` reads it back: `minify` maps
the keys of the table and, as `JSON.stringify` applies it, of everything below, and the
numbers are written by `writeNumber`. The inherited methods of the table all go under the
one key `undefined` and are left out of the text, being functions. The text is kept as the
object it denotes. -/
def minify : NormalizedTable → Except String MinifiedTable
  | NormalizedTable.mk language levels probabilities endProbability next =>
    match minifyEntries probabilities with
    | Except.error err => Except.error err
    | Except.ok p =>
      match minifyAll next with
      | Except.error err => Except.error err
      | Except.ok n =>
        Except.ok (MinifiedTable.mk (some language) (some levels) (some p)
          (some (endProbability.map writeNumber)) (some n))
/-- `minify` along `next`. -/
def minifyAll : List NormalizedTable → Except String (List MinifiedTable)
  | [] => Except.ok []
  | t :: ts =>
    match minify t with
    | Except.error err => Except.error err
    | Except.ok m =>
      match minifyAll ts with
      | Except.error err => Except.error err
      | Except.ok ms => Except.ok (m :: ms)
end

end JSONMinify

namespace NormalizedTable

/-- The last loop of `convertToNormalizedTable` on one entry. -/
def convertEntry (e : MinifiedEntry) : LoadedEntry := ⟨e.v, e.c⟩

mutual
/-- `convertToNormalizedTable(object)`. The children are converted first; then the loop
over `result.probabilities` throws a `TypeError` when the key `p` is missing. -/
def convertToNormalizedTable : MinifiedTable → Except String LoadedTable
  | MinifiedTable.mk g l p e n =>
    match convertNext n with
    | Except.error err => Except.error err
    | Except.ok next =>
      match p with
      | none => Except.error "TypeError: result.probabilities is not iterable"
      | some entries => Except.ok (LoadedTable.mk g l (entries.map convertEntry) e next)
/-- The loop over `object.n`, which has no turn when the key is missing. -/
def convertNext : Option (List MinifiedTable) → Except String (List LoadedTable)
  | none => Except.ok []
  | some ts => convertAll ts
/-- The loop over `object.n`, in order. -/
def convertAll : List MinifiedTable → Except String (List LoadedTable)
  | [] => Except.ok []
  | t :: ts =>
    match convertToNormalizedTable t with
    | Except.error err => Except.error err
    | Except.ok r =>
      match convertAll ts with
      | Except.error err => Except.error err
      | Except.ok rs => Except.ok (r :: rs)
end

/-- `writeToFileSync(path)` followed by `createFromFileSync(path)`: the table is written with
`JSON.stringify` and `JSONMinify.minify`, read back by `require` and converted. -/
def roundTrip (t : NormalizedTable) : Except String LoadedTable :=
  match JSONMinify.minify t with
  | Except.error err => Except.error err
  | Except.ok object => convertToNormalizedTable object

end NormalizedTable

/-! ## Views used to state the properties -/

namespace ProbTable

mutual
/-- Every node of a trie, the root first. -/
def nodes : ProbTable → List ProbTable
  | mk g l p e n => mk g l p e n :: nodesOf n
/-- The nodes below a `next` array. -/
def nodesOf : List (Option ProbTable) → List ProbTable
  | [] => []
  | none :: r => nodesOf r
  | some c :: r => nodes c ++ nodesOf r
end

mutual
/-- The trie with every end-of-word count set to zero: what is left is the raw character
counts of every node and which children exist. -/
def clearEnd : ProbTable → ProbTable
  | mk g l p e n => mk g l p (e.map (fun _ => 0)) (clearEndAll n)
/-- `clearEnd` along a `next` array. -/
def clearEndAll : List (Option ProbTable) → List (Option ProbTable)
  | [] => []
  | none :: r => none :: clearEndAll r
  | some c :: r => some (clearEnd c) :: clearEndAll r
end

/-- The child for index `i`, `none` when there is none. -/
def child (t : ProbTable) (i : Int) : Option ProbTable := childAt t.next i

/-- The node reached from `t` along a trail of indices, `none` when a child is missing. -/
def descend : ProbTable → List Int → Option ProbTable
  | t, [] => some t
  | t, i :: rest =>
    match t.child i with
    | some c => descend c rest
    | none => none

/-- The test of `parseTextLines` that lets a character join the trail, for a given value of
`firstChar`. -/
def accepts (cs : Casing) (alphabet : List Char) (capitals : Bool) (firstChar : Bool)
    (char : Char) : Bool :=
  Language.isValid (cs.toLowerCase char) alphabet
    && (!capitals || (firstChar && cs.toUpperCase char == [char]) || !firstChar)

/-- What one character does to `charTrail` and `firstChar`, whatever the trie. -/
def scanStep (cs : Casing) (alphabet : List Char) (capitals : Bool) (levels : Nat)
    (st : List Char × Bool) (char : Char) : List Char × Bool :=
  if accepts cs alphabet capitals st.2 char then
    (if (st.1 ++ [char]).length > levels then (st.1 ++ [char]).drop 1 else st.1 ++ [char], false)
  else if st.1.length > 0 then ([], true)
  else st

/-- The trails that reading `text` passes to `incrementCharTrail`, in order, starting with
the given `charTrail` and `firstChar`. -/
def windows (cs : Casing) (alphabet : List Char) (capitals : Bool) (levels : Nat) :
    List Char × Bool → List Char → List (List Int)
  | _, [] => []
  | st, char :: rest =>
    if accepts cs alphabet capitals st.2 char then
      Language.createCharTrail cs (scanStep cs alphabet capitals levels st char).1 alphabet
        :: windows cs alphabet capitals levels (scanStep cs alphabet capitals levels st char) rest
    else windows cs alphabet capitals levels (scanStep cs alphabet capitals levels st char) rest

/-- The raw count a node holds for a character of the alphabet. -/
def countOf (alphabet : List Char) (t : ProbTable) (c : Char) : Option Nat :=
  if Language.indexOf alphabet c < 0 then none
  else t.probabilities.get? (Language.indexOf alphabet c).toNat

/-- A line made of the given words, with the character `sep` between two words. -/
def joinWords (sep : Char) : List (List Char) → List Char
  | [] => []
  | [w] => w
  | w :: w2 :: ws => w ++ sep :: joinWords sep (w2 :: ws)

end ProbTable

namespace NormalizedTable

/-- Every entry of every node has a character: the tree is a runtime tree in the sense of
the data model, whose entries are (character, probability) pairs. -/
inductive CharsDefined : NormalizedTable → Prop where
  | mk (g : String) (l : Nat) (p : List ProbEntry) (e : List JSNumber)
      (n : List NormalizedTable) (hp : ∀ x ∈ p, x.char ≠ none)
      (hn : ∀ c ∈ n, CharsDefined c) : CharsDefined (NormalizedTable.mk g l p e n)

mutual
/-- `CharsDefined` as a test. -/
def charsDefinedB : NormalizedTable → Bool
  | mk _ _ p _ n => p.all (fun x => x.char.isSome) && charsDefinedAll n
/-- `charsDefinedB` along `next`. -/
def charsDefinedAll : List NormalizedTable → Bool
  | [] => true
  | t :: ts => charsDefinedB t && charsDefinedAll ts
end

/-- The sum of the values of a list of entries, added in order, before any rounding. -/
def sumValues (es : List ProbEntry) : JSNumber :=
  es.foldl (fun acc e => acc.add e.value) (JSNumber.finite 0)

end NormalizedTable

namespace LoadedTable

/-- A runtime entry seen as a loaded entry: both fields are defined. -/
def ofEntry (e : ProbEntry) : LoadedEntry := ⟨some (JSONNumber.number e.value), e.char⟩

mutual
/-- A runtime tree seen as a loaded object: every field is defined and holds the value it
has in the tree, at every node. -/
def ofTable : NormalizedTable → LoadedTable
  | NormalizedTable.mk language levels probabilities endProbability next =>
    mk (some language) (some levels) (probabilities.map ofEntry)
      (some (endProbability.map JSONNumber.number)) (ofTables next)
/-- `ofTable` along `next`. -/
def ofTables : List NormalizedTable → List LoadedTable
  | [] => []
  | t :: ts => ofTable t :: ofTables ts
end

/-- A number of a runtime tree with `null` in the place of `NaN`. -/
def nanAsNull : JSNumber → JSONNumber
  | JSNumber.nan => JSONNumber.null
  | x => JSONNumber.number x

mutual
/-- A runtime tree seen as a loaded object in which every end-probability that is `NaN` in
the tree is `null`; everything else is as in `ofTable`. -/
def withNull : NormalizedTable → LoadedTable
  | NormalizedTable.mk language levels probabilities endProbability next =>
    mk (some language) (some levels) (probabilities.map ofEntry)
      (some (endProbability.map nanAsNull)) (withNullAll next)
/-- `withNull` along `next`. -/
def withNullAll : List NormalizedTable → List LoadedTable
  | [] => []
  | t :: ts => withNull t :: withNullAll ts
end

/-- The end-probabilities of the node reached from the root by the given child positions;
`none` when there is no such node or the node has no end-probabilities. -/
def endProbabilityAt : LoadedTable → List Nat → Option (List JSONNumber)
  | mk _ _ _ e _, [] => e
  | mk _ _ _ _ n, i :: rest =>
    match n.get? i with
    | some c => endProbabilityAt c rest
    | none => none

end LoadedTable

namespace MinifiedTable

mutual
/-- The key `p` is there in the object and in every object below it through `n`. -/
def everyP : MinifiedTable → Bool
  | mk _ _ p _ n => p.isSome && everyPNext n
/-- `everyP` for the objects under a key `n`. -/
def everyPNext : Option (List MinifiedTable) → Bool
  | none => true
  | some ts => everyPAll ts
/-- `everyP` for the objects of a list. -/
def everyPAll : List MinifiedTable → Bool
  | [] => true
  | t :: ts => everyP t && everyPAll ts
end

mutual
/-- The object read key by key: each field of the result is the value under its short key,
`undefined` where the key is missing, and `next` has one node for each object under `n`. -/
def copyFields : MinifiedTable → LoadedTable
  | mk g l p e n =>
    LoadedTable.mk g l ((p.getD []).map NormalizedTable.convertEntry) e (copyFieldsNext n)
/-- `copyFields` for the objects under a key `n`. -/
def copyFieldsNext : Option (List MinifiedTable) → List LoadedTable
  | none => []
  | some ts => copyFieldsAll ts
/-- `copyFields` for the objects of a list. -/
def copyFieldsAll : List MinifiedTable → List LoadedTable
  | [] => []
  | t :: ts => copyFields t :: copyFieldsAll ts
end

end MinifiedTable

/-! ## Views for the normalization, lookup and sampling properties -/

namespace JSNumber

/-- JS `x >= p` for a finite `p`: true for `Infinity`, false for `NaN`. -/
def geRat (x : JSNumber) (p : ℚ) : Bool :=
  match x with
  | finite q => decide (p ≤ q)
  | infinity => true
  | _ => false

end JSNumber

namespace ProbTable

/-- The divisors of the divisions `getNormalizedTable` performs for the end-probability
slots of a node: `total + endProbability[i]`, slot by slot. -/
def endDivisors (t : ProbTable) : List Nat :=
  t.endProbability.map (fun e => t.total + e)

/-- The divisors of the divisions `getNormalizedTable` performs for the entries of a node:
`total`, once for each positive count. -/
def entryDivisors (t : ProbTable) : List Nat :=
  (t.probabilities.filter (fun p => decide (p > 0))).map (fun _ => t.total)

end ProbTable

namespace NormalizedTable

/-- The cumulative mass of entry `k` as `getCharFromProb` computes it: the value of the
first entry, to which the values of the entries after it, up to entry `k`, are added one at
a time as doubles. There is no mass without an entry (`NaN`). -/
def massUpTo : List ProbEntry → Nat → JSNumber
  | [], _ => JSNumber.nan
  | e :: rest, k =>
    (rest.take k).foldl (fun total x => total.addDouble x.value.toDouble) e.value.toDouble

/-- Following the spec's words for `getChildByCharTrail`: resolve the characters of the
trail one at a time with `getChildByChar`, null as soon as one fails to resolve; the empty
trail resolves to the node itself. -/
def resolveTrail : NormalizedTable → List Char → Option NormalizedTable
  | n, [] => some n
  | n, c :: rest =>
    match n.getChildByChar [c] with
    | none => none
    | some child => resolveTrail child rest

end NormalizedTable

/-! ## Views for the trie properties -/

namespace ProbTable

mutual
/-- The number of levels of nodes below a node: 0 for a node without children. -/
def height : ProbTable → Nat
  | mk _ _ _ _ n => heightAll n
/-- The height of a `next` array: one more than the highest child, 0 without children. -/
def heightAll : List (Option ProbTable) → Nat
  | [] => 0
  | none :: r => heightAll r
  | some c :: r => max (height c + 1) (heightAll r)
end

/-- Any number of `parseTextLines` calls, one after the other, each with its own lines and
its own value of `capitals`. -/
def trainCalls (cs : Casing) (alphabet : List Char) (t : ProbTable)
    (calls : List (List (List Char) × Bool)) : ProbTable :=
  calls.foldl (fun acc call => parseTextLines cs alphabet acc call.1 call.2) t

end ProbTable

/-! ## The calls made while training -/

namespace ProbTable

/-- A call that `parseTextLines` makes on the trie, with the trail it passes. -/
inductive Call where
  | incrementCharTrail (charTrail : List Int)
  | incrementEndWord (charTrail : List Int)

/-- The trail passed by a call. -/
def Call.charTrail : Call → List Int
  | Call.incrementCharTrail t => t
  | Call.incrementEndWord t => t

/-- The effect of a call on the trie. -/
def Call.apply (alphabet : List Char) (t : ProbTable) : Call → ProbTable
  | Call.incrementCharTrail charTrail => ProbTable.incrementCharTrail alphabet t charTrail
  | Call.incrementEndWord charTrail => ProbTable.incrementEndWord t charTrail 0

/-- The calls that reading `text` makes, in order, starting with the given `charTrail` and
`firstChar`. -/
def callsChars (cs : Casing) (alphabet : List Char) (capitals : Bool) (levels : Nat) :
    List Char × Bool → List Char → List Call
  | _, [] => []
  | st, char :: rest =>
    if accepts cs alphabet capitals st.2 char then
      Call.incrementCharTrail
          (Language.createCharTrail cs (scanStep cs alphabet capitals levels st char).1 alphabet)
        :: callsChars cs alphabet capitals levels (scanStep cs alphabet capitals levels st char)
            rest
    else if st.1.length > 0 then
      Call.incrementEndWord (Language.createCharTrail cs st.1 alphabet)
        :: callsChars cs alphabet capitals levels (scanStep cs alphabet capitals levels st char)
            rest
    else callsChars cs alphabet capitals levels (scanStep cs alphabet capitals levels st char) rest

/-- The calls that reading the lines makes, in order: `firstChar` is set at the start of
each line and `charTrail` goes on from the line before. -/
def callsLines (cs : Casing) (alphabet : List Char) (capitals : Bool) (levels : Nat) :
    List Char × Bool → List (List Char) → List Call
  | _, [] => []
  | st, line :: rest =>
    callsChars cs alphabet capitals levels (st.1, true) line
      ++ callsLines cs alphabet capitals levels
          (line.foldl (scanStep cs alphabet capitals levels) (st.1, true)) rest

end ProbTable

/-! ## Counts by path -/

namespace ProbTable

/-- The raw count of index `i` in the node reached along `path`; 0 when there is no such
node or the node has no such index. -/
def countAt (t : ProbTable) (path : List Int) (i : Int) : Nat :=
  match t.descend path with
  | some node => if i < 0 then 0 else node.probabilities.getD i.toNat 0
  | none => 0

/-- The end-of-word count of slot `j` in the node reached along `path`; 0 when there is no
such node or the node has no such slot. -/
def endCountAt (t : ProbTable) (path : List Int) (j : Nat) : Nat :=
  match t.descend path with
  | some node => node.endProbability.getD j 0
  | none => 0

/-- Every node has one count for each character of the alphabet and one more, as the
constructor makes them. -/
def CountsSized (alphabet : List Char) (t : ProbTable) : Prop :=
  ∀ (path : List Int) (node : ProbTable), t.descend path = some node →
    node.probabilities.length = alphabet.length + 1

/-- The node in which `incrementCharTrail` goes on after index `i`: the child for `i`, or
a new node when there is none. -/
def childOrCreate (alphabet : List Char) (t : ProbTable) (i : Int) : ProbTable :=
  match childAt t.next i with
  | some c => c
  | none => create alphabet t.language t.levels

end ProbTable

/-! ## The updates of `incrementEndWord` -/

namespace ProbTable

/-- The non-empty suffixes of a trail, the longest first. -/
def suffixes : List Int → List (List Int)
  | [] => []
  | c :: rest => (c :: rest) :: suffixes rest

/-- The path of the deepest existing node along a trail: the indices followed by the first
loop of `incrementEndWord` before it stops. -/
def deepest : ProbTable → List Int → List Int
  | _, [] => []
  | t, c :: rest =>
    match t.child c with
    | some ch => c :: deepest ch rest
    | none => []

/-- The number of end-count slots raised by the update for a suffix, in a call with a trail
of length `L`: slots `0 .. levels-1` for the whole trail, slots `0 .. levels-m` for a
shorter suffix of length `m`. -/
def endSlots (levels L : Nat) (suffix : List Int) : Nat :=
  if suffix.length = L then levels else levels + 1 - suffix.length

/-- Every node has `L` end-count slots, as the constructor makes them for maximum order
`L`. -/
def EndSized (L : Nat) (t : ProbTable) : Prop :=
  ∀ (path : List Int) (node : ProbTable), t.descend path = some node →
    node.endProbability.length = L

end ProbTable

/-! ## Counts and children -/

namespace ProbTable

/-- An index that `createCharTrail` yields for a character of the alphabet: the position of
the first occurrence of that character. -/
def Canonical (alphabet : List Char) (c : Int) : Prop :=
  0 ≤ c ∧ ∃ ch, alphabet.get? c.toNat = some ch ∧ Language.indexOf alphabet ch = c

/-- What training keeps true of every node: a position with a positive count has a child,
and is the position of the first occurrence of a character of the alphabet. -/
inductive Consistent (alphabet : List Char) : ProbTable → Prop where
  | mk (g : String) (l : Nat) (p e : List Nat) (n : List (Option ProbTable))
      (hp : ∀ i : Nat, 0 < p.getD i 0 →
        ((n.get? i).join).isSome = true
          ∧ ∃ ch, alphabet.get? i = some ch ∧ Language.indexOf alphabet ch = (i : Int))
      (hn : ∀ c, some c ∈ n → Consistent alphabet c) : Consistent alphabet (mk g l p e n)

end ProbTable

namespace NormalizedTable

mutual
/-- Every node of a runtime tree, the root first. -/
def nodes : NormalizedTable → List NormalizedTable
  | mk g l p e n => mk g l p e n :: nodesAll n
/-- The nodes of the trees of a list. -/
def nodesAll : List NormalizedTable → List NormalizedTable
  | [] => []
  | t :: ts => nodes t ++ nodesAll ts
end

end NormalizedTable

/-! ## Scenarios -/

/-- The alphabet of the concrete scenario. -/
def abc : List Char := "abc".toList

/-- The trie of the concrete scenario: alphabet `abc`, `levels = 2`, one training line. -/
def train (line : String) (capitals : Bool) : ProbTable :=
  ProbTable.parseTextLines jsCasing abc (ProbTable.create abc "abc" 2) [line.toList] capitals

/-- The trie trained on the single line `ab ac`. -/
def abAc : ProbTable := train "ab ac" false

/-- A German trie of order 1 trained on one word with a sharp s. -/
def strasse : ProbTable :=
  ProbTable.parseTextLines jsCasing Language.deDE (ProbTable.create Language.deDE "deDE" 1)
    ["Straße ".toList] false

/-- The runtime tree of the German trie. -/
def strasseTable : NormalizedTable := strasse.getNormalizedTable Language.deDE

/-- The runtime tree of the concrete scenario. -/
def abAcTable : NormalizedTable := abAc.getNormalizedTable abc

/-- The options of the concrete scenario: `minLength = 1`, `maxLength = 2`, no `levels`. -/
def abAcOptions (endFactor : Option NormalizedTable.EndFactor)
    (endBacktrack endProbIndex : Option Int) : NormalizedTable.Options :=
  { minLength := 1, maxLength := 2, endFactor := endFactor, levels := none,
    endBacktrack := endBacktrack, endProbIndex := endProbIndex }

/-- The ten letters of the scenario with equal values. -/
def tenLetters : List Char := "abcdefghij".toList

/-- The runtime tree of the trie of order 1 trained on the ten letters, each seen once: ten
entries with the value 1/10. -/
def tenths : NormalizedTable :=
  (ProbTable.parseTextLines jsCasing tenLetters (ProbTable.create tenLetters "abcdefghij" 1)
    ["abcdefghij".toList] false).getNormalizedTable tenLetters

/-- A runtime node whose first entry has the value `NaN`. -/
def nanFirst : NormalizedTable :=
  NormalizedTable.mk "abc" 1
    [⟨JSNumber.nan, some 'a'⟩, ⟨JSNumber.finite 1, some 'b'⟩] [JSNumber.finite 0] []

/-- The runtime tree of a fresh trie (alphabet `abc`, `levels = 2`) after
`incrementCharTrail([3])`: 3 is the position past the end of the alphabet, for which the
constructor makes a count, and the one entry of the root has no character. -/
def pastEnd : NormalizedTable :=
  (ProbTable.incrementCharTrail abc (ProbTable.create abc "abc" 2) [3]).getNormalizedTable abc

/-- The Taylor polynomial of degree 4 of the cosine, which stands for the cosine of the
platform in the scenario of the default end factor. -/
def cosTaylor (x : ℚ) : ℚ := 1 - x ^ 2 / 2 + x ^ 4 / 24

/-- The options of the scenario of the default end factor: `minLength = 1`,
`maxLength = 5`, nothing else. -/
def lateOptions : NormalizedTable.Options := { minLength := 1, maxLength := 5 }

/-- The value `Math.cos` returns at `1.5707963267948968`: `-1.6081226496766364e-16`. -/
def cosAboveHalfPi : ℚ := -1630830113682559 / 10141204801825835211973625643008

/-! ## Theorems -/

/-! ### Rounding -/

theorem roundHalfEven_cases (x : ℚ) :
    roundHalfEven x = Int.floor x ∨ roundHalfEven x = Int.floor x + 1 := by
  unfold roundHalfEven
  split
  · exact Or.inl rfl
  · split
    · exact Or.inr rfl
    · split
      · exact Or.inl rfl
      · exact Or.inr rfl

theorem roundHalfEven_sub_le (x : ℚ) : (roundHalfEven x : ℚ) - x ≤ 1 / 2 := by
  have h1 := Int.floor_le x
  unfold roundHalfEven
  split
  · linarith
  · next h =>
    split
    · push_cast; linarith
    · split
      · linarith
      · next h2 _ =>
        push_cast
        have : x - (Int.floor x : ℚ) = 1 / 2 := le_antisymm (not_lt.mp h2) (not_lt.mp h)
        linarith

theorem sub_roundHalfEven_le (x : ℚ) : x - (roundHalfEven x : ℚ) ≤ 1 / 2 := by
  have h1 := Int.lt_floor_add_one x
  unfold roundHalfEven
  split
  · linarith
  · next h =>
    split
    · push_cast; linarith
    · next h2 =>
      have : x - (Int.floor x : ℚ) = 1 / 2 := le_antisymm (not_lt.mp h2) (not_lt.mp h)
      split
      · linarith
      · push_cast; linarith

theorem roundHalfEven_eq (x : ℚ) (m : ℤ) (h1 : (m : ℚ) - 1 / 2 < x) (h2 : x < (m : ℚ) + 1 / 2) :
    roundHalfEven x = m := by
  have hf1 := Int.floor_le x
  have hf2 := Int.lt_floor_add_one x
  rcases roundHalfEven_cases x with h | h
  · have := sub_roundHalfEven_le x
    rw [h] at this ⊢
    have h3 : ((Int.floor x : ℤ) : ℚ) < (m : ℚ) + 1 / 2 := by linarith
    have h4 : (m : ℚ) - 1 < (Int.floor x : ℚ) := by linarith
    have h5 : m - 1 < Int.floor x := by exact_mod_cast h4
    have h6 : (Int.floor x : ℚ) < (m : ℚ) + 1 := by linarith
    have h7 : Int.floor x < m + 1 := by exact_mod_cast h6
    omega
  · have := roundHalfEven_sub_le x
    rw [h] at this ⊢
    push_cast at this
    have h4 : (m : ℚ) - 1 < (Int.floor x : ℚ) + 1 := by linarith
    have h5 : m - 1 < Int.floor x + 1 := by exact_mod_cast h4
    have h6 : (Int.floor x : ℚ) + 1 < (m : ℚ) + 1 := by linarith
    have h7 : Int.floor x + 1 < m + 1 := by exact_mod_cast h6
    omega

theorem roundHalfEven_intCast (m : ℤ) : roundHalfEven (m : ℚ) = m :=
  roundHalfEven_eq _ m (by linarith) (by linarith)

theorem roundHalfEven_le (x : ℚ) (n : ℤ) (h : x ≤ (n : ℚ)) : roundHalfEven x ≤ n := by
  by_contra hlt
  have h1 : n + 1 ≤ roundHalfEven x := by omega
  have h2 : ((n + 1 : ℤ) : ℚ) ≤ (roundHalfEven x : ℚ) := by exact_mod_cast h1
  push_cast at h2
  have hfl : Int.floor x ≤ n := by
    have := Int.floor_le x
    have h3 : (Int.floor x : ℚ) ≤ (n : ℚ) := le_trans this h
    exact_mod_cast h3
  rcases roundHalfEven_cases x with hc | hc
  · omega
  · -- floor x + 1 ≥ n + 1 so floor x = n, so x = n, then rounding gives n
    have hfn : Int.floor x = n := by omega
    have hx : x = (n : ℚ) := by
      have := Int.floor_le x
      rw [hfn] at this
      exact le_antisymm h this
    rw [hx, roundHalfEven_intCast] at h1
    omega

theorem le_roundHalfEven (x : ℚ) (n : ℤ) (h : (n : ℚ) ≤ x) : n ≤ roundHalfEven x := by
  have hfl : n ≤ Int.floor x := Int.le_floor.mpr h
  rcases roundHalfEven_cases x with hc | hc <;> omega

theorem roundHalfEven_mono (x y : ℚ) (h : x ≤ y) : roundHalfEven x ≤ roundHalfEven y := by
  by_contra hlt
  have hlt : roundHalfEven y < roundHalfEven x := not_le.mp hlt
  have hfl : Int.floor x ≤ Int.floor y := Int.floor_mono h
  -- rhe y ≥ floor y ≥ floor x, rhe x ≤ floor x + 1: so rhe y = floor y = floor x, rhe x = floor x + 1
  rcases roundHalfEven_cases x with hx | hx <;> rcases roundHalfEven_cases y with hy | hy
  · omega
  · omega
  · have hff : Int.floor x = Int.floor y := by omega
    have h1 := roundHalfEven_sub_le x
    have h2 := sub_roundHalfEven_le y
    rw [hx] at h1
    rw [hy] at h2
    push_cast at h1
    rw [hff] at h1
    have hxe : x - (Int.floor y : ℚ) = 1 / 2 := by linarith
    have hye : y - (Int.floor y : ℚ) = 1 / 2 := by linarith
    -- both are ties with the same floor: same rounding
    have hxy : x = y := by linarith
    rw [hxy] at hlt
    exact absurd hlt (lt_irrefl _)
  · omega

theorem roundHalfEven_neg (x : ℚ) : roundHalfEven (-x) = -roundHalfEven x := by
  by_cases hint : (Int.floor x : ℚ) = x
  · rw [← hint, ← Int.cast_neg, roundHalfEven_intCast, roundHalfEven_intCast]
  · have hfl : Int.floor (-x) = -(Int.floor x) - 1 := by
      rw [Int.floor_eq_iff]
      have h1 := Int.floor_le x
      have h2 := Int.lt_floor_add_one x
      have h3 : (Int.floor x : ℚ) < x := lt_of_le_of_ne h1 hint
      push_cast
      constructor <;> linarith
    have h1 := Int.floor_le x
    have h2 := Int.lt_floor_add_one x
    unfold roundHalfEven
    rw [hfl]
    push_cast
    by_cases ha : x - (Int.floor x : ℚ) < 1 / 2
    · have hb : ¬ (-x - (-(Int.floor x : ℚ) - 1) < 1 / 2) := by linarith
      have hc : 1 / 2 < -x - (-(Int.floor x : ℚ) - 1) := by linarith
      rw [if_pos ha, if_neg hb, if_pos hc]
      ring
    · by_cases hb : 1 / 2 < x - (Int.floor x : ℚ)
      · have hc : -x - (-(Int.floor x : ℚ) - 1) < 1 / 2 := by linarith
        rw [if_neg ha, if_pos hb, if_pos hc]
        ring
      · have hc : ¬ (-x - (-(Int.floor x : ℚ) - 1) < 1 / 2) := by linarith
        have hd : ¬ (1 / 2 < -x - (-(Int.floor x : ℚ) - 1)) := by linarith
        rw [if_neg ha, if_neg hb, if_neg hc, if_neg hd]
        by_cases he : Int.floor x % 2 = 0
        · have hf : ¬ ((-(Int.floor x) - 1) % 2 = 0) := by omega
          rw [if_pos he, if_neg hf]
          ring
        · have hf : (-(Int.floor x) - 1) % 2 = 0 := by omega
          rw [if_neg he, if_pos hf]
          ring


theorem ulpExp_neg (q : ℚ) : ulpExp (-q) = ulpExp q := by
  unfold ulpExp
  rw [abs_neg]

theorem ulpExp_ge (q : ℚ) : -1074 ≤ ulpExp q := le_max_right _ _

theorem two_zpow_pos (e : ℤ) : (0 : ℚ) < 2 ^ e := zpow_pos (by norm_num) e

theorem log_eq_of_bounds (x : ℚ) (n : ℤ) (h1 : (2 : ℚ) ^ n ≤ x) (h2 : x < 2 ^ (n + 1)) :
    Int.log 2 x = n := by
  have hx : 0 < x := lt_of_lt_of_le (two_zpow_pos n) h1
  have ha : n ≤ Int.log 2 x := by
    have := (Int.zpow_le_iff_le_log (b := 2) (by norm_num) hx (x := n)).mp (by exact_mod_cast h1)
    exact this
  have hb : Int.log 2 x < n + 1 := by
    have := (Int.lt_zpow_iff_log_lt (b := 2) (by norm_num) hx (x := n + 1)).mp (by exact_mod_cast h2)
    exact this
  omega

theorem ulpExp_eq (q : ℚ) (e : ℤ) (he : -1074 ≤ e) (h1 : (2 : ℚ) ^ (e + 52) ≤ |q|)
    (h2 : |q| < 2 ^ (e + 53)) : ulpExp q = e := by
  unfold ulpExp
  rw [log_eq_of_bounds |q| (e + 52) h1 (by rw [show e + 52 + 1 = e + 53 by ring]; exact h2)]
  rw [show e + 52 - 52 = e by ring]
  exact max_eq_left he

theorem ulpExp_le_of_lt (q : ℚ) (g : ℤ) (hq : q ≠ 0) (hg : -1074 ≤ g) (h : |q| < 2 ^ (g + 53)) :
    ulpExp q ≤ g := by
  unfold ulpExp
  have hx : 0 < |q| := abs_pos.mpr hq
  have hb : Int.log 2 |q| < g + 53 :=
    (Int.lt_zpow_iff_log_lt (b := 2) (by norm_num) hx (x := g + 53)).mp (by exact_mod_cast h)
  exact max_le (by omega) hg

theorem ulpExp_mono (q r : ℚ) (hq : q ≠ 0) (h : |q| ≤ |r|) : ulpExp q ≤ ulpExp r := by
  unfold ulpExp
  have := Int.log_mono_right (b := 2) (abs_pos.mpr hq) h
  exact max_le_max (by omega) (le_refl _)

theorem roundValue_zero : roundValue 0 = 0 := by
  unfold roundValue
  rw [zero_div, ← Int.cast_zero, roundHalfEven_intCast]
  simp

theorem roundValue_neg (q : ℚ) : roundValue (-q) = -roundValue q := by
  unfold roundValue
  rw [ulpExp_neg, neg_div, roundHalfEven_neg]
  push_cast
  ring

theorem roundValue_nonneg (q : ℚ) (h : 0 ≤ q) : 0 ≤ roundValue q := by
  unfold roundValue
  have h1 : (0 : ℚ) ≤ q / 2 ^ ulpExp q := div_nonneg h (le_of_lt (two_zpow_pos _))
  have h2 : (0 : ℤ) ≤ roundHalfEven (q / 2 ^ ulpExp q) := le_roundHalfEven _ 0 (by exact_mod_cast h1)
  have h3 : (0 : ℚ) ≤ (roundHalfEven (q / 2 ^ ulpExp q) : ℚ) := by exact_mod_cast h2
  exact mul_nonneg h3 (le_of_lt (two_zpow_pos _))

/-- A multiple of a power of two lies on the grid of every finer power of two. -/
theorem grid_refine (M : ℤ) (g e : ℤ) (h : e ≤ g) :
    ∃ N : ℤ, (M : ℚ) * 2 ^ g / 2 ^ e = (N : ℚ) := by
  obtain ⟨k, hk⟩ := Int.eq_ofNat_of_zero_le (sub_nonneg.mpr h)
  refine ⟨M * 2 ^ k, ?_⟩
  have hge : g = e + (k : ℤ) := by omega
  rw [hge, zpow_add₀ (by norm_num : (2 : ℚ) ≠ 0), zpow_natCast]
  have := two_zpow_pos e
  field_simp
  ring

theorem roundValue_le_of_le_grid (q : ℚ) (M : ℤ) (g : ℤ) (he : ulpExp q ≤ g)
    (h : q ≤ (M : ℚ) * 2 ^ g) : roundValue q ≤ (M : ℚ) * 2 ^ g := by
  obtain ⟨N, hN⟩ := grid_refine M g (ulpExp q) he
  have hp := two_zpow_pos (ulpExp q)
  have h1 : q / 2 ^ ulpExp q ≤ (N : ℚ) := by
    rw [← hN]
    exact div_le_div_of_nonneg_right h (le_of_lt hp)
  have h2 : roundHalfEven (q / 2 ^ ulpExp q) ≤ N := roundHalfEven_le _ N h1
  have h3 : (roundHalfEven (q / 2 ^ ulpExp q) : ℚ) ≤ (N : ℚ) := by exact_mod_cast h2
  unfold roundValue
  calc (roundHalfEven (q / 2 ^ ulpExp q) : ℚ) * 2 ^ ulpExp q
      ≤ (N : ℚ) * 2 ^ ulpExp q := mul_le_mul_of_nonneg_right h3 (le_of_lt hp)
    _ = (M : ℚ) * 2 ^ g := by
      rw [← hN]
      field_simp

theorem le_roundValue_of_grid_le (q : ℚ) (M : ℤ) (g : ℤ) (he : ulpExp q ≤ g)
    (h : (M : ℚ) * 2 ^ g ≤ q) : (M : ℚ) * 2 ^ g ≤ roundValue q := by
  obtain ⟨N, hN⟩ := grid_refine M g (ulpExp q) he
  have hp := two_zpow_pos (ulpExp q)
  have h1 : (N : ℚ) ≤ q / 2 ^ ulpExp q := by
    rw [← hN]
    exact div_le_div_of_nonneg_right h (le_of_lt hp)
  have h2 : N ≤ roundHalfEven (q / 2 ^ ulpExp q) := le_roundHalfEven _ N h1
  have h3 : (N : ℚ) ≤ (roundHalfEven (q / 2 ^ ulpExp q) : ℚ) := by exact_mod_cast h2
  unfold roundValue
  calc (M : ℚ) * 2 ^ g = (N : ℚ) * 2 ^ ulpExp q := by
        rw [← hN]
        field_simp
    _ ≤ (roundHalfEven (q / 2 ^ ulpExp q) : ℚ) * 2 ^ ulpExp q :=
        mul_le_mul_of_nonneg_right h3 (le_of_lt hp)

/-- A number on the grid of its own size is its own rounding. -/
theorem roundValue_of_grid (q : ℚ) (M : ℤ) (g : ℤ) (hg : -1074 ≤ g)
    (hq : q = (M : ℚ) * 2 ^ g) (hlt : |q| < 2 ^ (g + 53)) : roundValue q = q := by
  by_cases h0 : q = 0
  · rw [h0, roundValue_zero]
  · have he := ulpExp_le_of_lt q g h0 hg hlt
    apply le_antisymm
    · have := roundValue_le_of_le_grid q M g he (le_of_eq hq)
      rw [← hq] at this
      exact this
    · have := le_roundValue_of_grid_le q M g he (le_of_eq hq.symm)
      rw [← hq] at this
      exact this

theorem roundValue_eq (q : ℚ) (e m : ℤ) (he : -1074 ≤ e) (h1 : (2 : ℚ) ^ (e + 52) ≤ |q|)
    (h2 : |q| < 2 ^ (e + 53)) (h3 : ((m : ℚ) - 1 / 2) * 2 ^ e < q)
    (h4 : q < ((m : ℚ) + 1 / 2) * 2 ^ e) : roundValue q = (m : ℚ) * 2 ^ e := by
  unfold roundValue
  rw [ulpExp_eq q e he h1 h2]
  have hp := two_zpow_pos e
  rw [roundHalfEven_eq (q / 2 ^ e) m]
  · rw [lt_div_iff₀ hp]
    exact h3
  · rw [div_lt_iff₀ hp]
    exact h4

theorem roundValue_sub_le (q : ℚ) : roundValue q - q ≤ 2 ^ ulpExp q / 2 := by
  have hp := two_zpow_pos (ulpExp q)
  have h := roundHalfEven_sub_le (q / 2 ^ ulpExp q)
  unfold roundValue
  have h2 : q = q / 2 ^ ulpExp q * 2 ^ ulpExp q := by field_simp
  calc (roundHalfEven (q / 2 ^ ulpExp q) : ℚ) * 2 ^ ulpExp q - q
      = ((roundHalfEven (q / 2 ^ ulpExp q) : ℚ) - q / 2 ^ ulpExp q) * 2 ^ ulpExp q := by
        rw [sub_mul, ← h2]
    _ ≤ 1 / 2 * 2 ^ ulpExp q := mul_le_mul_of_nonneg_right h (le_of_lt hp)
    _ = 2 ^ ulpExp q / 2 := by ring

/-- In the normal range rounding raises a positive number by at most one part in `2 ^ 53`. -/
theorem roundValue_le_rel (q : ℚ) (hq : (2 : ℚ) ^ (-1022 : ℤ) ≤ q) :
    roundValue q ≤ q * (1 + 1 / 2 ^ 53) := by
  have hpos : 0 < q := lt_of_lt_of_le (two_zpow_pos _) hq
  have habs : |q| = q := abs_of_pos hpos
  have hlog : -1022 ≤ Int.log 2 |q| := by
    rw [habs]
    exact (Int.zpow_le_iff_le_log (b := 2) (by norm_num) hpos (x := -1022)).mp
      (by exact_mod_cast hq)
  have he : ulpExp q = Int.log 2 |q| - 52 := by
    unfold ulpExp
    exact max_eq_left (by omega)
  have hle : (2 : ℚ) ^ (ulpExp q + 52) ≤ q := by
    rw [he, show Int.log 2 |q| - 52 + 52 = Int.log 2 |q| by ring, habs]
    exact_mod_cast Int.zpow_log_le_self (b := 2) (by norm_num) hpos
  have h := roundValue_sub_le q
  have h2 : (2 : ℚ) ^ (ulpExp q + 52) = 2 ^ ulpExp q * 2 ^ 52 := by
    rw [zpow_add₀ (by norm_num : (2 : ℚ) ≠ 0)]
    norm_num
  rw [h2] at hle
  have hp := two_zpow_pos (ulpExp q)
  have h3 : (2 : ℚ) ^ ulpExp q / 2 ≤ q * (1 / 2 ^ 53) := by
    have : (2 : ℚ) ^ ulpExp q * 2 ^ 52 * (1 / 2 ^ 53) ≤ q * (1 / 2 ^ 53) :=
      mul_le_mul_of_nonneg_right hle (by positivity)
    calc (2 : ℚ) ^ ulpExp q / 2 = 2 ^ ulpExp q * 2 ^ 52 * (1 / 2 ^ 53) := by ring
      _ ≤ q * (1 / 2 ^ 53) := this
  linarith

theorem roundValue_mono_pos (q r : ℚ) (hq : 0 < q) (h : q ≤ r) :
    roundValue q ≤ roundValue r := by
  have hr : 0 < r := lt_of_lt_of_le hq h
  have haq : |q| = q := abs_of_pos hq
  have har : |r| = r := abs_of_pos hr
  have hee : ulpExp q ≤ ulpExp r := ulpExp_mono q r (ne_of_gt hq) (by rw [haq, har]; exact h)
  rcases eq_or_lt_of_le hee with heq | hlt
  · unfold roundValue
    rw [← heq]
    have hp := two_zpow_pos (ulpExp q)
    have h1 : q / 2 ^ ulpExp q ≤ r / 2 ^ ulpExp q := div_le_div_of_nonneg_right h (le_of_lt hp)
    have h2 := roundHalfEven_mono _ _ h1
    have h3 : (roundHalfEven (q / 2 ^ ulpExp q) : ℚ) ≤ (roundHalfEven (r / 2 ^ ulpExp q) : ℚ) := by
      exact_mod_cast h2
    exact mul_le_mul_of_nonneg_right h3 (le_of_lt hp)
  · -- the exponent of r is larger: a power of two lies between the two roundings
    have her : ulpExp r = Int.log 2 |r| - 52 := by
      have h1074 := ulpExp_ge q
      unfold ulpExp at hlt ⊢
      apply max_eq_left
      by_contra hcon
      rw [max_eq_right (le_of_lt (not_le.mp hcon))] at hlt
      unfold ulpExp at h1074
      omega
    have hqlog : Int.log 2 |q| - 52 ≤ ulpExp q := le_max_left _ _
    have hmid1 : q ≤ (1 : ℤ) * (2 : ℚ) ^ (ulpExp q + 53) := by
      have := Int.lt_zpow_succ_log_self (b := 2) (by norm_num) q
      have h2 : ((2 : ℕ) : ℚ) ^ (Int.log 2 q + 1) ≤ (2 : ℚ) ^ (ulpExp q + 53) := by
        rw [haq] at hqlog
        exact_mod_cast zpow_le_zpow_right₀ (by norm_num : (1 : ℚ) ≤ 2) (by omega)
      push_cast
      linarith
    have hmid2 : (1 : ℤ) * (2 : ℚ) ^ (ulpExp r + 52) ≤ r := by
      rw [her, show Int.log 2 |r| - 52 + 52 = Int.log 2 |r| by ring, har]
      have := Int.zpow_log_le_self (b := 2) (by norm_num) hr
      rw [Int.cast_one, one_mul]
      exact_mod_cast this
    have hA := roundValue_le_of_le_grid q 1 (ulpExp q + 53) (by omega) hmid1
    have hB := le_roundValue_of_grid_le r 1 (ulpExp r + 52) (by omega) hmid2
    have hC : (2 : ℚ) ^ (ulpExp q + 53) ≤ 2 ^ (ulpExp r + 52) :=
      zpow_le_zpow_right₀ (by norm_num) (by omega)
    push_cast at hA hB
    linarith

theorem roundValue_nonpos (q : ℚ) (h : q ≤ 0) : roundValue q ≤ 0 := by
  have := roundValue_nonneg (-q) (by linarith)
  rw [roundValue_neg] at this
  linarith

theorem roundValue_mono (q r : ℚ) (h : q ≤ r) : roundValue q ≤ roundValue r := by
  rcases lt_trichotomy 0 q with hq | hq | hq
  · exact roundValue_mono_pos q r hq h
  · rw [← hq, roundValue_zero]
    exact roundValue_nonneg r (by linarith)
  · rcases le_or_lt 0 r with hr | hr
    · exact le_trans (roundValue_nonpos q (le_of_lt hq)) (roundValue_nonneg r hr)
    · have := roundValue_mono_pos (-r) (-q) (by linarith) (by linarith)
      rw [roundValue_neg, roundValue_neg] at this
      linarith


theorem roundDouble_eval (q r : ℚ) (e m : ℤ) (he : -1074 ≤ e) (hr : r = (m : ℚ) * 2 ^ e)
    (h0 : 0 < q) (h1 : (2 : ℚ) ^ (e + 52) ≤ q) (h2 : q < 2 ^ (e + 53))
    (h3 : ((m : ℚ) - 1 / 2) * 2 ^ e < q) (h4 : q < ((m : ℚ) + 1 / 2) * 2 ^ e)
    (hmax : r < 2 ^ 1024) : roundDouble q = JSNumber.finite r := by
  have habs : |q| = q := abs_of_pos h0
  have hv : roundValue q = r := by
    rw [hr]
    exact roundValue_eq q e m he (by rw [habs]; exact h1) (by rw [habs]; exact h2) h3 h4
  have hnn : 0 ≤ r := by
    rw [← hv]
    exact roundValue_nonneg q (le_of_lt h0)
  unfold roundDouble
  rw [hv, if_neg (not_le.mpr hmax), if_neg]
  intro hle
  have : (0 : ℚ) < 2 ^ 1024 := by positivity
  linarith


theorem roundHalfEven_eq_even (x : ℚ) (m : ℤ) (hm : m % 2 = 0) (h1 : (m : ℚ) - 1 / 2 ≤ x)
    (h2 : x ≤ (m : ℚ) + 1 / 2) : roundHalfEven x = m := by
  rcases eq_or_lt_of_le h1 with h1e | h1l
  · -- x = m - 1/2
    have hx : x = ((m - 1 : ℤ) : ℚ) + 1 / 2 := by push_cast; linarith
    have hfl : Int.floor x = m - 1 := by
      rw [Int.floor_eq_iff]
      constructor
      · rw [hx]; linarith
      · rw [hx]; push_cast; linarith
    unfold roundHalfEven
    rw [hfl]
    have ha : ¬ (x - ((m - 1 : ℤ) : ℚ) < 1 / 2) := by rw [hx]; linarith
    have hb : ¬ (1 / 2 < x - ((m - 1 : ℤ) : ℚ)) := by rw [hx]; linarith
    have hc : ¬ ((m - 1) % 2 = 0) := by omega
    rw [if_neg ha, if_neg hb, if_neg hc]
    ring
  · rcases eq_or_lt_of_le h2 with h2e | h2l
    · have hfl : Int.floor x = m := by
        rw [Int.floor_eq_iff]
        constructor <;> linarith
      unfold roundHalfEven
      rw [hfl]
      have ha : ¬ (x - (m : ℚ) < 1 / 2) := by linarith
      have hb : ¬ (1 / 2 < x - (m : ℚ)) := by linarith
      rw [if_neg ha, if_neg hb, if_pos hm]
    · exact roundHalfEven_eq x m h1l h2l

theorem roundDouble_eval_even (q r : ℚ) (e m : ℤ) (he : -1074 ≤ e) (hm : m % 2 = 0)
    (hr : r = (m : ℚ) * 2 ^ e)
    (h0 : 0 < q) (h1 : (2 : ℚ) ^ (e + 52) ≤ q) (h2 : q < 2 ^ (e + 53))
    (h3 : ((m : ℚ) - 1 / 2) * 2 ^ e ≤ q) (h4 : q ≤ ((m : ℚ) + 1 / 2) * 2 ^ e)
    (hmax : r < 2 ^ 1024) : roundDouble q = JSNumber.finite r := by
  have habs : |q| = q := abs_of_pos h0
  have hp := two_zpow_pos e
  have hv : roundValue q = r := by
    rw [hr]
    unfold roundValue
    rw [ulpExp_eq q e he (by rw [habs]; exact h1) (by rw [habs]; exact h2)]
    rw [roundHalfEven_eq_even (q / 2 ^ e) m hm]
    · rw [le_div_iff₀ hp]
      exact h3
    · rw [div_le_iff₀ hp]
      exact h4
  have hnn : 0 ≤ r := by
    rw [← hv]
    exact roundValue_nonneg q (le_of_lt h0)
  unfold roundDouble
  rw [hv, if_neg (not_le.mpr hmax), if_neg]
  intro hle
  have : (0 : ℚ) < 2 ^ 1024 := by positivity
  linarith



namespace NormalizedTable

theorem getChildByChar_mem (t c : NormalizedTable) (s : List Char)
    (h : t.getChildByChar s = some c) : c = t ∨ c ∈ t.next := by
  unfold getChildByChar at h
  split at h
  · left
    exact (Option.some.inj h).symm
  · split at h
    · right
      exact List.get?_mem h
    · cases h

theorem CharsDefined.entry {t : NormalizedTable} (h : CharsDefined t) :
    ∀ x ∈ t.probabilities, x.char ≠ none := by
  cases h with
  | mk g l p e n hp hn => exact hp

theorem CharsDefined.of_next {t : NormalizedTable} (h : CharsDefined t) :
    ∀ c ∈ t.next, CharsDefined c := by
  cases h with
  | mk g l p e n hp hn => exact hn

theorem CharsDefined.child {t c : NormalizedTable} (h : CharsDefined t) (s : List Char)
    (hc : t.getChildByChar s = some c) : CharsDefined c := by
  rcases getChildByChar_mem t c s hc with rfl | hm
  · exact h
  · exact h.of_next c hm

theorem CharsDefined.trail {c : NormalizedTable} :
    ∀ (s : List Char) (t : NormalizedTable), CharsDefined t →
      t.getChildByCharTrail s = some c → CharsDefined c
  | [], t, h, hc => by
    simp only [getChildByCharTrail, Option.some.injEq] at hc
    exact hc ▸ h
  | [x], t, h, hc => by
    simp only [getChildByCharTrail] at hc
    exact h.child [x] hc
  | x :: y :: rest, t, h, hc => by
    simp only [getChildByCharTrail] at hc
    split at hc
    · cases hc
    · next child hchild =>
      exact CharsDefined.trail (y :: rest) child (h.child [x] hchild) hc

theorem scanProb_mem (prob : ℚ) :
    ∀ (rest : List ProbEntry) (total : JSNumber) (char : Option Char),
      scanProb prob total char rest = char ∨ ∃ e ∈ rest, scanProb prob total char rest = e.char
  | [], total, char => by simp [scanProb]
  | e :: rest, total, char => by
    simp only [scanProb]
    split
    · right
      rcases scanProb_mem prob rest (total.addDouble e.value.toDouble) e.char with
        h | ⟨x, hx, h⟩
      · exact ⟨e, List.mem_cons_self _ _, h⟩
      · exact ⟨x, List.mem_cons_of_mem _ hx, h⟩
    · left
      rfl

theorem getCharFromProb_mem (t : NormalizedTable) (prob : ℚ) (h : t.probabilities ≠ []) :
    ∃ e ∈ t.probabilities, t.getCharFromProb prob = some e.char := by
  unfold getCharFromProb
  cases hp : t.probabilities with
  | nil => exact absurd hp h
  | cons e rest =>
    simp only [Option.some.injEq]
    rcases scanProb_mem prob rest e.value.toDouble e.char with h1 | ⟨x, hx, h1⟩
    · exact ⟨e, List.mem_cons_self _ _, h1⟩
    · exact ⟨x, List.mem_cons_of_mem _ hx, h1⟩

theorem backoff_spec (root : NormalizedTable) (hroot : root.probabilities ≠ []) :
    ∀ (fuel : Nat) (charTrail : List Char), charTrail.length < fuel →
      ∃ k node, backoff root fuel charTrail = some (k, charTrail.drop k, node)
        ∧ k ≤ charTrail.length ∧ node.probabilities ≠ []
        ∧ root.getChildByCharTrail (charTrail.drop k) = some node
  | 0, _, h => absurd h (Nat.not_lt_zero _)
  | fuel + 1, [], _ => by
    refine ⟨0, root, ?_, Nat.le_refl _, hroot, rfl⟩
    simp [backoff, getChildByCharTrail, hroot]
  | fuel + 1, c :: cs, h => by
    have hlt : cs.length < fuel := by simpa using h
    obtain ⟨k, node, hk, hkl, hne, hlook⟩ := backoff_spec root hroot fuel cs hlt
    have hagain : (backoff root fuel ((c :: cs).drop 1)).map (fun r => (r.1 + 1, r.2))
        = some (k + 1, (c :: cs).drop (k + 1), node) := by
      simp [hk]
    cases hl : root.getChildByCharTrail (c :: cs) with
    | none =>
      refine ⟨k + 1, node, ?_, by simpa using hkl, hne, by simpa using hlook⟩
      rw [backoff, hl]
      exact hagain
    | some temp =>
      by_cases hz : temp.probabilities.length = 0
      · refine ⟨k + 1, node, ?_, by simpa using hkl, hne, by simpa using hlook⟩
        rw [backoff, hl]
        simp only [hz, if_true]
        exact hagain
      · refine ⟨0, temp, ?_, Nat.zero_le _, ?_, by simpa using hl⟩
        · rw [backoff, hl]
          simp [hz]
        · intro h0
          exact hz (by simp [h0])

theorem pushTrail_length (levels : Int) (L : Nat) (hL : levels ≤ L) (charTrail : List Char)
    (c : Char) (h : charTrail.length ≤ L) : (pushTrail levels charTrail (some c)).length ≤ L := by
  simp only [pushTrail, appendChar]
  split
  · simp
    exact h
  · next hgt =>
    have h1 : ((charTrail ++ [c]).length : Int) ≤ levels := not_lt.mp hgt
    have h2 : ((charTrail ++ [c]).length : Int) ≤ (L : Int) := le_trans h1 hL
    exact_mod_cast h2

theorem genLevels_le (t : NormalizedTable) (options : Options) :
    genLevels t options ≤ (t.levels : Int) := by
  unfold genLevels
  split
  · split
    · next h => exact le_of_lt h
    · exact le_refl _
  · exact le_refl _

theorem genLoop_spec (root : NormalizedTable) (hroot : root.probabilities ≠ [])
    (hcd : CharsDefined root) (minLength maxLength : Nat) (endFactor : EndFactor)
    (levels endBacktrack : Int) (fuel : Nat) (rnd : Nat → ℚ) (L : Nat)
    (hL : levels ≤ L) (hfuel : L < fuel) :
    ∀ (remaining i : Nat) (word charTrail : List Char) (c : Char), charTrail.length ≤ L →
      ∃ rest ks, genLoop root minLength maxLength endFactor levels endBacktrack fuel rnd
          (remaining + 1) i word charTrail (some c) = some (word ++ c :: rest, ks)
        ∧ rest.length ≤ remaining
        ∧ (rest.length < remaining → minLength ≤ (word ++ c :: rest).length)
        ∧ ∀ k ∈ ks, k ≤ L := by
  intro remaining
  induction remaining with
  | zero =>
    intro i word charTrail c hlen
    have hpl := pushTrail_length levels L hL charTrail c hlen
    obtain ⟨k, node, hk, hkl, hne, hlook⟩ :=
      backoff_spec root hroot fuel (pushTrail levels charTrail (some c)) (lt_of_le_of_lt hpl hfuel)
    obtain ⟨e, _, hchar⟩ := getCharFromProb_mem node (rnd (i + 1)) hne
    refine ⟨[], [k], ?_, Nat.le_refl _, fun h => absurd h (Nat.lt_irrefl _), ?_⟩
    · rw [genLoop]
      simp only [hk, hchar, appendChar, genLoop, Option.map_some']
      split <;> rfl
    · intro x hx
      simp only [List.mem_singleton] at hx
      exact hx ▸ le_trans hkl hpl
  | succ n ih =>
    intro i word charTrail c hlen
    have hpl := pushTrail_length levels L hL charTrail c hlen
    obtain ⟨k, node, hk, hkl, hne, hlook⟩ :=
      backoff_spec root hroot fuel (pushTrail levels charTrail (some c)) (lt_of_le_of_lt hpl hfuel)
    obtain ⟨e, he, hchar⟩ := getCharFromProb_mem node (rnd (i + 1)) hne
    have hnode : CharsDefined node := CharsDefined.trail _ root hcd hlook
    obtain ⟨c2, hc2⟩ := Option.ne_none_iff_exists'.mp (hnode.entry e he)
    have hdrop : ((pushTrail levels charTrail (some c)).drop k).length ≤ L := by
      rw [List.length_drop]
      exact le_trans (Nat.sub_le _ _) hpl
    obtain ⟨rest, ks, hrec, hrl, hmin, hks⟩ := ih (i + 1) (word ++ [c]) _ c2 hdrop
    by_cases hstop : (decide ((word ++ [c]).length ≥ minLength)
        && endFactor (endProbAt node.endProbability endBacktrack) (rnd (i + 1))
          (word ++ [c]).length minLength maxLength) = true
    · refine ⟨[], [k], ?_, Nat.zero_le _, ?_, ?_⟩
      · rw [genLoop]
        simp only [hk, appendChar, hstop, if_true]
      · intro _
        simp only [Bool.and_eq_true, decide_eq_true_eq] at hstop
        exact hstop.1
      · intro x hx
        simp only [List.mem_singleton] at hx
        exact hx ▸ le_trans hkl hpl
    · refine ⟨c2 :: rest, k :: ks, ?_, ?_, ?_, ?_⟩
      · rw [genLoop]
        simp only [hk, appendChar, hstop, hchar, hc2, hrec, Option.map_some']
        simp
      · simpa using hrl
      · intro hlt
        have hlt2 : rest.length < n := by simpa using hlt
        have := hmin hlt2
        simpa [Nat.add_assoc] using this
      · intro x hx
        rcases List.mem_cons.mp hx with rfl | hx
        · exact le_trans hkl hpl
        · exact hks x hx

theorem generateRaw_spec (t : NormalizedTable) (hroot : t.probabilities ≠ [])
    (hcd : CharsDefined t) (weighed1 : EndFactor) (options : Options) (fuel : Nat)
    (hfuel : t.levels < fuel) (rnd : Nat → ℚ) :
    ∃ w ks, generateRaw t weighed1 options fuel rnd = some (w, ks)
      ∧ w.length ≤ options.maxLength
      ∧ (w.length < options.maxLength → options.minLength ≤ w.length)
      ∧ ∀ k ∈ ks, k ≤ t.levels := by
  obtain ⟨e, he, hchar⟩ := getCharFromProb_mem t (rnd 0) hroot
  obtain ⟨c, hc⟩ := Option.ne_none_iff_exists'.mp (hcd.entry e he)
  unfold generateRaw
  simp only [hchar, hc]
  cases hmax : options.maxLength with
  | zero =>
    refine ⟨[], [], ?_, Nat.le_refl _, fun h => absurd h (Nat.lt_irrefl _), ?_⟩
    · simp [genLoop]
    · intro k hk
      cases hk
  | succ n =>
    obtain ⟨rest, ks, hrun, hrl, hmin, hks⟩ :=
      genLoop_spec t hroot hcd options.minLength (n + 1)
        (match options.endFactor with
          | some f => f
          | none => weighed1)
        (genLevels t options) (genEndBacktrack t options) fuel rnd t.levels
        (genLevels_le t options) hfuel n 0 [] [] c (Nat.zero_le _)
    refine ⟨_, ks, hrun, ?_, ?_, hks⟩
    · simpa using hrl
    · intro hlt
      exact hmin (by simpa using hlt)

end NormalizedTable

namespace NormalizedTable

mutual
theorem charsDefined_of_test : ∀ t : NormalizedTable, charsDefinedB t = true → CharsDefined t
  | mk g l p e n, h => by
    simp only [charsDefinedB, Bool.and_eq_true, List.all_eq_true] at h
    refine CharsDefined.mk g l p e n ?_ (charsDefined_of_testAll n h.2)
    intro x hx hnone
    have := h.1 x hx
    simp [hnone] at this
theorem charsDefined_of_testAll :
    ∀ ts : List NormalizedTable, charsDefinedAll ts = true → ∀ c ∈ ts, CharsDefined c
  | [], _, c, hc => by cases hc
  | t :: ts, h, c, hc => by
    simp only [charsDefinedAll, Bool.and_eq_true] at h
    rcases List.mem_cons.mp hc with rfl | hc
    · exact charsDefined_of_test c h.1
    · exact charsDefined_of_testAll ts h.2 c hc
end

theorem genLoop_turn (root : NormalizedTable) (minLength maxLength : Nat)
    (endFactor : EndFactor) (levels endBacktrack : Int) (fuel : Nat) (rnd : Nat → ℚ)
    (remaining i : Nat) (word charTrail : List Char) (c : Char) (k : Nat)
    (left : List Char) (temp : NormalizedTable)
    (hb : backoff root fuel (pushTrail levels charTrail (some c)) = some (k, left, temp)) :
    genLoop root minLength maxLength endFactor levels endBacktrack fuel rnd
        (remaining + 1) i word charTrail (some c)
      = if (decide ((word ++ [c]).length ≥ minLength)
            && endFactor (endProbAt temp.endProbability endBacktrack) (rnd (i + 1))
              (word ++ [c]).length minLength maxLength) = true then
          some (word ++ [c], [k])
        else
          match temp.getCharFromProb (rnd (i + 1)) with
          | none => none
          | some char =>
            (genLoop root minLength maxLength endFactor levels endBacktrack fuel rnd
              remaining (i + 1) (word ++ [c]) left char).map (fun r => (r.1, k :: r.2)) := by
  rw [genLoop]
  simp only [hb, appendChar]

/-- When capitalizing keeps the length of every character, the word `generateWord` returns
has between `minLength` and `maxLength` characters. -/
theorem generateWord_length (cs : Casing) (hup : ∀ c, (cs.toUpperCase c).length = 1)
    (t : NormalizedTable) (hroot : t.probabilities ≠ []) (hcd : CharsDefined t)
    (weighed1 : EndFactor) (options : Options) (hmin : options.minLength ≤ options.maxLength)
    (fuel : Nat) (hfuel : t.levels < fuel) (rnd : Nat → ℚ) :
    ∃ w, generateWord cs t weighed1 options fuel rnd = some w
      ∧ options.minLength ≤ w.length ∧ w.length ≤ options.maxLength := by
  obtain ⟨w, ks, h, hle, hge, _⟩ := generateRaw_spec t hroot hcd weighed1 options fuel hfuel rnd
  have hcap : (capitalize cs w).length = w.length := by
    cases w with
    | nil => rfl
    | cons c rest => simp [capitalize, hup c, Nat.add_comm]
  refine ⟨capitalize cs w, by simp [generateWord, h], ?_, ?_⟩
  · rw [hcap]
    rcases Nat.lt_or_ge w.length options.maxLength with hlt | hge2
    · exact hge hlt
    · exact le_trans hmin hge2
  · rw [hcap]
    exact hle

end NormalizedTable

/-! ### C1 -/

theorem strasseTable_eq : strasseTable =
    NormalizedTable.mk "deDE" 1
      [⟨JSNumber.div 1 6, some 'a'⟩, ⟨JSNumber.div 1 6, some 'e'⟩, ⟨JSNumber.div 1 6, some 'r'⟩,
        ⟨JSNumber.div 1 6, some 's'⟩, ⟨JSNumber.div 1 6, some 't'⟩, ⟨JSNumber.div 1 6, some 'ß'⟩]
      [JSNumber.div 0 6]
      [NormalizedTable.mk "deDE" 1 [] [JSNumber.div 0 0] [],
        NormalizedTable.mk "deDE" 1 [] [JSNumber.div 1 1] [],
        NormalizedTable.mk "deDE" 1 [] [JSNumber.div 0 0] [],
        NormalizedTable.mk "deDE" 1 [] [JSNumber.div 0 0] [],
        NormalizedTable.mk "deDE" 1 [] [JSNumber.div 0 0] [],
        NormalizedTable.mk "deDE" 1 [] [JSNumber.div 0 0] []] := by
  rfl

theorem strasseTable_first : strasseTable.getCharFromProb (99 / 100) = some (some 'ß') := by
  have hd : JSNumber.div 1 6 = JSNumber.finite (1 / 6) := by norm_num [JSNumber.div]
  have h0 : roundDouble (1 / 6) = JSNumber.finite (6004799503160661 / 36028797018963968) := by
    apply roundDouble_eval _ _ (-55) 6004799503160661 <;> norm_num
  have h1 : roundDouble (6004799503160661 / 36028797018963968 + 6004799503160661 / 36028797018963968) = JSNumber.finite (6004799503160661 / 18014398509481984) := by
    apply roundDouble_eval _ _ (-54) 6004799503160661 <;> norm_num
  have h2 : roundDouble (6004799503160661 / 18014398509481984 + 6004799503160661 / 36028797018963968) = JSNumber.finite (1 / 2) := by
    apply roundDouble_eval_even _ _ (-54) 9007199254740992 <;> norm_num
  have h3 : roundDouble (1 / 2 + 6004799503160661 / 36028797018963968) = JSNumber.finite (6004799503160661 / 9007199254740992) := by
    apply roundDouble_eval _ _ (-53) 6004799503160661 <;> norm_num
  have h4 : roundDouble (6004799503160661 / 9007199254740992 + 6004799503160661 / 36028797018963968) = JSNumber.finite (3752999689475413 / 4503599627370496) := by
    apply roundDouble_eval _ _ (-53) 7505999378950826 <;> norm_num
  rw [strasseTable_eq]
  simp only [NormalizedTable.getCharFromProb, NormalizedTable.probabilities,
    NormalizedTable.scanProb, hd, JSNumber.toDouble, JSNumber.addDouble, h0, h1, h2, h3, h4,
    JSNumber.ltRat]
  norm_num

/-- C1, at a failing input. The German trie of order 1 trained on the line `Straße `
has a root entry for the sharp s. With `minLength = maxLength = 1` and a first draw of
0.99, `generateWord` picks that entry and capitalizes it to `SS`: the word returned has two
characters, one more than `maxLength`, whatever the end factor. -/
theorem generateWord_exceeds_maxLength (weighed1 : NormalizedTable.EndFactor) (fuel : Nat) :
    NormalizedTable.generateWord jsCasing strasseTable weighed1
        { minLength := 1, maxLength := 1 } (fuel + 2) (fun _ => 99 / 100) = some ['S', 'S']
      ∧ ¬ (['S', 'S'].length ≤ 1) := by
  refine ⟨?_, by decide⟩
  have hroot : strasseTable.probabilities ≠ [] := by
    rw [strasseTable_eq]
    simp [NormalizedTable.probabilities]
  have hcd : NormalizedTable.CharsDefined strasseTable := by
    rw [strasseTable_eq]
    exact NormalizedTable.charsDefined_of_test _ (by rfl)
  obtain ⟨rest, ks, hrun, hrl, _, _⟩ :=
    NormalizedTable.genLoop_spec strasseTable hroot hcd 1 1 weighed1
      (NormalizedTable.genLevels strasseTable { minLength := 1, maxLength := 1 })
      (NormalizedTable.genEndBacktrack strasseTable { minLength := 1, maxLength := 1 })
      (fuel + 2) (fun _ => 99 / 100) strasseTable.levels
      (NormalizedTable.genLevels_le _ _)
      (by rw [strasseTable_eq]; simp [NormalizedTable.levels]) 0 0 [] [] 'ß' (Nat.zero_le _)
  have hrest : rest = [] := List.length_eq_zero.mp (Nat.le_zero.mp hrl)
  subst hrest
  simp only [NormalizedTable.generateWord, NormalizedTable.generateRaw, strasseTable_first]
  simp only [Nat.zero_add, List.nil_append] at hrun
  rw [hrun]
  rfl

/-! ### The scenario tree -/

theorem abAcTable_eq : abAcTable =
    NormalizedTable.mk "abc" 2 [⟨JSNumber.div 4 4, some 'a'⟩] [JSNumber.div 1 5, JSNumber.div 1 5]
      [NormalizedTable.mk "abc" 2
        [⟨JSNumber.div 1 2, some 'b'⟩, ⟨JSNumber.div 1 2, some 'c'⟩]
        [JSNumber.div 0 2, JSNumber.div 0 2]
        [NormalizedTable.mk "abc" 2 [] [JSNumber.div 1 1, JSNumber.div 1 1] [],
          NormalizedTable.mk "abc" 2 [] [JSNumber.div 0 0, JSNumber.div 0 0] []]] := by
  rfl

theorem abAcTable_root : abAcTable.probabilities ≠ [] := by
  rw [abAcTable_eq]
  simp [NormalizedTable.probabilities]

theorem abAcTable_charsDefined : NormalizedTable.CharsDefined abAcTable := by
  rw [abAcTable_eq]
  exact NormalizedTable.charsDefined_of_test _ (by rfl)

/-! ### C4 -/

theorem pastEnd_eq : pastEnd =
    NormalizedTable.mk "abc" 2 [⟨JSNumber.div 1 1, none⟩] [JSNumber.div 0 1, JSNumber.div 0 1]
      [NormalizedTable.mk "abc" 2 [] [JSNumber.div 0 0, JSNumber.div 0 0] []] := by
  rfl

/-- C4, as stated, fails. The runtime tree of a fresh trie (alphabet `abc`, `levels = 2`)
after `incrementCharTrail([3])` has a non-empty root entry list, whose one entry has no
character. `generateWord` appends the text `undefined` to the word and to the trail, the
trail is cut to its last 8 characters, and the backoff loop shortens it 8 times, more than
`levels`, before it reaches the root. -/
theorem backoff_exceeds_levels :
    pastEnd.probabilities ≠ []
      ∧ (∀ (weighed1 : NormalizedTable.EndFactor) (fuel : Nat) (rnd : Nat → ℚ),
          NormalizedTable.generateRaw pastEnd weighed1 { minLength := 1, maxLength := 1 }
            (fuel + 9) rnd = some ("undefined".toList, [8]))
      ∧ ¬ (8 ≤ pastEnd.levels) := by
  refine ⟨by rw [pastEnd_eq]; simp [NormalizedTable.probabilities], ?_,
    by rw [pastEnd_eq]; decide⟩
  intro weighed1 fuel rnd
  have hchar : ∀ q : ℚ, pastEnd.getCharFromProb q = some none := by
    intro q
    rw [pastEnd_eq]
    rfl
  have hgl : NormalizedTable.genLevels pastEnd { minLength := 1, maxLength := 1 } = 2 := by
    rw [pastEnd_eq]
    rfl
  have hb : NormalizedTable.backoff pastEnd (fuel + 9)
      (NormalizedTable.pushTrail 2 [] none) = some (8, [], pastEnd) := by
    rw [pastEnd_eq]
    rfl
  simp only [NormalizedTable.generateRaw, hchar, hgl]
  rw [NormalizedTable.genLoop]
  simp only [hb, hchar, NormalizedTable.genLoop, Option.map_some']
  split <;> rfl

/-- C4, amended. In a runtime tree whose root has an entry and whose entries all carry a
character, as in every tree normalized from a trie trained by `parseTextLines`, looking up
any trail no longer than `levels` and dropping its first character while the lookup fails
stops after at most `levels` shortenings, on the trail that is left, which is the root when
the trail is used up; and in every run of `generateWord` each backoff loop stops after at
most `levels` shortenings. -/
theorem backoff_within_levels (t : NormalizedTable) (hroot : t.probabilities ≠ [])
    (hcd : NormalizedTable.CharsDefined t) (weighed1 : NormalizedTable.EndFactor)
    (options : NormalizedTable.Options) (fuel : Nat) (hfuel : t.levels < fuel)
    (rnd : Nat → ℚ) :
    (∀ charTrail : List Char, charTrail.length ≤ t.levels →
      ∃ k node, NormalizedTable.backoff t fuel charTrail = some (k, charTrail.drop k, node)
        ∧ k ≤ t.levels ∧ k ≤ charTrail.length ∧ node.probabilities ≠ []
        ∧ t.getChildByCharTrail (charTrail.drop k) = some node
        ∧ (k = charTrail.length → node = t))
    ∧ ∃ w ks, NormalizedTable.generateRaw t weighed1 options fuel rnd = some (w, ks)
        ∧ ∀ k ∈ ks, k ≤ t.levels := by
  constructor
  · intro charTrail hlen
    obtain ⟨k, node, hk, hkl, hne, hlook⟩ :=
      NormalizedTable.backoff_spec t hroot fuel charTrail (lt_of_le_of_lt hlen hfuel)
    refine ⟨k, node, hk, le_trans hkl hlen, hkl, hne, hlook, ?_⟩
    intro hkeq
    rw [hkeq, List.drop_length] at hlook
    simp only [NormalizedTable.getChildByCharTrail, Option.some.injEq] at hlook
    exact hlook.symm
  · obtain ⟨w, ks, h, _, _, hks⟩ :=
      NormalizedTable.generateRaw_spec t hroot hcd weighed1 options fuel hfuel rnd
    exact ⟨w, ks, h, hks⟩

theorem roundDouble_half : roundDouble (1 / 2) = JSNumber.finite (1 / 2) := by
  apply roundDouble_eval _ _ (-53) 4503599627370496 <;> norm_num

/-- A run on the tree trained on `ab ac` in which a backoff loop shortens the trail twice:
after `a` and `b` the trail `ab` leads to a node without entries, the trail `b` to no node,
and the empty trail to the root. -/
theorem abAc_run_backoff :
    NormalizedTable.generateRaw abAcTable (fun _ _ _ _ _ => false)
      { minLength := 1, maxLength := 3 } 3 (fun _ => 0) = some ("aba".toList, [0, 2, 0]) := by
  have hroot1 : abAcTable.getCharFromProb 0 = some (some 'a') := by
    rw [abAcTable_eq]
    rfl
  have hd : JSNumber.div 1 2 = JSNumber.finite (1 / 2) := by norm_num [JSNumber.div]
  obtain ⟨nodeA, hb1, hprob⟩ : ∃ temp, NormalizedTable.backoff abAcTable 3
      (NormalizedTable.pushTrail 2 [] (some 'a')) = some (0, ['a'], temp)
      ∧ temp.probabilities = [⟨JSNumber.div 1 2, some 'b'⟩, ⟨JSNumber.div 1 2, some 'c'⟩] := by
    rw [abAcTable_eq]
    exact ⟨_, rfl, rfl⟩
  have hb2 : NormalizedTable.backoff abAcTable 3
      (NormalizedTable.pushTrail 2 ['a'] (some 'b')) = some (2, [], abAcTable) := by
    rw [abAcTable_eq]
    rfl
  have hcharA : nodeA.getCharFromProb 0 = some (some 'b') := by
    simp only [NormalizedTable.getCharFromProb, hprob, NormalizedTable.scanProb, hd,
      JSNumber.toDouble, roundDouble_half, JSNumber.ltRat]
    norm_num
  have hgl : NormalizedTable.genLevels abAcTable { minLength := 1, maxLength := 3 } = 2 := by
    rw [abAcTable_eq]
    rfl
  have t1 := NormalizedTable.genLoop_turn abAcTable 1 3 (fun _ _ _ _ _ => false) 2
    (NormalizedTable.genEndBacktrack abAcTable { minLength := 1, maxLength := 3 }) 3
    (fun _ => 0) 2 0 [] [] 'a' 0 ['a'] nodeA hb1
  have t2 := NormalizedTable.genLoop_turn abAcTable 1 3 (fun _ _ _ _ _ => false) 2
    (NormalizedTable.genEndBacktrack abAcTable { minLength := 1, maxLength := 3 }) 3
    (fun _ => 0) 1 1 ['a'] ['a'] 'b' 2 [] abAcTable hb2
  have t3 := NormalizedTable.genLoop_turn abAcTable 1 3 (fun _ _ _ _ _ => false) 2
    (NormalizedTable.genEndBacktrack abAcTable { minLength := 1, maxLength := 3 }) 3
    (fun _ => 0) 0 2 ['a', 'b'] [] 'a' 0 ['a'] nodeA hb1
  simp only [Bool.and_false, Bool.false_eq_true, if_false, hcharA, hroot1, List.nil_append,
    List.cons_append] at t1 t2 t3
  simp only [NormalizedTable.generateRaw, hroot1, hgl]
  rw [t1, t2, t3]
  rfl

/-- C4, amended, at the tree trained on `ab ac`: the hypotheses hold, a run of `generateWord`
ends, and in the run with every draw 0 the backoff loop of the second turn shortens the
trail twice, as often as `levels`. -/
theorem backoff_within_levels_witness :
    (abAcTable.probabilities ≠ [] ∧ NormalizedTable.CharsDefined abAcTable
      ∧ abAcTable.levels < 3)
    ∧ NormalizedTable.generateRaw abAcTable (fun _ _ _ _ _ => false)
        { minLength := 1, maxLength := 3 } 3 (fun _ => 0) = some ("aba".toList, [0, 2, 0])
    ∧ ∃ w ks, NormalizedTable.generateRaw abAcTable (fun _ _ _ _ _ => false)
        { minLength := 1, maxLength := 3 } 3 (fun _ => 0) = some (w, ks)
        ∧ ∀ k ∈ ks, k ≤ abAcTable.levels :=
  ⟨⟨abAcTable_root, abAcTable_charsDefined, by rw [abAcTable_eq]; decide⟩, abAc_run_backoff,
    (backoff_within_levels abAcTable abAcTable_root abAcTable_charsDefined
      (fun _ _ _ _ _ => false) { minLength := 1, maxLength := 3 } 3
      (by rw [abAcTable_eq]; decide) (fun _ => 0)).2⟩

/-! ### C6 -/

/-- C6. For the runtime tree of the trie trained on the single line `ab ac` (alphabet
`abc`, `levels = 2`, `capitalsOnly = false`), `generateWord` with `minLength = 1`,
`maxLength = 2` and no `options.levels` returns `A`, `Ab` or `Ac`, for every end factor,
every choice of the end-probability slot and every sequence of draws. -/
theorem generateWord_abAc (weighed1 : NormalizedTable.EndFactor)
    (endFactor : Option NormalizedTable.EndFactor) (endBacktrack endProbIndex : Option Int)
    (fuel : Nat) (rnd : Nat → ℚ) :
    NormalizedTable.generateWord jsCasing abAcTable weighed1
        (abAcOptions endFactor endBacktrack endProbIndex) (fuel + 3) rnd
      ∈ [some "A".toList, some "Ab".toList, some "Ac".toList] := by
  have hroot : abAcTable.probabilities ≠ [] := by
    rw [abAcTable_eq]
    simp [NormalizedTable.probabilities]
  have hcd : NormalizedTable.CharsDefined abAcTable := by
    rw [abAcTable_eq]
    exact NormalizedTable.charsDefined_of_test _ (by rfl)
  have hlev : abAcTable.levels < fuel + 3 := by
    rw [abAcTable_eq]
    simp [NormalizedTable.levels]
  have hfirst : abAcTable.getCharFromProb (rnd 0) = some (some 'a') := by
    rw [abAcTable_eq]
    rfl
  generalize hopt : abAcOptions endFactor endBacktrack endProbIndex = options
  have hgl : NormalizedTable.genLevels abAcTable options = 2 := by
    rw [← hopt, abAcTable_eq]
    rfl
  have hmin : options.minLength = 1 := by
    rw [← hopt]
    rfl
  have hmax : options.maxLength = 2 := by
    rw [← hopt]
    rfl
  generalize hef : (match options.endFactor with
    | some f => f
    | none => weighed1) = ef
  have hback : ∃ temp, NormalizedTable.backoff abAcTable (fuel + 3)
      (NormalizedTable.pushTrail 2 [] (some 'a')) = some (0, ['a'], temp)
      ∧ temp.probabilities = [⟨JSNumber.div 1 2, some 'b'⟩, ⟨JSNumber.div 1 2, some 'c'⟩] := by
    rw [abAcTable_eq]
    exact ⟨_, rfl, rfl⟩
  obtain ⟨temp, hb, htemp⟩ := hback
  have hturn := NormalizedTable.genLoop_turn abAcTable 1 2 ef 2
    (NormalizedTable.genEndBacktrack abAcTable options) (fuel + 3) rnd 1 0 [] [] 'a' 0 ['a']
    temp hb
  simp only [NormalizedTable.generateWord, NormalizedTable.generateRaw, hfirst, hgl, hmin, hmax,
    hef]
  rw [hturn]
  split
  · simp [NormalizedTable.capitalize, jsCasing]
    decide
  · obtain ⟨e, he, hchar⟩ := NormalizedTable.getCharFromProb_mem temp (rnd (0 + 1))
      (by rw [htemp]; simp)
    rw [hchar]
    have hc : e.char = some 'b' ∨ e.char = some 'c' := by
      rw [htemp] at he
      simp only [List.mem_cons, List.mem_singleton, List.not_mem_nil, or_false] at he
      rcases he with rfl | rfl
      · exact Or.inl rfl
      · exact Or.inr rfl
    rcases hc with hc | hc
    all_goals
      rw [hc]
      obtain ⟨rest, ks, hrun, hrl, _, _⟩ :=
        NormalizedTable.genLoop_spec abAcTable hroot hcd 1 2 ef 2
          (NormalizedTable.genEndBacktrack abAcTable options) (fuel + 3) rnd (fuel + 2)
          (by exact_mod_cast Nat.le_add_left 2 fuel) (Nat.lt_succ_self _) 0 (0 + 1)
          ([] ++ ['a']) ['a'] _ (by simp)
      have hrest : rest = [] := List.length_eq_zero.mp (Nat.le_zero.mp hrl)
      subst hrest
      simp only [Nat.zero_add, List.nil_append, Nat.reduceAdd] at hrun ⊢
      rw [hrun]
      simp [NormalizedTable.capitalize, jsCasing]
      decide

/-! ### C5 -/

/-- C5, as stated, fails: after training on `ab ac` the root does not hold the counts
a = 2, b = 1, c = 1. -/
theorem abAc_root_counts_not_2_1_1 :
    ¬ (ProbTable.countOf abc abAc 'a' = some 2 ∧ ProbTable.countOf abc abAc 'b' = some 1
      ∧ ProbTable.countOf abc abAc 'c' = some 1) := by
  decide

/-- C5, amended. After training on the single line `ab ac` (alphabet `abc`, `levels = 2`,
`capitalsOnly = false`) the root's raw counts are a = 4, b = 0, c = 0, total 4: the root
counts the first character of every window passed to `incrementCharTrail`. -/
theorem abAc_root_counts :
    ProbTable.countOf abc abAc 'a' = some 4 ∧ ProbTable.countOf abc abAc 'b' = some 0
      ∧ ProbTable.countOf abc abAc 'c' = some 0 ∧ abAc.total = 4 := by
  decide

/-! ### C8 -/

/-- C8, at failing inputs. Training on the line `ab` records no end of word in any node,
while training on `ab` followed by a space records one below `a`, `b`; and the trail is
carried from a line into the next: after the two lines `a` and `b` the node for `a` has
counted a `b`. -/
theorem line_end_not_a_boundary :
    (∀ n ∈ (train "ab" false).nodes, n.endProbability = [0, 0])
      ∧ ((train "ab " false).descend [0, 1]).map ProbTable.endProbability = some [1, 1]
      ∧ ((ProbTable.parseTextLines jsCasing abc (ProbTable.create abc "abc" 2)
            ["a".toList, "b".toList] false).descend [0]).map ProbTable.probabilities
          = some [0, 1, 0, 0] := by
  decide

/-! ### C9 -/

/-- C9, at a failing input. With `capitalsOnly = true` the run `aB`, whose first character
is lowercase, is learned from its first uppercase character on: the root counts a `b` and
has a child for it. -/
theorem capitals_learns_from_lowercase_run :
    ProbTable.countOf abc (train "aB " true) 'b' = some 1
      ∧ ((train "aB " true).descend [1]).map ProbTable.endProbability = some [1, 1] := by
  decide

/-! ### C2 -/

namespace ProbTable

theorem getNormalizedTable_probabilities (alphabet : List Char) (t : ProbTable) :
    (getNormalizedTable alphabet t).probabilities
      = entriesFrom alphabet t.total 0 t.probabilities := by
  cases t with
  | mk g l p e n => simp [getNormalizedTable, NormalizedTable.probabilities, total, probabilities]

theorem sum_entriesFrom (alphabet : List Char) (total : Nat) (htotal : 0 < total) :
    ∀ (ps : List Nat) (i : Nat) (acc : ℚ),
      (entriesFrom alphabet total i ps).foldl (fun a e => a.add e.value) (JSNumber.finite acc)
        = JSNumber.finite (acc + (ps.sum : ℚ) / (total : ℚ))
  | [], i, acc => by simp [entriesFrom]
  | p :: ps, i, acc => by
    have hne : total ≠ 0 := Nat.pos_iff_ne_zero.mp htotal
    by_cases hp : p > 0
    · have hadd : (JSNumber.finite acc).add (JSNumber.div p total)
          = JSNumber.finite (acc + (p : ℚ) / (total : ℚ)) := by
        simp [JSNumber.div, hne, JSNumber.add]
      simp only [entriesFrom, hp, if_true, List.foldl_cons, hadd]
      rw [sum_entriesFrom alphabet total htotal ps (i + 1)]
      congr 1
      simp only [List.sum_cons, Nat.cast_add]
      ring
    · have hp0 : p = 0 := Nat.eq_zero_of_not_pos hp
      simp only [entriesFrom, hp, if_false]
      rw [sum_entriesFrom alphabet total htotal ps (i + 1)]
      simp [hp0]

theorem sumValues_getNormalizedTable (alphabet : List Char) (t : ProbTable)
    (htotal : 0 < t.total) :
    NormalizedTable.sumValues (getNormalizedTable alphabet t).probabilities
      = JSNumber.finite 1 := by
  rw [getNormalizedTable_probabilities, NormalizedTable.sumValues,
    sum_entriesFrom alphabet t.total htotal]
  have hne : ((t.total : ℕ) : ℚ) ≠ 0 := by
    exact_mod_cast Nat.pos_iff_ne_zero.mp htotal
  congr 1
  unfold total at hne ⊢
  rw [zero_add, div_self hne]

end ProbTable

/-- C2. For every node of a trie built from a freshly created `ProbTable` by
`parseTextLines` whose raw counts have a positive sum, the values of the entries that
`getNormalizedTable` emits for that node add up to exactly 1. -/
theorem normalized_values_sum_to_one (cs : Casing) (alphabet : List Char) (language : String)
    (levels : Nat) (lines : List (List Char)) (capitals : Bool) (node : ProbTable)
    (_hnode : node ∈ (ProbTable.parseTextLines cs alphabet
      (ProbTable.create alphabet language levels) lines capitals).nodes)
    (htotal : 0 < node.total) :
    NormalizedTable.sumValues (ProbTable.getNormalizedTable alphabet node).probabilities
      = JSNumber.finite 1 :=
  ProbTable.sumValues_getNormalizedTable alphabet node htotal

theorem ProbTable.mem_nodes_self (t : ProbTable) : t ∈ t.nodes := by
  cases t with
  | mk g l p e n => simp [ProbTable.nodes]

/-- C2, at the root of the trie trained on `ab ac`. -/
theorem normalized_values_sum_to_one_witness :
    (abAc ∈ (ProbTable.parseTextLines jsCasing abc (ProbTable.create abc "abc" 2)
        ["ab ac".toList] false).nodes ∧ 0 < abAc.total)
    ∧ NormalizedTable.sumValues (ProbTable.getNormalizedTable abc abAc).probabilities
      = JSNumber.finite 1 :=
  ⟨⟨ProbTable.mem_nodes_self _, by decide⟩,
    normalized_values_sum_to_one jsCasing abc "abc" 2 ["ab ac".toList] false abAc
      (ProbTable.mem_nodes_self _) (by decide)⟩

/-! ### C10 -/

namespace NormalizedTable

mutual
theorem convert_eq_aux : ∀ obj : MinifiedTable,
    convertToNormalizedTable obj
      = if obj.everyP = true then Except.ok obj.copyFields
        else Except.error "TypeError: result.probabilities is not iterable"
  | MinifiedTable.mk g l p e n => by
    simp only [convertToNormalizedTable, convertNext_eq n, MinifiedTable.everyP,
      MinifiedTable.copyFields]
    cases hn : MinifiedTable.everyPNext n <;> cases p <;> simp
theorem convertNext_eq : ∀ n : Option (List MinifiedTable),
    convertNext n
      = if MinifiedTable.everyPNext n = true then Except.ok (MinifiedTable.copyFieldsNext n)
        else Except.error "TypeError: result.probabilities is not iterable"
  | none => by simp [convertNext, MinifiedTable.everyPNext, MinifiedTable.copyFieldsNext]
  | some ts => by
    simp only [convertNext, convertAll_eq ts, MinifiedTable.everyPNext,
      MinifiedTable.copyFieldsNext]
theorem convertAll_eq : ∀ ts : List MinifiedTable,
    convertAll ts
      = if MinifiedTable.everyPAll ts = true then Except.ok (MinifiedTable.copyFieldsAll ts)
        else Except.error "TypeError: result.probabilities is not iterable"
  | [] => by simp [convertAll, MinifiedTable.everyPAll, MinifiedTable.copyFieldsAll]
  | t :: ts => by
    simp only [convertAll, convert_eq_aux t, convertAll_eq ts, MinifiedTable.everyPAll,
      MinifiedTable.copyFieldsAll]
    cases ht : MinifiedTable.everyP t <;> cases hts : MinifiedTable.everyPAll ts <;> simp
end

end NormalizedTable

/-- C10, as stated, fails: an object whose language is not in the registry is converted
without error, and so is an object that lacks the keys `g`, `l`, `e` and `n` and whose
entry lacks `v` and `c`. -/
theorem convert_accepts_malformed :
    Language.registry "klingon" = none
      ∧ NormalizedTable.convertToNormalizedTable
          (MinifiedTable.mk (some "klingon") (some 1) (some []) (some []) (some []))
        = Except.ok (LoadedTable.mk (some "klingon") (some 1) [] (some []) [])
      ∧ NormalizedTable.convertToNormalizedTable
          (MinifiedTable.mk none none (some [⟨none, none⟩]) none none)
        = Except.ok (LoadedTable.mk none none [⟨none, none⟩] none []) := by
  refine ⟨by decide, by rfl, by rfl⟩

/-- C10, amended. `convertToNormalizedTable` throws, and returns no tree, exactly when the
object or an object below it through `n` lacks the key `p`. Otherwise it returns the tree
whose fields are the values under `g`, `l`, `p` (`v`, `c`), `e` and `n` as they are,
`undefined` where a key is missing and without children where `n` is missing; the registry
is not consulted. -/
theorem convert_eq (obj : MinifiedTable) :
    NormalizedTable.convertToNormalizedTable obj
      = if obj.everyP = true then Except.ok obj.copyFields
        else Except.error "TypeError: result.probabilities is not iterable" :=
  NormalizedTable.convert_eq_aux obj

/-! ### C7 -/

namespace ProbTable

@[simp] theorem language_mk (g : String) (l : Nat) (p e : List Nat)
    (n : List (Option ProbTable)) : (mk g l p e n).language = g := rfl

@[simp] theorem levels_mk (g : String) (l : Nat) (p e : List Nat)
    (n : List (Option ProbTable)) : (mk g l p e n).levels = l := rfl

@[simp] theorem probabilities_mk (g : String) (l : Nat) (p e : List Nat)
    (n : List (Option ProbTable)) : (mk g l p e n).probabilities = p := rfl

@[simp] theorem endProbability_mk (g : String) (l : Nat) (p e : List Nat)
    (n : List (Option ProbTable)) : (mk g l p e n).endProbability = e := rfl

@[simp] theorem next_mk (g : String) (l : Nat) (p e : List Nat)
    (n : List (Option ProbTable)) : (mk g l p e n).next = n := rfl

theorem incrAt_comm : ∀ (p : List Nat) (i j : Nat),
    incrAt (incrAt p i) j = incrAt (incrAt p j) i
  | [], _, _ => rfl
  | _ :: _, 0, 0 => rfl
  | _ :: _, 0, _ + 1 => rfl
  | _ :: _, _ + 1, 0 => rfl
  | x :: xs, i + 1, j + 1 => by
    simp only [incrAt]
    rw [incrAt_comm xs i j]

theorem join_get?_setAt {α : Type} : ∀ (i : Nat) (n : List (Option α)) (j : Nat) (v : α),
    ((setAt n i v).get? j).join = if j = i then some v else (n.get? j).join
  | 0, [], 0, v => by simp [setAt]
  | 0, [], j + 1, v => by simp [setAt]
  | 0, _ :: xs, 0, v => by simp [setAt]
  | 0, _ :: xs, j + 1, v => by simp [setAt]
  | i + 1, [], 0, v => by simp [setAt]
  | i + 1, [], j + 1, v => by
    have := join_get?_setAt i ([] : List (Option α)) j v
    simpa [setAt] using this
  | i + 1, x :: xs, 0, v => by simp [setAt]
  | i + 1, x :: xs, j + 1, v => by
    have := join_get?_setAt i xs j v
    simpa [setAt] using this

theorem setAt_setAt_same {α : Type} : ∀ (i : Nat) (n : List (Option α)) (v w : α),
    setAt (setAt n i v) i w = setAt n i w
  | 0, [], _, _ => rfl
  | 0, _ :: _, _, _ => rfl
  | i + 1, [], v, w => by
    simp only [setAt]
    rw [setAt_setAt_same i [] v w]
  | i + 1, x :: xs, v, w => by
    simp only [setAt]
    rw [setAt_setAt_same i xs v w]

theorem setAt_comm {α : Type} : ∀ (i j : Nat) (n : List (Option α)) (v w : α), i ≠ j →
    setAt (setAt n i v) j w = setAt (setAt n j w) i v
  | 0, 0, _, _, _, h => absurd rfl h
  | 0, j + 1, [], _, _, _ => by simp [setAt]
  | 0, j + 1, _ :: _, _, _, _ => by simp [setAt]
  | i + 1, 0, [], _, _, _ => by simp [setAt]
  | i + 1, 0, _ :: _, _, _, _ => by simp [setAt]
  | i + 1, j + 1, [], v, w, h => by
    simp only [setAt]
    rw [setAt_comm i j [] v w (fun e => h (by rw [e]))]
  | i + 1, j + 1, x :: xs, v, w, h => by
    simp only [setAt]
    rw [setAt_comm i j xs v w (fun e => h (by rw [e]))]

theorem childAt_setAt (n : List (Option ProbTable)) (i : Nat) (j : Int) (hj : ¬ j < 0)
    (v : ProbTable) :
    childAt (setAt n i v) j = if j.toNat = i then some v else childAt n j := by
  simp only [childAt, hj, if_false]
  exact join_get?_setAt i n j.toNat v

theorem incrementCharTrail_comm (alphabet : List Char) :
    ∀ (a : List Int) (t : ProbTable) (b : List Int),
      incrementCharTrail alphabet (incrementCharTrail alphabet t a) b
        = incrementCharTrail alphabet (incrementCharTrail alphabet t b) a
  | [], t, b => by simp [incrementCharTrail]
  | ca :: ra, t, [] => by simp [incrementCharTrail]
  | ca :: ra, t, cb :: rb => by
    by_cases ha : ca < 0
    · simp [incrementCharTrail, ha]
    by_cases hb : cb < 0
    · simp [incrementCharTrail, hb]
    simp only [incrementCharTrail, ha, hb, if_false, language_mk, levels_mk, probabilities_mk,
      endProbability_mk, next_mk]
    rw [childAt_setAt _ _ _ hb, childAt_setAt _ _ _ ha, incrAt_comm]
    by_cases hab : cb.toNat = ca.toNat
    · have hc : childAt t.next cb = childAt t.next ca := by
        simp only [childAt, ha, hb, if_false, hab]
      simp only [hab, if_true, setAt_setAt_same, hc]
      rw [incrementCharTrail_comm alphabet ra _ rb]
    · have hba : ¬ ca.toNat = cb.toNat := fun e => hab e.symm
      simp only [hab, hba, if_false]
      rw [setAt_comm _ _ _ _ _ hba]

theorem clearEnd_eq (t : ProbTable) :
    clearEnd t = mk t.language t.levels t.probabilities (t.endProbability.map (fun _ => 0))
      (clearEndAll t.next) := by
  cases t with
  | mk g l p e n => simp [clearEnd]

theorem get?_clearEndAll : ∀ (n : List (Option ProbTable)) (j : Nat),
    ((clearEndAll n).get? j).join = ((n.get? j).join).map clearEnd
  | [], j => by simp [clearEndAll]
  | none :: r, 0 => by simp [clearEndAll]
  | some c :: r, 0 => by simp [clearEndAll]
  | none :: r, j + 1 => by
    have := get?_clearEndAll r j
    simpa [clearEndAll] using this
  | some c :: r, j + 1 => by
    have := get?_clearEndAll r j
    simpa [clearEndAll] using this

theorem childAt_clearEndAll (n : List (Option ProbTable)) (i : Int) :
    childAt (clearEndAll n) i = (childAt n i).map clearEnd := by
  unfold childAt
  split
  · rfl
  · exact get?_clearEndAll n i.toNat

theorem clearEndAll_setAt : ∀ (i : Nat) (n : List (Option ProbTable)) (v : ProbTable),
    clearEndAll (setAt n i v) = setAt (clearEndAll n) i (clearEnd v)
  | 0, [], v => by simp [setAt, clearEndAll]
  | 0, none :: r, v => by simp [setAt, clearEndAll]
  | 0, some c :: r, v => by simp [setAt, clearEndAll]
  | i + 1, [], v => by
    have := clearEndAll_setAt i [] v
    simpa [setAt, clearEndAll] using this
  | i + 1, none :: r, v => by
    have := clearEndAll_setAt i r v
    simpa [setAt, clearEndAll] using this
  | i + 1, some c :: r, v => by
    have := clearEndAll_setAt i r v
    simpa [setAt, clearEndAll] using this

theorem clearEnd_create (alphabet : List Char) (g : String) (l : Nat) :
    clearEnd (create alphabet g l) = create alphabet g l := by
  simp [create, clearEnd, clearEndAll]

theorem clearEnd_incrementCharTrail (alphabet : List Char) :
    ∀ (trail : List Int) (t : ProbTable),
      clearEnd (incrementCharTrail alphabet t trail)
        = incrementCharTrail alphabet (clearEnd t) trail
  | [], t => by simp [incrementCharTrail]
  | c :: rest, t => by
    by_cases hc : c < 0
    · simp [incrementCharTrail, hc]
    · rw [clearEnd_eq t]
      simp only [incrementCharTrail, hc, if_false, language_mk, levels_mk, probabilities_mk,
        endProbability_mk, next_mk, clearEnd, clearEndAll_setAt, childAt_clearEndAll]
      rw [clearEnd_incrementCharTrail alphabet rest]
      cases childAt t.next c with
      | none => simp [clearEnd_create]
      | some ch => simp

theorem map_bumpEnd : ∀ (n : Nat) (e : List Nat),
    (bumpEnd n e).map (fun _ => 0) = e.map (fun _ => 0)
  | 0, e => by simp [bumpEnd]
  | n + 1, [] => by simp [bumpEnd]
  | n + 1, x :: xs => by
    have := map_bumpEnd n xs
    simp only [bumpEnd, List.map_cons, this]

theorem setAt_self {α : Type} : ∀ (i : Nat) (n : List (Option α)) (v : α),
    (n.get? i).join = some v → setAt n i v = n
  | 0, [], v, h => by simp at h
  | 0, x :: xs, v, h => by
    have hx : x = some v := by simpa using h
    simp [setAt, hx]
  | i + 1, [], v, h => by simp at h
  | i + 1, x :: xs, v, h => by
    have h2 : (xs.get? i).join = some v := by simpa using h
    simp [setAt, setAt_self i xs v h2]

theorem childAt_some (n : List (Option ProbTable)) (i : Int) (c : ProbTable)
    (h : childAt n i = some c) : (n.get? i.toNat).join = some c := by
  unfold childAt at h
  split at h
  · cases h
  · exact h

theorem clearEnd_endAt : ∀ (trail : List Int) (t : ProbTable) (k : Nat),
    clearEnd (endAt t trail k) = clearEnd t
  | [], t, k => by
    rw [clearEnd_eq t]
    simp only [endAt, clearEnd, map_bumpEnd]
  | c :: rest, t, k => by
    rw [clearEnd_eq t]
    simp only [endAt]
    cases h : childAt t.next c with
    | none => simp only [clearEnd, map_bumpEnd]
    | some ch =>
      simp only [clearEnd, clearEndAll_setAt, clearEnd_endAt rest ch k]
      rw [← clearEndAll_setAt, setAt_self _ _ _ (childAt_some _ _ _ h)]

theorem levels_endAt (t : ProbTable) (trail : List Int) (k : Nat) :
    (endAt t trail k).levels = t.levels := by
  cases trail with
  | nil => simp [endAt]
  | cons c rest =>
    simp only [endAt]
    split <;> simp

theorem clearEnd_incrementEndWord : ∀ (trail : List Int) (t : ProbTable) (backTrack : Nat),
    clearEnd (incrementEndWord t trail backTrack) = clearEnd t
  | [], t, b => by simp [incrementEndWord, clearEnd_endAt]
  | [c], t, b => by simp [incrementEndWord, clearEnd_endAt]
  | c :: c2 :: rest, t, b => by
    simp only [incrementEndWord]
    rw [clearEnd_incrementEndWord (c2 :: rest), clearEnd_endAt]

theorem levels_incrementEndWord : ∀ (trail : List Int) (t : ProbTable) (backTrack : Nat),
    (incrementEndWord t trail backTrack).levels = t.levels
  | [], t, b => by simp [incrementEndWord, levels_endAt]
  | [c], t, b => by simp [incrementEndWord, levels_endAt]
  | c :: c2 :: rest, t, b => by
    simp only [incrementEndWord]
    rw [levels_incrementEndWord (c2 :: rest), levels_endAt]

theorem levels_incrementCharTrail (alphabet : List Char) (t : ProbTable) (trail : List Int) :
    (incrementCharTrail alphabet t trail).levels = t.levels := by
  cases trail with
  | nil => simp [incrementCharTrail]
  | cons c rest =>
    simp only [incrementCharTrail]
    split <;> simp

theorem parseChar_view (cs : Casing) (alphabet : List Char) (capitals : Bool)
    (s : ParseState) (char : Char) :
    ((parseChar cs alphabet capitals s char).charTrail,
        (parseChar cs alphabet capitals s char).firstChar)
      = scanStep cs alphabet capitals s.table.levels (s.charTrail, s.firstChar) char
    ∧ (parseChar cs alphabet capitals s char).table.levels = s.table.levels
    ∧ clearEnd (parseChar cs alphabet capitals s char).table
      = if accepts cs alphabet capitals s.firstChar char then
          incrementCharTrail alphabet (clearEnd s.table)
            (Language.createCharTrail cs
              (scanStep cs alphabet capitals s.table.levels (s.charTrail, s.firstChar) char).1
              alphabet)
        else clearEnd s.table := by
  by_cases hacc : accepts cs alphabet capitals s.firstChar char = true
  · have hcond : (Language.isValid (cs.toLowerCase char) alphabet
        && (!capitals || (s.firstChar && cs.toUpperCase char == [char]) || !s.firstChar)) = true :=
      hacc
    simp only [parseChar, hcond, if_true, scanStep, hacc, levels_incrementCharTrail,
      clearEnd_incrementCharTrail, true_and]
  · have hcond : ¬ (Language.isValid (cs.toLowerCase char) alphabet
        && (!capitals || (s.firstChar && cs.toUpperCase char == [char]) || !s.firstChar)) = true :=
      hacc
    by_cases hlen : s.charTrail.length > 0
    · simp [parseChar, hcond, scanStep, hacc, hlen, levels_incrementEndWord,
        clearEnd_incrementEndWord]
    · simp [parseChar, hcond, scanStep, hacc, hlen]

theorem clearEnd_foldl_parseChar (cs : Casing) (alphabet : List Char) (capitals : Bool) :
    ∀ (text : List Char) (s : ParseState),
      clearEnd (text.foldl (parseChar cs alphabet capitals) s).table
        = (windows cs alphabet capitals s.table.levels (s.charTrail, s.firstChar) text).foldl
            (incrementCharTrail alphabet) (clearEnd s.table)
  | [], s => by simp [windows]
  | char :: rest, s => by
    obtain ⟨hst, hlev, htab⟩ := parseChar_view cs alphabet capitals s char
    rw [List.foldl_cons, clearEnd_foldl_parseChar cs alphabet capitals rest, hlev, hst, htab]
    by_cases hacc : accepts cs alphabet capitals s.firstChar char = true
    · simp [windows, hacc]
    · simp [windows, hacc]

theorem windows_append (cs : Casing) (alphabet : List Char) (capitals : Bool) (levels : Nat) :
    ∀ (xs : List Char) (st : List Char × Bool) (ys : List Char),
      windows cs alphabet capitals levels st (xs ++ ys)
        = windows cs alphabet capitals levels st xs
          ++ windows cs alphabet capitals levels
              (xs.foldl (scanStep cs alphabet capitals levels) st) ys
  | [], st, ys => by simp [windows]
  | x :: xs, st, ys => by
    have ih := windows_append cs alphabet capitals levels xs
      (scanStep cs alphabet capitals levels st x) ys
    rw [List.cons_append]
    simp only [windows, List.foldl_cons, ih]
    split <;> simp

theorem scanStep_inv (cs : Casing) (alphabet : List Char) (capitals : Bool) (levels : Nat)
    (hlevels : 1 ≤ levels) (st : List Char × Bool) (char : Char)
    (h : st.1 = [] → st.2 = true) :
    (scanStep cs alphabet capitals levels st char).1 = []
      → (scanStep cs alphabet capitals levels st char).2 = true := by
  unfold scanStep
  split
  · intro hnil
    exfalso
    split at hnil
    · next hgt =>
      have hl := congrArg List.length hnil
      simp only [List.length_drop, List.length_append, List.length_singleton,
        List.length_nil] at hl hgt
      omega
    · simp at hnil
  · split
    · intro _
      rfl
    · exact h

theorem foldl_scanStep_inv (cs : Casing) (alphabet : List Char) (capitals : Bool)
    (levels : Nat) (hlevels : 1 ≤ levels) :
    ∀ (text : List Char) (st : List Char × Bool), (st.1 = [] → st.2 = true) →
      ((text.foldl (scanStep cs alphabet capitals levels) st).1 = []
        → (text.foldl (scanStep cs alphabet capitals levels) st).2 = true)
  | [], st, h => h
  | x :: xs, st, h => by
    rw [List.foldl_cons]
    exact foldl_scanStep_inv cs alphabet capitals levels hlevels xs _
      (scanStep_inv cs alphabet capitals levels hlevels st x h)

theorem windows_sep (cs : Casing) (alphabet : List Char) (capitals : Bool) (levels : Nat)
    (sep : Char) (hsep : Language.isValid (cs.toLowerCase sep) alphabet = false)
    (st : List Char × Bool) (h : st.1 = [] → st.2 = true) (rest : List Char) :
    windows cs alphabet capitals levels st (sep :: rest)
      = windows cs alphabet capitals levels ([], true) rest := by
  have hacc : accepts cs alphabet capitals st.2 sep = false := by
    simp [accepts, hsep]
  have hstep : scanStep cs alphabet capitals levels st sep = ([], true) := by
    unfold scanStep
    simp only [hacc, Bool.false_eq_true, if_false]
    split
    · rfl
    · next hlen =>
      have hnil : st.1 = [] := List.length_eq_zero.mp (Nat.eq_zero_of_not_pos hlen)
      exact Prod.ext hnil (h hnil)
  simp only [windows, hacc, Bool.false_eq_true, if_false, hstep]

theorem windows_joinWords (cs : Casing) (alphabet : List Char) (capitals : Bool) (levels : Nat)
    (hlevels : 1 ≤ levels) (sep : Char)
    (hsep : Language.isValid (cs.toLowerCase sep) alphabet = false) :
    ∀ ws : List (List Char),
      windows cs alphabet capitals levels ([], true) (joinWords sep ws)
        = ws.flatMap (windows cs alphabet capitals levels ([], true))
  | [] => by simp [joinWords, windows]
  | [w] => by simp [joinWords]
  | w :: w2 :: ws => by
    simp only [joinWords, List.flatMap_cons]
    rw [windows_append, windows_sep cs alphabet capitals levels sep hsep _
      (foldl_scanStep_inv cs alphabet capitals levels hlevels w ([], true) (fun _ => rfl)),
      windows_joinWords cs alphabet capitals levels hlevels sep hsep (w2 :: ws)]
    simp only [List.flatMap_cons]

theorem windows_levels_zero (cs : Casing) (alphabet : List Char) (capitals : Bool) :
    ∀ (text : List Char) (st : List Char × Bool), st.1 = [] →
      ∀ x ∈ windows cs alphabet capitals 0 st text, x = []
  | [], st, _, x, hx => by simp [windows] at hx
  | c :: rest, st, hst, x, hx => by
    have hstep : (scanStep cs alphabet capitals 0 st c).1 = [] := by
      unfold scanStep
      split
      · simp [hst]
      · split
        · rfl
        · exact hst
    simp only [windows] at hx
    split at hx
    · rcases List.mem_cons.mp hx with rfl | hx
      · simp [hstep, Language.createCharTrail]
      · exact windows_levels_zero cs alphabet capitals rest _ hstep x hx
    · exact windows_levels_zero cs alphabet capitals rest _ hstep x hx

theorem foldl_incrementCharTrail_nil (alphabet : List Char) :
    ∀ (l : List (List Int)) (t : ProbTable), (∀ x ∈ l, x = []) →
      l.foldl (incrementCharTrail alphabet) t = t
  | [], t, _ => rfl
  | x :: xs, t, h => by
    have hx : x = [] := h x (List.mem_cons_self _ _)
    rw [List.foldl_cons, hx]
    simp only [incrementCharTrail]
    exact foldl_incrementCharTrail_nil alphabet xs t
      (fun y hy => h y (List.mem_cons_of_mem _ hy))

theorem clearEnd_parse_line (cs : Casing) (alphabet : List Char) (language : String)
    (levels : Nat) (capitals : Bool) (line : List Char) :
    clearEnd (parseTextLines cs alphabet (create alphabet language levels) [line] capitals)
      = (windows cs alphabet capitals levels ([], true) line).foldl
          (incrementCharTrail alphabet) (create alphabet language levels) := by
  simp only [parseTextLines, List.foldl_cons, List.foldl_nil, parseLine]
  rw [clearEnd_foldl_parseChar]
  simp only [clearEnd_create]
  rfl

end ProbTable

/-- C7, as stated, fails: the lines `ab ba c` and `ba ab c` hold the same words in another
order, and after training (alphabet `abc`, `levels = 2`) the node for `a` has end-of-word
counts 1, 1 for the first line and 0, 0 for the second, so the tries differ. -/
theorem end_counts_depend_on_order :
    ["ab".toList, "ba".toList, "c".toList].Perm ["ba".toList, "ab".toList, "c".toList]
      ∧ ProbTable.joinWords ' ' ["ab".toList, "ba".toList, "c".toList] = "ab ba c".toList
      ∧ ProbTable.joinWords ' ' ["ba".toList, "ab".toList, "c".toList] = "ba ab c".toList
      ∧ ((train "ab ba c" false).child 0).map ProbTable.endProbability = some [1, 1]
      ∧ ((train "ba ab c" false).child 0).map ProbTable.endProbability = some [0, 0]
      ∧ train "ab ba c" false ≠ train "ba ab c" false := by
  refine ⟨by decide, by decide, by decide, by decide, by decide, ?_⟩
  intro h
  have h2 := congrArg (fun t => (ProbTable.child t 0).map ProbTable.endProbability) h
  revert h2
  decide

/-- C7, amended. For every line made of words with an invalid character between two words,
and every reordering of the words, training from a freshly created trie gives the same raw
character counts and the same children at every node for the two lines: the tries are equal
once the end-of-word counts are set aside. -/
theorem counts_order_independent (cs : Casing) (alphabet : List Char) (language : String)
    (levels : Nat) (capitals : Bool) (sep : Char) (ws ws2 : List (List Char))
    (hsep : Language.isValid (cs.toLowerCase sep) alphabet = false) (hperm : ws.Perm ws2) :
    ProbTable.clearEnd (ProbTable.parseTextLines cs alphabet
        (ProbTable.create alphabet language levels) [ProbTable.joinWords sep ws] capitals)
      = ProbTable.clearEnd (ProbTable.parseTextLines cs alphabet
        (ProbTable.create alphabet language levels) [ProbTable.joinWords sep ws2] capitals) := by
  rw [ProbTable.clearEnd_parse_line, ProbTable.clearEnd_parse_line]
  rcases Nat.eq_zero_or_pos levels with h0 | hpos
  · subst h0
    rw [ProbTable.foldl_incrementCharTrail_nil alphabet _ _
        (ProbTable.windows_levels_zero cs alphabet capitals _ _ rfl),
      ProbTable.foldl_incrementCharTrail_nil alphabet _ _
        (ProbTable.windows_levels_zero cs alphabet capitals _ _ rfl)]
  · rw [ProbTable.windows_joinWords cs alphabet capitals levels hpos sep hsep,
      ProbTable.windows_joinWords cs alphabet capitals levels hpos sep hsep]
    exact List.Perm.foldl_eq' (hperm.flatMap_right _)
      (fun x _ y _ z => ProbTable.incrementCharTrail_comm alphabet x z y) _

/-- C7 (amended), at the lines `ab ba c` and `ba ab c`. -/
theorem counts_order_independent_witness :
    (Language.isValid (jsCasing.toLowerCase ' ') abc = false
      ∧ ["ab".toList, "ba".toList, "c".toList].Perm ["ba".toList, "ab".toList, "c".toList])
    ∧ ProbTable.clearEnd (ProbTable.parseTextLines jsCasing abc (ProbTable.create abc "abc" 2)
        [ProbTable.joinWords ' ' ["ab".toList, "ba".toList, "c".toList]] false)
      = ProbTable.clearEnd (ProbTable.parseTextLines jsCasing abc (ProbTable.create abc "abc" 2)
        [ProbTable.joinWords ' ' ["ba".toList, "ab".toList, "c".toList]] false) :=
  ⟨⟨by decide, by decide⟩,
    counts_order_independent jsCasing abc "abc" 2 false ' ' _ _ (by decide) (by decide)⟩

/-! ### C11 -/

/-- The division of an entry never has a zero divisor: an entry is emitted for a positive
count only, and the total is then positive. -/
theorem ProbTable.entryDivisors_ne_zero (t : ProbTable) : ∀ d ∈ t.entryDivisors, d ≠ 0 := by
  intro d hd
  simp only [ProbTable.entryDivisors, List.mem_map, List.mem_filter, decide_eq_true_eq] at hd
  obtain ⟨p, ⟨hp, hpos⟩, rfl⟩ := hd
  have hle : p ≤ t.probabilities.sum := List.single_le_sum (fun _ _ => Nat.zero_le _) p hp
  unfold ProbTable.total
  omega

/-- C11, at a failing input. In the trie trained on the single line `ab ac` the node
below `a`, `c` has no count and no end-of-word count: both divisions
`endProbability[i] / (total + endProbability[i])` of `getNormalizedTable` have the divisor 0,
and both end-probabilities of the normalized node are `NaN`. -/
theorem end_probability_divides_by_zero :
    (abAc.descend [0, 2]).map ProbTable.probabilities = some [0, 0, 0, 0]
      ∧ (abAc.descend [0, 2]).map ProbTable.endDivisors = some [0, 0]
      ∧ (abAc.descend [0, 2]).map
          (fun n => (ProbTable.getNormalizedTable abc n).endProbability)
        = some [JSNumber.nan, JSNumber.nan] := by
  refine ⟨by decide, by decide, by rfl⟩

/-! ### C13 -/

namespace NormalizedTable

theorem getChildByCharTrail_eq_resolveTrail :
    ∀ (s : List Char) (n : NormalizedTable), n.getChildByCharTrail s = n.resolveTrail s
  | [], n => rfl
  | [c], n => by
    simp only [getChildByCharTrail, resolveTrail]
    cases n.getChildByChar [c] <;> rfl
  | c :: c2 :: rest, n => by
    simp only [getChildByCharTrail]
    rw [resolveTrail]
    cases n.getChildByChar [c] with
    | none => rfl
    | some child => exact getChildByCharTrail_eq_resolveTrail (c2 :: rest) child

theorem resolveTrail_append :
    ∀ (s : List Char) (n : NormalizedTable) (t : List Char),
      n.resolveTrail (s ++ t)
        = match n.resolveTrail s with
          | some m => m.resolveTrail t
          | none => none
  | [], n, t => rfl
  | c :: rest, n, t => by
    simp only [List.cons_append, resolveTrail]
    cases n.getChildByChar [c] with
    | none => rfl
    | some child => exact resolveTrail_append rest child t

end NormalizedTable

/-- C13. `getChildByCharTrail(s)` is the result of resolving the characters of `s` one at
a time with `getChildByChar`, null as soon as one fails; the empty trail gives the node
itself; and a lookup along `s ++ t` is the lookup along `t` from the node found along `s`,
null when that one is null. -/
theorem getChildByCharTrail_resolves :
    (∀ (n : NormalizedTable) (s : List Char), n.getChildByCharTrail s = n.resolveTrail s)
      ∧ (∀ n : NormalizedTable, n.getChildByCharTrail [] = some n)
      ∧ ∀ (n : NormalizedTable) (s t : List Char),
          n.getChildByCharTrail (s ++ t)
            = match n.getChildByCharTrail s with
              | some m => m.getChildByCharTrail t
              | none => none := by
  refine ⟨fun n s => NormalizedTable.getChildByCharTrail_eq_resolveTrail s n, fun n => rfl, ?_⟩
  intro n s t
  rw [NormalizedTable.getChildByCharTrail_eq_resolveTrail,
    NormalizedTable.getChildByCharTrail_eq_resolveTrail, NormalizedTable.resolveTrail_append]
  cases n.resolveTrail s with
  | none => rfl
  | some m => exact (NormalizedTable.getChildByCharTrail_eq_resolveTrail t m).symm

/-! ### C12 -/

namespace NormalizedTable

theorem geRat_eq_not_ltRat (x : JSNumber) (p : ℚ) (hx : x ≠ JSNumber.nan) :
    x.geRat p = !x.ltRat p := by
  cases x with
  | finite q =>
    simp only [JSNumber.geRat, JSNumber.ltRat]
    by_cases h : q < p
    · simp [h, not_le.mpr h]
    · simp [h, not_lt.mp h]
  | infinity => rfl
  | negInfinity => rfl
  | nan => exact absurd rfl hx

theorem massUpTo_succ (e0 : ProbEntry) (rest0 : List ProbEntry) (i : Nat) (e : ProbEntry)
    (he : (e0 :: rest0).get? (i + 1) = some e) :
    massUpTo (e0 :: rest0) (i + 1) = (massUpTo (e0 :: rest0) i).addDouble e.value.toDouble := by
  have he2 : rest0.get? i = some e := by simpa using he
  have h1 : massUpTo (e0 :: rest0) (i + 1)
      = (rest0.take (i + 1)).foldl (fun total x => total.addDouble x.value.toDouble)
          e0.value.toDouble := rfl
  have h2 : massUpTo (e0 :: rest0) i
      = (rest0.take i).foldl (fun total x => total.addDouble x.value.toDouble)
          e0.value.toDouble := rfl
  rw [h1, h2, List.take_succ, ← List.get?_eq_getElem?, he2, Option.toList, List.foldl_append]
  rfl

theorem scanProb_spec (p : ℚ) (e0 : ProbEntry) (rest0 : List ProbEntry) :
    ∀ (rest : List ProbEntry) (i : Nat) (cur : ProbEntry), (e0 :: rest0).get? i = some cur →
      (e0 :: rest0).drop (i + 1) = rest →
      ∃ k, i ≤ k ∧ k < (e0 :: rest0).length
        ∧ some (scanProb p (massUpTo (e0 :: rest0) i) cur.char rest)
            = ((e0 :: rest0).get? k).map (fun x => x.char)
        ∧ (∀ j, i ≤ j → j < k → (massUpTo (e0 :: rest0) j).ltRat p = true)
        ∧ ((massUpTo (e0 :: rest0) k).ltRat p = false ∨ k + 1 = (e0 :: rest0).length)
  | [], i, cur, hcur, hdrop => by
    have hi : i < (e0 :: rest0).length := (List.get?_eq_some.mp hcur).1
    have hlen : (e0 :: rest0).length ≤ i + 1 := List.drop_eq_nil_iff.mp hdrop
    refine ⟨i, Nat.le_refl _, hi, ?_, fun j h1 h2 => absurd h1 (Nat.not_le.mpr h2), Or.inr ?_⟩
    · rw [hcur]
      rfl
    · omega
  | e :: rest, i, cur, hcur, hdrop => by
    have hi : i < (e0 :: rest0).length := (List.get?_eq_some.mp hcur).1
    have he : (e0 :: rest0).get? (i + 1) = some e := by
      have := congrArg List.head? hdrop
      simpa [List.head?_drop] using this
    have hrest : (e0 :: rest0).drop (i + 1 + 1) = rest := by
      have := congrArg List.tail hdrop
      simpa [List.tail_drop] using this
    by_cases hlt : (massUpTo (e0 :: rest0) i).ltRat p = true
    · obtain ⟨k, hk1, hk2, hres, hbefore, hat⟩ := scanProb_spec p e0 rest0 rest (i + 1) e he hrest
      refine ⟨k, Nat.le_of_succ_le hk1, hk2, ?_, ?_, hat⟩
      · rw [← hres, scanProb, if_pos hlt, massUpTo_succ e0 rest0 i e he]
      · intro j h1 h2
        rcases Nat.eq_or_lt_of_le h1 with rfl | h3
        · exact hlt
        · exact hbefore j h3 h2
    · refine ⟨i, Nat.le_refl _, hi, ?_, fun j h1 h2 => absurd h1 (Nat.not_le.mpr h2), Or.inl ?_⟩
      · rw [hcur, scanProb, if_neg hlt]
        rfl
      · simpa using hlt

end NormalizedTable

/-- C12, as stated, fails. In the node with the entries `(NaN, a)` and `(1, b)` no entry has
a cumulative mass greater than or equal to 1/2 (both masses are `NaN`), so the character of
the last entry, `b`, is announced; `getCharFromProb(0.5)` returns `a`, the comparison
`prob > total` being false at the first entry. -/
theorem getCharFromProb_stops_at_nan :
    nanFirst.getCharFromProb (1 / 2) = some (some 'a')
      ∧ (NormalizedTable.massUpTo nanFirst.probabilities 0).geRat (1 / 2) = false
      ∧ (NormalizedTable.massUpTo nanFirst.probabilities 1).geRat (1 / 2) = false
      ∧ nanFirst.probabilities.getLast?.map (fun x => x.char) = some (some 'b') := by
  refine ⟨by rfl, by rfl, ?_, by rfl⟩
  simp only [nanFirst, NormalizedTable.probabilities, NormalizedTable.massUpTo, List.take,
    List.foldl, JSNumber.toDouble, JSNumber.addDouble, JSNumber.geRat]

/-- C12, amended. For every runtime node with a non-empty entry list and every `p`,
`getCharFromProb(p)` returns the character of the first entry, in stored order, at which
`p > m` is false, `m` being the cumulative mass as the loop computes it (the values added
one at a time, from the first entry on, as doubles): `p > m` holds at every entry before
it; when `p > m` holds at every entry it is the last entry. At a mass that is a number
(not `NaN`), `p > m` is false exactly when `m >= p`. -/
theorem getCharFromProb_first_not_below (t : NormalizedTable) (p : ℚ)
    (hne : t.probabilities ≠ []) :
    (∃ k, k < t.probabilities.length
      ∧ t.getCharFromProb p = (t.probabilities.get? k).map (fun x => x.char)
      ∧ (∀ j, j < k → (NormalizedTable.massUpTo t.probabilities j).ltRat p = true)
      ∧ ((NormalizedTable.massUpTo t.probabilities k).ltRat p = false
          ∨ k + 1 = t.probabilities.length))
    ∧ ∀ j, NormalizedTable.massUpTo t.probabilities j ≠ JSNumber.nan →
        (NormalizedTable.massUpTo t.probabilities j).geRat p
          = !(NormalizedTable.massUpTo t.probabilities j).ltRat p := by
  refine ⟨?_, fun j hj => NormalizedTable.geRat_eq_not_ltRat _ p hj⟩
  cases hp : t.probabilities with
  | nil => exact absurd hp hne
  | cons e rest =>
    obtain ⟨k, _, hk, hres, hbefore, hat⟩ :=
      NormalizedTable.scanProb_spec p e rest rest 0 e rfl rfl
    refine ⟨k, hk, ?_, fun j hj => hbefore j (Nat.zero_le _) hj, hat⟩
    rw [← hres]
    simp [NormalizedTable.getCharFromProb, hp, NormalizedTable.massUpTo]

theorem tenths_eq : tenths =
    NormalizedTable.mk "abcdefghij" 1
      [⟨JSNumber.div 1 10, some 'a'⟩, ⟨JSNumber.div 1 10, some 'b'⟩,
        ⟨JSNumber.div 1 10, some 'c'⟩, ⟨JSNumber.div 1 10, some 'd'⟩,
        ⟨JSNumber.div 1 10, some 'e'⟩, ⟨JSNumber.div 1 10, some 'f'⟩,
        ⟨JSNumber.div 1 10, some 'g'⟩, ⟨JSNumber.div 1 10, some 'h'⟩,
        ⟨JSNumber.div 1 10, some 'i'⟩, ⟨JSNumber.div 1 10, some 'j'⟩]
      [JSNumber.div 0 10]
      (List.replicate 10 (NormalizedTable.mk "abcdefghij" 1 [] [JSNumber.div 0 0] [])) := by
  rfl

theorem tenths_third : tenths.getCharFromProb (1351079888211149 / 4503599627370496) = some (some 'c') := by
  have hd : JSNumber.div 1 10 = JSNumber.finite (1 / 10) := by norm_num [JSNumber.div]
  have h0 : roundDouble (1 / 10) = JSNumber.finite (3602879701896397 / 36028797018963968) := by
    apply roundDouble_eval _ _ (-56) 7205759403792794 <;> norm_num
  have h1 : roundDouble (3602879701896397 / 36028797018963968 + 3602879701896397 / 36028797018963968) = JSNumber.finite (3602879701896397 / 18014398509481984) := by
    apply roundDouble_eval _ _ (-55) 7205759403792794 <;> norm_num
  have h2 : roundDouble (3602879701896397 / 18014398509481984 + 3602879701896397 / 36028797018963968) = JSNumber.finite (1351079888211149 / 4503599627370496) := by
    apply roundDouble_eval_even _ _ (-54) 5404319552844596 <;> norm_num
  rw [tenths_eq]
  simp only [NormalizedTable.getCharFromProb, NormalizedTable.probabilities,
    NormalizedTable.scanProb, hd, JSNumber.toDouble, JSNumber.addDouble, h0, h1, h2,
    JSNumber.ltRat]
  norm_num

/-- C12, amended, at the root of the tree trained on the ten letters `abcdefghij`, each
entry with the value 1/10, and `p = 0.30000000000000004`: the loop runs, and the mass of
the third entry, `0.1 + 0.1 + 0.1` in doubles, is `p` itself, so that `c` is returned. -/
theorem getCharFromProb_first_not_below_witness :
    tenths.probabilities ≠ []
    ∧ tenths.getCharFromProb (1351079888211149 / 4503599627370496) = some (some 'c')
    ∧ ((∃ k, k < tenths.probabilities.length
        ∧ tenths.getCharFromProb (1351079888211149 / 4503599627370496)
            = (tenths.probabilities.get? k).map (fun x => x.char)
        ∧ (∀ j, j < k → (NormalizedTable.massUpTo tenths.probabilities j).ltRat (1351079888211149 / 4503599627370496) = true)
        ∧ ((NormalizedTable.massUpTo tenths.probabilities k).ltRat (1351079888211149 / 4503599627370496) = false
            ∨ k + 1 = tenths.probabilities.length))
      ∧ ∀ j, NormalizedTable.massUpTo tenths.probabilities j ≠ JSNumber.nan →
          (NormalizedTable.massUpTo tenths.probabilities j).geRat (1351079888211149 / 4503599627370496)
            = !(NormalizedTable.massUpTo tenths.probabilities j).ltRat (1351079888211149 / 4503599627370496)) :=
  ⟨by rw [tenths_eq]; simp [NormalizedTable.probabilities], tenths_third,
    getCharFromProb_first_not_below tenths (1351079888211149 / 4503599627370496)
      (by rw [tenths_eq]; simp [NormalizedTable.probabilities])⟩

/-! ### C17 -/

namespace ProbTable

theorem child_clearEnd (t : ProbTable) (i : Int) :
    (clearEnd t).child i = (t.child i).map clearEnd := by
  rw [clearEnd_eq t]
  simp only [child, next_mk]
  exact childAt_clearEndAll t.next i

theorem descend_clearEnd : ∀ (path : List Int) (t : ProbTable),
    (clearEnd t).descend path = (t.descend path).map clearEnd
  | [], t => rfl
  | i :: rest, t => by
    simp only [descend, child_clearEnd]
    cases t.child i with
    | none => rfl
    | some c => exact descend_clearEnd rest c

theorem probabilities_clearEnd (t : ProbTable) : (clearEnd t).probabilities = t.probabilities := by
  rw [clearEnd_eq t]
  rfl

theorem descend_probabilities_of_clearEnd (t u : ProbTable) (h : clearEnd t = clearEnd u)
    (path : List Int) :
    (t.descend path).map probabilities = (u.descend path).map probabilities := by
  have h1 := descend_clearEnd path t
  have h2 := descend_clearEnd path u
  rw [h] at h1
  have h3 : (t.descend path).map clearEnd = (u.descend path).map clearEnd := h1.symm.trans h2
  have h4 := congrArg (Option.map probabilities) h3
  simpa [Option.map_map, Function.comp_def, probabilities_clearEnd] using h4

end ProbTable

/-- C17. `incrementEndWord` changes only end-of-word counts: with the end counts set aside
the trie is the same before and after (the same children at every node, no node added, the
same raw character counts), and so every path leads to a node after the call exactly when
it did before, with the same raw counts. -/
theorem incrementEndWord_changes_only_end_counts (t : ProbTable) (charTrail : List Int)
    (backTrack : Nat) :
    ProbTable.clearEnd (ProbTable.incrementEndWord t charTrail backTrack) = ProbTable.clearEnd t
      ∧ ∀ path : List Int,
          ((ProbTable.incrementEndWord t charTrail backTrack).descend path).map
              ProbTable.probabilities
            = (t.descend path).map ProbTable.probabilities :=
  ⟨ProbTable.clearEnd_incrementEndWord charTrail t backTrack,
    ProbTable.descend_probabilities_of_clearEnd _ _
      (ProbTable.clearEnd_incrementEndWord charTrail t backTrack)⟩

/-! ### C14 -/

namespace ProbTable

theorem height_eq (t : ProbTable) : t.height = heightAll t.next := by
  cases t with
  | mk g l p e n => simp [height]

theorem heightAll_setAt_le : ∀ (i : Nat) (n : List (Option ProbTable)) (v : ProbTable),
    heightAll (setAt n i v) ≤ max (heightAll n) (height v + 1)
  | 0, [], v => by simp [setAt, heightAll]
  | 0, none :: r, v => by
    simp only [setAt, heightAll]
    omega
  | 0, some c :: r, v => by
    simp only [setAt, heightAll]
    omega
  | i + 1, [], v => by
    have := heightAll_setAt_le i [] v
    simp only [setAt, heightAll] at this ⊢
    omega
  | i + 1, none :: r, v => by
    have := heightAll_setAt_le i r v
    simp only [setAt, heightAll] at this ⊢
    omega
  | i + 1, some c :: r, v => by
    have := heightAll_setAt_le i r v
    simp only [setAt, heightAll] at this ⊢
    omega

theorem height_le_of_get? : ∀ (n : List (Option ProbTable)) (i : Nat) (c : ProbTable),
    (n.get? i).join = some c → height c + 1 ≤ heightAll n
  | [], i, c, h => by simp at h
  | none :: r, 0, c, h => by simp at h
  | some x :: r, 0, c, h => by
    have hx : x = c := by simpa using h
    simp only [heightAll, hx]
    omega
  | none :: r, i + 1, c, h => by
    have h2 : (r.get? i).join = some c := by simpa using h
    simpa [heightAll] using height_le_of_get? r i c h2
  | some x :: r, i + 1, c, h => by
    have h2 : (r.get? i).join = some c := by simpa using h
    have := height_le_of_get? r i c h2
    simp only [heightAll]
    omega

theorem height_child (t c : ProbTable) (i : Int) (h : t.child i = some c) :
    height c + 1 ≤ height t := by
  rw [height_eq t]
  exact height_le_of_get? _ _ _ (childAt_some _ _ _ h)

theorem height_create (alphabet : List Char) (g : String) (l : Nat) :
    height (create alphabet g l) = 0 := by
  simp [create, height, heightAll]

theorem height_incrementCharTrail (alphabet : List Char) :
    ∀ (trail : List Int) (t : ProbTable),
      height (incrementCharTrail alphabet t trail) ≤ max (height t) trail.length
  | [], t => by simp [incrementCharTrail]
  | c :: rest, t => by
    by_cases hc : c < 0
    · simp only [incrementCharTrail, hc, if_true]
      omega
    · simp only [incrementCharTrail, hc, if_false, height]
      have hset := heightAll_setAt_le c.toNat t.next
        (incrementCharTrail alphabet
          (match childAt t.next c with
            | some c => c
            | none => create alphabet t.language t.levels) rest)
      have hrec := height_incrementCharTrail alphabet rest
        (match childAt t.next c with
          | some c => c
          | none => create alphabet t.language t.levels)
      have hchild : height (match childAt t.next c with
          | some c => c
          | none => create alphabet t.language t.levels) + 1 ≤ max (height t) 1 := by
        cases hch : childAt t.next c with
        | none =>
          simp only [height_create]
          omega
        | some ch =>
          have := height_child t ch c hch
          simp only
          omega
      rw [← height_eq t] at hset
      simp only [List.length_cons]
      omega

mutual
theorem height_clearEnd : ∀ t : ProbTable, height (clearEnd t) = height t
  | mk g l p e n => by
    simp only [clearEnd, height]
    exact heightAll_clearEndAll n
theorem heightAll_clearEndAll :
    ∀ n : List (Option ProbTable), heightAll (clearEndAll n) = heightAll n
  | [] => rfl
  | none :: r => by
    simp only [clearEndAll, heightAll]
    exact heightAll_clearEndAll r
  | some c :: r => by
    simp only [clearEndAll, heightAll]
    rw [height_clearEnd c, heightAll_clearEndAll r]
end

theorem height_incrementEndWord (t : ProbTable) (trail : List Int) (backTrack : Nat) :
    height (incrementEndWord t trail backTrack) = height t := by
  rw [← height_clearEnd, clearEnd_incrementEndWord, height_clearEnd]

theorem length_le_height_of_descend : ∀ (path : List Int) (t node : ProbTable),
    t.descend path = some node → path.length ≤ height t
  | [], t, node, _ => Nat.zero_le _
  | i :: rest, t, node, h => by
    simp only [descend] at h
    cases hch : t.child i with
    | none => simp [hch] at h
    | some c =>
      simp only [hch] at h
      have h1 := length_le_height_of_descend rest c node h
      have h2 := height_child t c i hch
      simp only [List.length_cons]
      omega

theorem length_createCharTrail (cs : Casing) (text alphabet : List Char) :
    (Language.createCharTrail cs text alphabet).length = text.length := by
  simp [Language.createCharTrail]

/-- What `parseTextLines` keeps true from one character to the next: the trie is no higher
than `levels` and the trail is no longer than `levels`. -/
theorem parseChar_height (cs : Casing) (alphabet : List Char) (capitals : Bool) (L : Nat)
    (s : ParseState) (char : Char)
    (h : height s.table ≤ L ∧ s.table.levels = L ∧ s.charTrail.length ≤ L) :
    height (parseChar cs alphabet capitals s char).table ≤ L
      ∧ (parseChar cs alphabet capitals s char).table.levels = L
      ∧ (parseChar cs alphabet capitals s char).charTrail.length ≤ L := by
  obtain ⟨hh, hl, ht⟩ := h
  unfold parseChar
  split
  · have hlen : (if (s.charTrail ++ [char]).length > s.table.levels
        then (s.charTrail ++ [char]).drop 1 else s.charTrail ++ [char]).length ≤ L := by
      split
      · simp
        exact ht
      · next hgt =>
        rw [hl] at hgt
        exact Nat.le_of_not_lt hgt
    refine ⟨?_, ?_, hlen⟩
    · have := height_incrementCharTrail alphabet
        (Language.createCharTrail cs (if (s.charTrail ++ [char]).length > s.table.levels
          then (s.charTrail ++ [char]).drop 1 else s.charTrail ++ [char]) alphabet) s.table
      rw [length_createCharTrail] at this
      simp only
      omega
    · simp only [levels_incrementCharTrail, hl]
  · split
    · refine ⟨?_, ?_, Nat.zero_le _⟩
      · simp only [height_incrementEndWord]
        exact hh
      · simp only [levels_incrementEndWord, hl]
    · exact ⟨hh, hl, ht⟩

theorem foldl_parseChar_height (cs : Casing) (alphabet : List Char) (capitals : Bool)
    (L : Nat) : ∀ (text : List Char) (s : ParseState),
      (height s.table ≤ L ∧ s.table.levels = L ∧ s.charTrail.length ≤ L) →
      height (text.foldl (parseChar cs alphabet capitals) s).table ≤ L
        ∧ (text.foldl (parseChar cs alphabet capitals) s).table.levels = L
        ∧ (text.foldl (parseChar cs alphabet capitals) s).charTrail.length ≤ L
  | [], s, h => h
  | c :: rest, s, h => by
    rw [List.foldl_cons]
    exact foldl_parseChar_height cs alphabet capitals L rest _
      (parseChar_height cs alphabet capitals L s c h)

theorem foldl_parseLine_height (cs : Casing) (alphabet : List Char) (capitals : Bool)
    (L : Nat) : ∀ (lines : List (List Char)) (s : ParseState),
      (height s.table ≤ L ∧ s.table.levels = L ∧ s.charTrail.length ≤ L) →
      height (lines.foldl (parseLine cs alphabet capitals) s).table ≤ L
        ∧ (lines.foldl (parseLine cs alphabet capitals) s).table.levels = L
        ∧ (lines.foldl (parseLine cs alphabet capitals) s).charTrail.length ≤ L
  | [], s, h => h
  | line :: rest, s, h => by
    rw [List.foldl_cons]
    exact foldl_parseLine_height cs alphabet capitals L rest _
      (foldl_parseChar_height cs alphabet capitals L line _ h)

theorem parseTextLines_height (cs : Casing) (alphabet : List Char) (t : ProbTable)
    (lines : List (List Char)) (capitals : Bool) (h : height t ≤ t.levels) :
    height (parseTextLines cs alphabet t lines capitals) ≤ t.levels
      ∧ (parseTextLines cs alphabet t lines capitals).levels = t.levels := by
  have := foldl_parseLine_height cs alphabet capitals t.levels lines
    { table := t, charTrail := [], firstChar := true } ⟨h, rfl, Nat.zero_le _⟩
  exact ⟨this.1, this.2.1⟩

theorem trainCalls_height (cs : Casing) (alphabet : List Char) :
    ∀ (calls : List (List (List Char) × Bool)) (t : ProbTable), height t ≤ t.levels →
      height (trainCalls cs alphabet t calls) ≤ t.levels
  | [], t, h => h
  | call :: rest, t, h => by
    have h1 := parseTextLines_height cs alphabet t call.1 call.2 h
    have h2 := trainCalls_height cs alphabet rest
      (parseTextLines cs alphabet t call.1 call.2) (by rw [h1.2]; exact h1.1)
    rw [h1.2] at h2
    simpa [trainCalls] using h2

end ProbTable

/-- C14. Depth invariant: in a trie obtained from a freshly created `ProbTable` with
maximum order `levels` by any number of `parseTextLines` calls, every node is reached from
the root by a path of at most `levels` indices. -/
theorem depth_within_levels (cs : Casing) (alphabet : List Char) (language : String)
    (levels : Nat) (calls : List (List (List Char) × Bool)) (path : List Int)
    (node : ProbTable)
    (h : (ProbTable.trainCalls cs alphabet (ProbTable.create alphabet language levels)
      calls).descend path = some node) :
    path.length ≤ levels := by
  have h1 := ProbTable.trainCalls_height cs alphabet calls
    (ProbTable.create alphabet language levels)
    (by rw [ProbTable.height_create]; exact Nat.zero_le _)
  have h2 := ProbTable.length_le_height_of_descend path _ node h
  have h3 : (ProbTable.create alphabet language levels).levels = levels := rfl
  omega

/-- C14, at the node below `a`, `b` of the trie trained on `ab ac`. -/
theorem depth_within_levels_witness :
    (ProbTable.trainCalls jsCasing abc (ProbTable.create abc "abc" 2)
        [(["ab ac".toList], false)]).descend [0, 1]
      = some (ProbTable.mk "abc" 2 [0, 0, 0, 0] [1, 1] [])
    ∧ [(0 : Int), 1].length ≤ 2 :=
  ⟨by rfl, depth_within_levels jsCasing abc "abc" 2 [(["ab ac".toList], false)] [0, 1]
    (ProbTable.mk "abc" 2 [0, 0, 0, 0] [1, 1] []) (by rfl)⟩

/-! ### C19 -/

namespace ProbTable

theorem indexOf_of_isValid (alphabet : List Char) (x : Char)
    (h : Language.isValid x alphabet = true) :
    0 ≤ Language.indexOf alphabet x ∧ Language.indexOf alphabet x < (alphabet.length : Int) := by
  unfold Language.indexOf
  cases hf : alphabet.findIdx? (fun a => a == x) with
  | none =>
    exfalso
    rw [List.findIdx?_eq_none_iff] at hf
    simp only [Language.isValid, List.contains_iff_exists_mem_beq] at h
    obtain ⟨a, ha, hax⟩ := h
    have := hf a ha
    have hxa : (a == x) = true := by
      rw [beq_iff_eq] at hax ⊢
      exact hax.symm
    rw [hxa] at this
    cases this
  | some i =>
    obtain ⟨hi, _⟩ := List.findIdx?_eq_some_iff_getElem.mp hf
    simp only
    constructor
    · exact Int.ofNat_nonneg i
    · exact_mod_cast hi

theorem createCharTrail_in_range (cs : Casing) (alphabet : List Char) (text : List Char)
    (h : ∀ c ∈ text, Language.isValid (cs.toLowerCase c) alphabet = true) :
    ∀ i ∈ Language.createCharTrail cs text alphabet, 0 ≤ i ∧ i < (alphabet.length : Int) := by
  intro i hi
  simp only [Language.createCharTrail, List.mem_map] at hi
  obtain ⟨c, hc, rfl⟩ := hi
  exact indexOf_of_isValid alphabet _ (h c hc)

theorem scanStep_valid (cs : Casing) (alphabet : List Char) (capitals : Bool) (levels : Nat)
    (st : List Char × Bool) (char : Char)
    (h : ∀ c ∈ st.1, Language.isValid (cs.toLowerCase c) alphabet = true) :
    ∀ c ∈ (scanStep cs alphabet capitals levels st char).1,
      Language.isValid (cs.toLowerCase c) alphabet = true := by
  unfold scanStep
  split
  · next hacc =>
    have hv : Language.isValid (cs.toLowerCase char) alphabet = true := by
      simp only [accepts, Bool.and_eq_true] at hacc
      exact hacc.1
    have hall : ∀ c ∈ st.1 ++ [char], Language.isValid (cs.toLowerCase c) alphabet = true := by
      intro c hc
      rcases List.mem_append.mp hc with h1 | h1
      · exact h c h1
      · rw [List.mem_singleton.mp h1]
        exact hv
    intro c hc
    split at hc
    · exact hall c (List.mem_of_mem_drop hc)
    · exact hall c hc
  · split
    · intro c hc
      cases hc
    · exact h

theorem foldl_scanStep_valid (cs : Casing) (alphabet : List Char) (capitals : Bool)
    (levels : Nat) : ∀ (text : List Char) (st : List Char × Bool),
      (∀ c ∈ st.1, Language.isValid (cs.toLowerCase c) alphabet = true) →
      ∀ c ∈ (text.foldl (scanStep cs alphabet capitals levels) st).1,
        Language.isValid (cs.toLowerCase c) alphabet = true
  | [], st, h => h
  | x :: rest, st, h => by
    rw [List.foldl_cons]
    exact foldl_scanStep_valid cs alphabet capitals levels rest _
      (scanStep_valid cs alphabet capitals levels st x h)

theorem callsChars_in_range (cs : Casing) (alphabet : List Char) (capitals : Bool)
    (levels : Nat) : ∀ (text : List Char) (st : List Char × Bool),
      (∀ c ∈ st.1, Language.isValid (cs.toLowerCase c) alphabet = true) →
      ∀ call ∈ callsChars cs alphabet capitals levels st text,
        ∀ i ∈ call.charTrail, 0 ≤ i ∧ i < (alphabet.length : Int)
  | [], st, h, call, hcall => by simp [callsChars] at hcall
  | x :: rest, st, h, call, hcall => by
    have hnext := scanStep_valid cs alphabet capitals levels st x h
    have ih := callsChars_in_range cs alphabet capitals levels rest
      (scanStep cs alphabet capitals levels st x) hnext
    simp only [callsChars] at hcall
    split at hcall
    · rcases List.mem_cons.mp hcall with rfl | hc
      · exact createCharTrail_in_range cs alphabet _ hnext
      · exact ih call hc
    · split at hcall
      · rcases List.mem_cons.mp hcall with rfl | hc
        · exact createCharTrail_in_range cs alphabet _ h
        · exact ih call hc
      · exact ih call hcall

theorem callsLines_in_range (cs : Casing) (alphabet : List Char) (capitals : Bool)
    (levels : Nat) : ∀ (lines : List (List Char)) (st : List Char × Bool),
      (∀ c ∈ st.1, Language.isValid (cs.toLowerCase c) alphabet = true) →
      ∀ call ∈ callsLines cs alphabet capitals levels st lines,
        ∀ i ∈ call.charTrail, 0 ≤ i ∧ i < (alphabet.length : Int)
  | [], st, h, call, hcall => by simp [callsLines] at hcall
  | line :: rest, st, h, call, hcall => by
    simp only [callsLines] at hcall
    rcases List.mem_append.mp hcall with hc | hc
    · exact callsChars_in_range cs alphabet capitals levels line (st.1, true) h call hc
    · exact callsLines_in_range cs alphabet capitals levels rest _
        (foldl_scanStep_valid cs alphabet capitals levels line (st.1, true) h) call hc

theorem parseChar_table (cs : Casing) (alphabet : List Char) (capitals : Bool)
    (s : ParseState) (char : Char) :
    (parseChar cs alphabet capitals s char).table
      = (callsChars cs alphabet capitals s.table.levels (s.charTrail, s.firstChar) [char]).foldl
          (Call.apply alphabet) s.table := by
  by_cases hacc : accepts cs alphabet capitals s.firstChar char = true
  · have hcond : (Language.isValid (cs.toLowerCase char) alphabet
        && (!capitals || (s.firstChar && cs.toUpperCase char == [char]) || !s.firstChar)) = true :=
      hacc
    simp [parseChar, hcond, callsChars, hacc, scanStep, Call.apply]
  · have hcond : ¬ (Language.isValid (cs.toLowerCase char) alphabet
        && (!capitals || (s.firstChar && cs.toUpperCase char == [char]) || !s.firstChar)) = true :=
      hacc
    by_cases hlen : s.charTrail.length > 0
    · simp [parseChar, hcond, callsChars, hacc, hlen, Call.apply]
    · simp [parseChar, hcond, callsChars, hacc, hlen]

theorem callsChars_cons (cs : Casing) (alphabet : List Char) (capitals : Bool) (levels : Nat)
    (st : List Char × Bool) (char : Char) (rest : List Char) :
    callsChars cs alphabet capitals levels st (char :: rest)
      = callsChars cs alphabet capitals levels st [char]
        ++ callsChars cs alphabet capitals levels (scanStep cs alphabet capitals levels st char)
            rest := by
  simp only [callsChars]
  split
  · rfl
  · split <;> rfl

theorem foldl_parseChar_table (cs : Casing) (alphabet : List Char) (capitals : Bool) :
    ∀ (text : List Char) (s : ParseState),
      (text.foldl (parseChar cs alphabet capitals) s).table
          = (callsChars cs alphabet capitals s.table.levels (s.charTrail, s.firstChar)
              text).foldl (Call.apply alphabet) s.table
        ∧ (text.foldl (parseChar cs alphabet capitals) s).table.levels = s.table.levels
        ∧ ((text.foldl (parseChar cs alphabet capitals) s).charTrail,
            (text.foldl (parseChar cs alphabet capitals) s).firstChar)
          = text.foldl (scanStep cs alphabet capitals s.table.levels)
              (s.charTrail, s.firstChar)
  | [], s => ⟨rfl, rfl, rfl⟩
  | char :: rest, s => by
    obtain ⟨hst, hlev, _⟩ := parseChar_view cs alphabet capitals s char
    obtain ⟨h1, h2, h3⟩ := foldl_parseChar_table cs alphabet capitals rest
      (parseChar cs alphabet capitals s char)
    rw [hlev, hst] at h1 h3
    rw [hlev] at h2
    refine ⟨?_, h2, h3⟩
    rw [List.foldl_cons, h1, callsChars_cons, List.foldl_append, ← parseChar_table]

theorem foldl_parseLine_table (cs : Casing) (alphabet : List Char) (capitals : Bool) :
    ∀ (lines : List (List Char)) (s : ParseState),
      (lines.foldl (parseLine cs alphabet capitals) s).table
        = (callsLines cs alphabet capitals s.table.levels (s.charTrail, s.firstChar)
            lines).foldl (Call.apply alphabet) s.table
  | [], s => rfl
  | line :: rest, s => by
    obtain ⟨h1, h2, h3⟩ := foldl_parseChar_table cs alphabet capitals line
      { s with firstChar := true }
    have ih := foldl_parseLine_table cs alphabet capitals rest
      (parseLine cs alphabet capitals s line)
    simp only [parseLine] at ih ⊢
    rw [List.foldl_cons]
    simp only [parseLine]
    rw [ih, h2, h3, h1, callsLines, List.foldl_append]

end ProbTable

/-- C19. Training never produces an out-of-range index: `parseTextLines` is the sequence
of `incrementCharTrail` and `incrementEndWord` calls listed by `callsLines`, and every
index of every trail passed in these calls is at least 0 and less than the length of the
alphabet, for every list of lines and either value of `capitals`. -/
theorem training_indices_in_range (cs : Casing) (alphabet : List Char) (t : ProbTable)
    (lines : List (List Char)) (capitals : Bool) :
    ProbTable.parseTextLines cs alphabet t lines capitals
        = (ProbTable.callsLines cs alphabet capitals t.levels ([], true) lines).foldl
            (ProbTable.Call.apply alphabet) t
      ∧ ∀ call ∈ ProbTable.callsLines cs alphabet capitals t.levels ([], true) lines,
          ∀ i ∈ call.charTrail, 0 ≤ i ∧ i < (alphabet.length : Int) := by
  constructor
  · exact ProbTable.foldl_parseLine_table cs alphabet capitals lines
      { table := t, charTrail := [], firstChar := true }
  · exact ProbTable.callsLines_in_range cs alphabet capitals t.levels lines ([], true)
      (fun c hc => by cases hc)

/-! ### C15 -/

namespace ProbTable

theorem incrementCharTrail_cons (alphabet : List Char) (t : ProbTable) (c : Int)
    (rest : List Int) (hc : 0 ≤ c) :
    incrementCharTrail alphabet t (c :: rest)
      = mk t.language t.levels (incrAt t.probabilities c.toNat) t.endProbability
          (setAt t.next c.toNat (incrementCharTrail alphabet (childOrCreate alphabet t c) rest)) := by
  have h : ¬ c < 0 := not_lt.mpr hc
  simp only [incrementCharTrail, h, if_false, childOrCreate]

theorem child_incrementCharTrail (alphabet : List Char) (t : ProbTable) (c : Int)
    (rest : List Int) (hc : 0 ≤ c) (d : Int) :
    (incrementCharTrail alphabet t (c :: rest)).child d
      = if d = c then some (incrementCharTrail alphabet (childOrCreate alphabet t c) rest)
        else t.child d := by
  rw [incrementCharTrail_cons alphabet t c rest hc]
  simp only [child, next_mk]
  by_cases hd : d < 0
  · have hne : ¬ d = c := by omega
    simp [childAt, hd, hne]
  · rw [childAt_setAt _ _ _ hd]
    have hiff : d.toNat = c.toNat ↔ d = c := by omega
    by_cases hdc : d = c
    · simp [hdc]
    · have : ¬ d.toNat = c.toNat := fun h => hdc (hiff.mp h)
      simp [hdc, this]

theorem descend_cons (t : ProbTable) (d : Int) (path : List Int) :
    t.descend (d :: path)
      = match t.child d with
        | some c => c.descend path
        | none => none := rfl

theorem descend_create (alphabet : List Char) (g : String) (l : Nat) (d : Int)
    (path : List Int) : (create alphabet g l).descend (d :: path) = none := by
  simp [descend_cons, child, create, childAt]

theorem getD_incrAt : ∀ (p : List Nat) (i j : Nat), i < p.length →
    (incrAt p i).getD j 0 = p.getD j 0 + if j = i then 1 else 0
  | [], i, j, h => by simp at h
  | x :: xs, 0, 0, _ => by simp [incrAt]
  | x :: xs, 0, j + 1, _ => by simp [incrAt]
  | x :: xs, i + 1, 0, _ => by simp [incrAt]
  | x :: xs, i + 1, j + 1, h => by
    have := getD_incrAt xs i j (by simpa using h)
    simpa [incrAt] using this

theorem getD_replicate_zero : ∀ (n j : Nat), (List.replicate n 0).getD j 0 = 0
  | 0, j => by simp
  | n + 1, 0 => by simp [List.replicate]
  | n + 1, j + 1 => by
    have := getD_replicate_zero n j
    simp only [List.replicate, List.getD_cons_succ]
    exact this

theorem countsSized_childOrCreate (alphabet : List Char) (t : ProbTable) (c : Int)
    (h : CountsSized alphabet t) : CountsSized alphabet (childOrCreate alphabet t c) := by
  unfold childOrCreate
  cases hch : childAt t.next c with
  | none =>
    intro path node hd
    cases path with
    | nil =>
      simp only [descend, Option.some.injEq] at hd
      rw [← hd]
      simp [create]
    | cons d rest =>
      rw [descend_create] at hd
      cases hd
  | some ch =>
    intro path node hd
    apply h (c :: path) node
    rw [descend_cons]
    simp only [child, hch]
    exact hd

theorem childOrCreate_view (alphabet : List Char) (t : ProbTable) (c : Int)
    (path : List Int) :
    (∀ i, (childOrCreate alphabet t c).countAt path i = t.countAt (c :: path) i)
      ∧ (∀ j, (childOrCreate alphabet t c).endCountAt path j = t.endCountAt (c :: path) j)
      ∧ (path ≠ [] →
          ((childOrCreate alphabet t c).descend path).isSome
            = (t.descend (c :: path)).isSome) := by
  unfold childOrCreate
  cases hch : childAt t.next c with
  | some ch =>
    simp [countAt, endCountAt, descend_cons, child, hch]
  | none =>
    simp only [countAt, endCountAt, descend_cons, child, hch]
    cases path with
    | nil =>
      refine ⟨fun i => ?_, fun j => ?_, fun h => absurd rfl h⟩
      · simp only [descend, create, probabilities_mk]
        split
        · rfl
        · exact getD_replicate_zero _ _
      · simp only [descend, create, endProbability_mk]
        exact getD_replicate_zero _ _
    | cons d rest =>
      rw [descend_create]
      simp

theorem incrementCharTrail_view (alphabet : List Char) :
    ∀ (trail : List Int) (t : ProbTable), CountsSized alphabet t →
      (∀ c ∈ trail, 0 ≤ c ∧ c < (alphabet.length : Int)) →
      ∀ path : List Int,
        ((incrementCharTrail alphabet t trail).descend path).isSome
            = ((t.descend path).isSome || decide (trail.take path.length = path))
          ∧ (∀ i : Int, (incrementCharTrail alphabet t trail).countAt path i
              = t.countAt path i + if trail.take (path.length + 1) = path ++ [i] then 1 else 0)
          ∧ ∀ j : Nat, (incrementCharTrail alphabet t trail).endCountAt path j
              = t.endCountAt path j
  | [], t, _, _, path => by
    simp only [incrementCharTrail, List.take_nil]
    refine ⟨?_, fun i => ?_, fun j => trivial⟩
    · cases path with
      | nil => simp [descend]
      | cons d rest => simp
    · have : ¬ ([] : List Int) = path ++ [i] := by simp
      simp [this]
  | c :: rest, t, hsize, hrange, path => by
    have hc := hrange c (List.mem_cons_self _ _)
    have hrest : ∀ x ∈ rest, 0 ≤ x ∧ x < (alphabet.length : Int) :=
      fun x hx => hrange x (List.mem_cons_of_mem _ hx)
    cases path with
    | nil =>
      refine ⟨by simp [descend], fun i => ?_, fun j => ?_⟩
      · rw [incrementCharTrail_cons alphabet t c rest hc.1]
        simp only [countAt, descend, probabilities_mk, List.length_nil, Nat.zero_add,
          List.take_succ_cons, List.take_zero, List.nil_append, List.cons.injEq, and_true]
        have hlen : c.toNat < t.probabilities.length := by
          rw [hsize [] t rfl]
          omega
        by_cases hi : i < 0
        · have hne : ¬ c = i := by omega
          simp [hi, hne]
        · simp only [hi, if_false]
          rw [getD_incrAt _ _ _ hlen]
          have hiff : i.toNat = c.toNat ↔ c = i := by omega
          by_cases hci : c = i
          · simp [hci]
          · have : ¬ i.toNat = c.toNat := fun h => hci (hiff.mp h)
            simp [hci, this]
      · rw [incrementCharTrail_cons alphabet t c rest hc.1]
        simp [endCountAt, descend]
    | cons d path2 =>
      have ih := incrementCharTrail_view alphabet rest (childOrCreate alphabet t c)
        (countsSized_childOrCreate alphabet t c hsize) hrest path2
      obtain ⟨hview1, hview2, hview3⟩ := childOrCreate_view alphabet t c path2
      by_cases hdc : d = c
      · subst hdc
        have hdesc : (incrementCharTrail alphabet t (d :: rest)).descend (d :: path2)
            = (incrementCharTrail alphabet (childOrCreate alphabet t d) rest).descend path2 := by
          rw [descend_cons, child_incrementCharTrail alphabet t d rest hc.1]
          simp
        refine ⟨?_, fun i => ?_, fun j => ?_⟩
        · rw [hdesc, ih.1]
          simp only [List.length_cons, List.take_succ_cons, List.cons.injEq, true_and]
          by_cases hp : path2 = []
          · subst hp
            simp
          · rw [hview3 hp]
        · have h1 : (incrementCharTrail alphabet t (d :: rest)).countAt (d :: path2) i
              = (incrementCharTrail alphabet (childOrCreate alphabet t d) rest).countAt path2 i := by
            simp only [countAt, hdesc]
          rw [h1, ih.2.1 i, hview1 i]
          simp only [List.length_cons, List.take_succ_cons, List.cons_append, List.cons.injEq,
            true_and]
        · have h1 : (incrementCharTrail alphabet t (d :: rest)).endCountAt (d :: path2) j
              = (incrementCharTrail alphabet (childOrCreate alphabet t d) rest).endCountAt
                  path2 j := by
            simp only [endCountAt, hdesc]
          rw [h1, ih.2.2 j, hview2 j]
      · have hdesc : (incrementCharTrail alphabet t (c :: rest)).descend (d :: path2)
            = t.descend (d :: path2) := by
          rw [descend_cons, child_incrementCharTrail alphabet t c rest hc.1, descend_cons]
          simp [hdc]
        have hcd : ¬ c = d := fun h => hdc h.symm
        refine ⟨?_, fun i => ?_, fun j => ?_⟩
        · rw [hdesc]
          simp [hcd]
        · simp only [countAt, hdesc]
          simp [hcd]
        · simp only [endCountAt, hdesc]

end ProbTable

/-- C15. For every trie whose nodes have their counts as the constructor makes them and
every trail `t` of in-range indices, after `incrementCharTrail(t)` a node exists for every
path that led to a node before and for every initial part of `t`, and for no other path;
the count of index `i` in the node at `path` has gone up by exactly 1 when `path` followed
by `i` is an initial part of `t`, and is unchanged otherwise; and every end-of-word count
is unchanged. -/
theorem incrementCharTrail_effect (alphabet : List Char) (t : ProbTable) (trail : List Int)
    (hsize : ProbTable.CountsSized alphabet t)
    (hrange : ∀ c ∈ trail, 0 ≤ c ∧ c < (alphabet.length : Int)) :
    ∀ path : List Int,
      ((ProbTable.incrementCharTrail alphabet t trail).descend path).isSome
          = ((t.descend path).isSome || decide (trail.take path.length = path))
        ∧ (∀ i : Int, (ProbTable.incrementCharTrail alphabet t trail).countAt path i
            = t.countAt path i + if trail.take (path.length + 1) = path ++ [i] then 1 else 0)
        ∧ ∀ j : Nat, (ProbTable.incrementCharTrail alphabet t trail).endCountAt path j
            = t.endCountAt path j :=
  ProbTable.incrementCharTrail_view alphabet trail t hsize hrange

theorem ProbTable.countsSized_create (alphabet : List Char) (g : String) (l : Nat) :
    ProbTable.CountsSized alphabet (ProbTable.create alphabet g l) := by
  intro path node hd
  cases path with
  | nil =>
    simp only [ProbTable.descend, Option.some.injEq] at hd
    rw [← hd]
    simp [ProbTable.create]
  | cons d rest =>
    rw [ProbTable.descend_create] at hd
    cases hd

/-- C15, at a fresh trie over `abc` and the trail of `ab`: the count of `b` below `a`. -/
theorem incrementCharTrail_effect_witness :
    (ProbTable.CountsSized abc (ProbTable.create abc "abc" 2)
      ∧ ∀ c ∈ [(0 : Int), 1], 0 ≤ c ∧ c < (abc.length : Int))
    ∧ (ProbTable.incrementCharTrail abc (ProbTable.create abc "abc" 2) [0, 1]).countAt [0] 1
      = (ProbTable.create abc "abc" 2).countAt [0] 1
        + if [(0 : Int), 1].take ([(0 : Int)].length + 1) = [0] ++ [1] then 1 else 0 :=
  ⟨⟨ProbTable.countsSized_create abc "abc" 2, by decide⟩,
    ((incrementCharTrail_effect abc (ProbTable.create abc "abc" 2) [0, 1]
      (ProbTable.countsSized_create abc "abc" 2) (by decide)) [0]).2.1 1⟩

/-! ### C16 -/

namespace ProbTable

theorem endProbability_length_clearEnd (t : ProbTable) :
    (clearEnd t).endProbability.length = t.endProbability.length := by
  rw [clearEnd_eq t]
  simp

theorem endSized_of_clearEnd_eq (L : Nat) (t u : ProbTable) (h : clearEnd t = clearEnd u)
    (hu : EndSized L u) : EndSized L t := by
  intro path node hd
  have h1 := descend_clearEnd path t
  rw [h, descend_clearEnd path u, hd] at h1
  cases hu2 : u.descend path with
  | none => simp [hu2] at h1
  | some node2 =>
    simp only [hu2, Option.map_some', Option.some.injEq] at h1
    have h2 := congrArg (fun x => x.endProbability.length) h1
    simp only [endProbability_length_clearEnd] at h2
    rw [← h2]
    exact hu path node2 hu2

theorem deepest_clearEnd : ∀ (s : List Int) (t : ProbTable),
    deepest (clearEnd t) s = deepest t s
  | [], t => rfl
  | c :: rest, t => by
    simp only [deepest, child_clearEnd]
    cases t.child c with
    | none => rfl
    | some ch =>
      simp only [Option.map_some']
      rw [deepest_clearEnd rest ch]

theorem deepest_of_clearEnd_eq (t u : ProbTable) (h : clearEnd t = clearEnd u)
    (s : List Int) : deepest t s = deepest u s := by
  rw [← deepest_clearEnd s t, h, deepest_clearEnd]

theorem getD_bumpEnd : ∀ (n : Nat) (e : List Nat) (j : Nat),
    (bumpEnd n e).getD j 0 = e.getD j 0 + if j < n ∧ j < e.length then 1 else 0
  | 0, e, j => by simp [bumpEnd]
  | n + 1, [], j => by simp [bumpEnd]
  | n + 1, x :: xs, 0 => by simp [bumpEnd]
  | n + 1, x :: xs, j + 1 => by
    have := getD_bumpEnd n xs j
    simpa [bumpEnd] using this

theorem child_endAt_some (t ch : ProbTable) (c : Int) (rest : List Int) (n : Nat)
    (hch : t.child c = some ch) (d : Int) :
    (endAt t (c :: rest) n).child d
      = if d = c then some (endAt ch rest n) else t.child d := by
  have hch2 : childAt t.next c = some ch := hch
  have hc : ¬ c < 0 := by
    intro hneg
    simp [childAt, hneg] at hch2
  simp only [endAt, hch2, child, next_mk]
  by_cases hd : d < 0
  · have hne : ¬ d = c := by omega
    simp [childAt, hd, hne]
  · rw [childAt_setAt _ _ _ hd]
    have hiff : d.toNat = c.toNat ↔ d = c := by omega
    by_cases hdc : d = c
    · simp [hdc]
    · have : ¬ d.toNat = c.toNat := fun h => hdc (hiff.mp h)
      simp [hdc, this]

theorem endSized_child (L : Nat) (t ch : ProbTable) (c : Int) (h : EndSized L t)
    (hch : t.child c = some ch) : EndSized L ch := by
  intro path node hd
  apply h (c :: path) node
  rw [descend_cons, hch]
  exact hd

theorem endAt_stop_view (t : ProbTable) (L n : Nat) (hsize : EndSized L t) (hn : n ≤ L)
    (path : List Int) (j : Nat) :
    (mk t.language t.levels t.probabilities (bumpEnd n t.endProbability) t.next).endCountAt
        path j
      = t.endCountAt path j + if [] = path ∧ j < n then 1 else 0 := by
  cases path with
  | nil =>
    simp only [endCountAt, descend, endProbability_mk, true_and]
    rw [getD_bumpEnd]
    have hlen : t.endProbability.length = L := hsize [] t rfl
    by_cases hj : j < n
    · have : j < t.endProbability.length := by omega
      simp [hj, this]
    · simp [hj]
  | cons d rest =>
    simp [endCountAt, descend_cons, child]

theorem endAt_view (L n : Nat) (hn : n ≤ L) :
    ∀ (s : List Int) (t : ProbTable), EndSized L t → ∀ (path : List Int) (j : Nat),
      (endAt t s n).endCountAt path j
        = t.endCountAt path j + if deepest t s = path ∧ j < n then 1 else 0
  | [], t, hsize, path, j => by
    simp only [endAt, deepest]
    exact endAt_stop_view t L n hsize hn path j
  | c :: rest, t, hsize, path, j => by
    cases hch : t.child c with
    | none =>
      have hch2 : childAt t.next c = none := hch
      simp only [endAt, hch2, deepest, hch]
      exact endAt_stop_view t L n hsize hn path j
    | some ch =>
      have ih := endAt_view L n hn rest ch (endSized_child L t ch c hsize hch)
      simp only [deepest, hch]
      cases path with
      | nil =>
        have hch2 : childAt t.next c = some ch := hch
        simp [endCountAt, descend, endAt, hch2]
      | cons d path2 =>
        by_cases hdc : d = c
        · subst hdc
          have h1 : (endAt t (d :: rest) n).endCountAt (d :: path2) j
              = (endAt ch rest n).endCountAt path2 j := by
            simp only [endCountAt, descend_cons, child_endAt_some t ch d rest n hch, if_true]
          have h2 : t.endCountAt (d :: path2) j = ch.endCountAt path2 j := by
            simp only [endCountAt, descend_cons, hch]
          rw [h1, h2, ih path2 j]
          simp
        · have h1 : (endAt t (c :: rest) n).endCountAt (d :: path2) j
              = t.endCountAt (d :: path2) j := by
            simp only [endCountAt, descend_cons, child_endAt_some t ch c rest n hch, hdc,
              if_false]
          have hcd : ¬ c = d := fun h => hdc h.symm
          rw [h1]
          simp [hcd]

theorem foldl_endAt_view (L : Nat) (slots : List Int → Nat) (path : List Int) (j : Nat) :
    ∀ (us : List (List Int)) (t : ProbTable), EndSized L t → (∀ s ∈ us, slots s ≤ L) →
      (us.foldl (fun acc s => endAt acc s (slots s)) t).endCountAt path j
        = t.endCountAt path j
          + (us.filter (fun s => decide (deepest t s = path ∧ j < slots s))).length
  | [], t, _, _ => rfl
  | s :: us, t, hsize, hslots => by
    have hce : clearEnd (endAt t s (slots s)) = clearEnd t := clearEnd_endAt s t (slots s)
    have ih := foldl_endAt_view L slots path j us (endAt t s (slots s))
      (endSized_of_clearEnd_eq L _ _ hce hsize)
      (fun x hx => hslots x (List.mem_cons_of_mem _ hx))
    rw [List.foldl_cons, ih, endAt_view L (slots s) (hslots s (List.mem_cons_self _ _)) s t hsize]
    have hfilter : (us.filter (fun x =>
          decide (deepest (endAt t s (slots s)) x = path ∧ j < slots x)))
        = us.filter (fun x => decide (deepest t x = path ∧ j < slots x)) := by
      congr 1
      funext x
      rw [deepest_of_clearEnd_eq _ _ hce x]
    rw [hfilter, List.filter_cons]
    by_cases hp : deepest t s = path ∧ j < slots s
    · simp only [hp, and_self, decide_True, if_true, List.length_cons]
      omega
    · simp only [hp, decide_False, if_false]
      simp

theorem foldl_congr_mem {α β : Type} (f g : β → α → β) :
    ∀ (l : List α) (b : β), (∀ acc, ∀ x ∈ l, f acc x = g acc x) → l.foldl f b = l.foldl g b
  | [], _, _ => rfl
  | x :: xs, b, h => by
    rw [List.foldl_cons, List.foldl_cons, h b x (List.mem_cons_self _ _)]
    exact foldl_congr_mem f g xs _ (fun acc y hy => h acc y (List.mem_cons_of_mem _ hy))

theorem length_suffixes : ∀ trail : List Int, (suffixes trail).length = trail.length
  | [] => rfl
  | c :: rest => by simp [suffixes, length_suffixes rest]

theorem length_le_of_mem_suffixes : ∀ (trail s : List Int), s ∈ suffixes trail →
    1 ≤ s.length ∧ s.length ≤ trail.length
  | [], s, h => by simp [suffixes] at h
  | c :: rest, s, h => by
    simp only [suffixes, List.mem_cons] at h
    rcases h with rfl | h
    · simp
    · have := length_le_of_mem_suffixes rest s h
      simp only [List.length_cons]
      omega

theorem incrementEndWord_unroll : ∀ (rest : List Int) (c : Int) (t : ProbTable) (bt : Nat),
    incrementEndWord t (c :: rest) bt
      = (suffixes rest).foldl (fun acc s => endAt acc s (t.levels + 1 - s.length))
          (endAt t (c :: rest) (t.levels - bt))
  | [], c, t, bt => by simp [incrementEndWord, suffixes]
  | c2 :: r, c, t, bt => by
    rw [incrementEndWord, incrementEndWord_unroll r c2, levels_endAt]
    simp only [suffixes, List.foldl_cons, List.length_cons]
    have h : t.levels + 1 - (r.length + 1) = t.levels - r.length := by omega
    rw [h]

end ProbTable

/-- C16. For every trie whose nodes all have `levels` end-count slots and every trail of
length `L >= 1`, `incrementEndWord(trail)` is `L` updates, one for each non-empty suffix of
the trail, the longest first; the update for a suffix goes to the deepest existing node
along that suffix and raises its first `levels` slots for the whole trail, its slots
`0 .. levels-m` for a shorter suffix of length `m`. So each end count has gone up by the
number of suffixes whose update reaches it, and no other end count has changed. -/
theorem incrementEndWord_effect (t : ProbTable) (trail : List Int) (hne : trail ≠ [])
    (hsize : ProbTable.EndSized t.levels t) :
    (ProbTable.suffixes trail).length = trail.length
      ∧ ProbTable.incrementEndWord t trail 0
          = (ProbTable.suffixes trail).foldl
              (fun acc s => ProbTable.endAt acc s (ProbTable.endSlots t.levels trail.length s)) t
      ∧ ∀ (path : List Int) (j : Nat),
          (ProbTable.incrementEndWord t trail 0).endCountAt path j
            = t.endCountAt path j
              + ((ProbTable.suffixes trail).filter (fun s =>
                  decide (ProbTable.deepest t s = path
                    ∧ j < ProbTable.endSlots t.levels trail.length s))).length := by
  have hunroll : ProbTable.incrementEndWord t trail 0
      = (ProbTable.suffixes trail).foldl
          (fun acc s => ProbTable.endAt acc s (ProbTable.endSlots t.levels trail.length s)) t := by
    cases trail with
    | nil => exact absurd rfl hne
    | cons c rest =>
      rw [ProbTable.incrementEndWord_unroll]
      simp only [ProbTable.suffixes, List.foldl_cons]
      have hfirst : ProbTable.endSlots t.levels (c :: rest).length (c :: rest) = t.levels - 0 := by
        simp [ProbTable.endSlots]
      rw [hfirst]
      apply ProbTable.foldl_congr_mem
      intro acc s hs
      have hlen := ProbTable.length_le_of_mem_suffixes rest s hs
      have hneq : ¬ s.length = (c :: rest).length := by
        simp only [List.length_cons]
        omega
      simp only [ProbTable.endSlots, hneq, if_false]
  refine ⟨ProbTable.length_suffixes trail, hunroll, ?_⟩
  intro path j
  rw [hunroll]
  apply ProbTable.foldl_endAt_view t.levels _ path j _ t hsize
  intro s hs
  have hlen := ProbTable.length_le_of_mem_suffixes trail s hs
  unfold ProbTable.endSlots
  split
  · exact Nat.le_refl _
  · omega

theorem ProbTable.endSized_create (alphabet : List Char) (g : String) (l : Nat) :
    ProbTable.EndSized l (ProbTable.create alphabet g l) := by
  intro path node hd
  cases path with
  | nil =>
    simp only [ProbTable.descend, Option.some.injEq] at hd
    rw [← hd]
    simp [ProbTable.create]
  | cons d rest =>
    rw [ProbTable.descend_create] at hd
    cases hd

/-- C16, at a fresh trie over `abc` with `levels = 2` and the trail of `ab`: slot 0 of the
root. -/
theorem incrementEndWord_effect_witness :
    (([(0 : Int), 1] ≠ [])
      ∧ ProbTable.EndSized (ProbTable.create abc "abc" 2).levels (ProbTable.create abc "abc" 2))
    ∧ (ProbTable.incrementEndWord (ProbTable.create abc "abc" 2) [0, 1] 0).endCountAt [] 0
      = (ProbTable.create abc "abc" 2).endCountAt [] 0
        + ((ProbTable.suffixes [0, 1]).filter (fun s =>
            decide (ProbTable.deepest (ProbTable.create abc "abc" 2) s = []
              ∧ 0 < ProbTable.endSlots (ProbTable.create abc "abc" 2).levels
                  [(0 : Int), 1].length s))).length :=
  ⟨⟨by decide, ProbTable.endSized_create abc "abc" 2⟩,
    (incrementEndWord_effect (ProbTable.create abc "abc" 2) [0, 1] (by decide)
      (ProbTable.endSized_create abc "abc" 2)).2.2 [] 0⟩

/-! ### C18 -/

namespace ProbTable

theorem getD_incrAt_ne : ∀ (p : List Nat) (i k : Nat), k ≠ i →
    (incrAt p i).getD k 0 = p.getD k 0
  | [], _, _, _ => rfl
  | x :: xs, 0, 0, h => absurd rfl h
  | x :: xs, 0, k + 1, _ => by simp [incrAt]
  | x :: xs, i + 1, 0, _ => by simp [incrAt]
  | x :: xs, i + 1, k + 1, h => by
    have := getD_incrAt_ne xs i k (fun e => h (by rw [e]))
    simpa [incrAt] using this

theorem mem_setAt {α : Type} : ∀ (i : Nat) (n : List (Option α)) (v c : α),
    some c ∈ setAt n i v → c = v ∨ some c ∈ n
  | 0, [], v, c, h => by
    simp only [setAt, List.mem_singleton, Option.some.injEq] at h
    exact Or.inl h
  | 0, x :: xs, v, c, h => by
    simp only [setAt, List.mem_cons, Option.some.injEq] at h
    rcases h with h | h
    · exact Or.inl h
    · exact Or.inr (List.mem_cons_of_mem _ h)
  | i + 1, [], v, c, h => by
    simp only [setAt, List.mem_cons] at h
    rcases h with h | h
    · cases h
    · exact mem_setAt i [] v c h
  | i + 1, x :: xs, v, c, h => by
    simp only [setAt, List.mem_cons] at h
    rcases h with h | h
    · exact Or.inr (by rw [h]; exact List.mem_cons_self _ _)
    · rcases mem_setAt i xs v c h with h2 | h2
      · exact Or.inl h2
      · exact Or.inr (List.mem_cons_of_mem _ h2)

theorem mem_of_join_get? {α : Type} (n : List (Option α)) (i : Nat) (c : α)
    (h : (n.get? i).join = some c) : some c ∈ n := by
  cases hg : n.get? i with
  | none =>
    rw [hg] at h
    cases h
  | some o =>
    rw [hg] at h
    have ho : o = some c := h
    rw [ho] at hg
    exact List.get?_mem hg

theorem indexOf_canonical (alphabet : List Char) (x : Char)
    (h : Language.isValid x alphabet = true) :
    Canonical alphabet (Language.indexOf alphabet x) := by
  cases hf : alphabet.findIdx? (fun a => a == x) with
  | none =>
    exfalso
    rw [List.findIdx?_eq_none_iff] at hf
    simp only [Language.isValid, List.contains_iff_exists_mem_beq] at h
    obtain ⟨a, ha, hax⟩ := h
    have := hf a ha
    have hxa : (a == x) = true := by
      rw [beq_iff_eq] at hax ⊢
      exact hax.symm
    rw [hxa] at this
    cases this
  | some i =>
    obtain ⟨hi, hx, _⟩ := List.findIdx?_eq_some_iff_getElem.mp hf
    have hxi : alphabet[i] = x := by simpa using hx
    have hio : Language.indexOf alphabet x = (i : Int) := by
      unfold Language.indexOf
      rw [hf]
    rw [hio]
    refine ⟨Int.ofNat_nonneg i, x, ?_, hio⟩
    simp only [Int.toNat_ofNat, List.get?_eq_getElem?]
    rw [List.getElem?_eq_getElem hi, hxi]

theorem consistent_create (alphabet : List Char) (g : String) (l : Nat) :
    Consistent alphabet (create alphabet g l) := by
  refine Consistent.mk _ _ _ _ _ ?_ ?_
  · intro i hi
    rw [getD_replicate_zero] at hi
    exact absurd hi (Nat.lt_irrefl _)
  · intro c hc
    cases hc

theorem Consistent.counts {alphabet : List Char} {t : ProbTable} (h : Consistent alphabet t) :
    ∀ i : Nat, 0 < t.probabilities.getD i 0 →
      ((t.next.get? i).join).isSome = true
        ∧ ∃ ch, alphabet.get? i = some ch ∧ Language.indexOf alphabet ch = (i : Int) := by
  cases h with
  | mk g l p e n hp hn => exact hp

theorem Consistent.children {alphabet : List Char} {t : ProbTable}
    (h : Consistent alphabet t) : ∀ c, some c ∈ t.next → Consistent alphabet c := by
  cases h with
  | mk g l p e n hp hn => exact hn

theorem consistent_childOrCreate (alphabet : List Char) (t : ProbTable) (c : Int)
    (h : Consistent alphabet t) : Consistent alphabet (childOrCreate alphabet t c) := by
  unfold childOrCreate
  cases hch : childAt t.next c with
  | none => exact consistent_create alphabet _ _
  | some ch => exact h.children ch (mem_of_join_get? _ _ _ (childAt_some _ _ _ hch))

theorem consistent_incrementCharTrail (alphabet : List Char) :
    ∀ (trail : List Int) (t : ProbTable), Consistent alphabet t →
      (∀ c ∈ trail, Canonical alphabet c) →
      Consistent alphabet (incrementCharTrail alphabet t trail)
  | [], t, h, _ => by simpa [incrementCharTrail] using h
  | c :: rest, t, h, hcan => by
    obtain ⟨hc0, ch, hch, hidx⟩ := hcan c (List.mem_cons_self _ _)
    have ih := consistent_incrementCharTrail alphabet rest (childOrCreate alphabet t c)
      (consistent_childOrCreate alphabet t c h)
      (fun x hx => hcan x (List.mem_cons_of_mem _ hx))
    rw [incrementCharTrail_cons alphabet t c rest hc0]
    refine Consistent.mk _ _ _ _ _ ?_ ?_
    · intro i hi
      rw [join_get?_setAt]
      by_cases hic : i = c.toNat
      · subst hic
        refine ⟨by simp, ch, hch, ?_⟩
        rw [hidx]
        omega
      · rw [getD_incrAt_ne _ _ _ hic] at hi
        simp only [hic, if_false]
        exact h.counts i hi
    · intro x hx
      rcases mem_setAt _ _ _ _ hx with rfl | hx
      · exact ih
      · exact h.children x hx

theorem consistent_endAt (alphabet : List Char) :
    ∀ (trail : List Int) (t : ProbTable) (k : Nat), Consistent alphabet t →
      Consistent alphabet (endAt t trail k)
  | [], t, k, h => by
    simp only [endAt]
    exact Consistent.mk _ _ _ _ _ h.counts h.children
  | c :: rest, t, k, h => by
    simp only [endAt]
    cases hch : childAt t.next c with
    | none => exact Consistent.mk _ _ _ _ _ h.counts h.children
    | some ch =>
      have hmem := mem_of_join_get? _ _ _ (childAt_some _ _ _ hch)
      have ih := consistent_endAt alphabet rest ch k (h.children ch hmem)
      refine Consistent.mk _ _ _ _ _ ?_ ?_
      · intro i hi
        rw [join_get?_setAt]
        by_cases hic : i = c.toNat
        · subst hic
          exact ⟨by simp, (h.counts _ hi).2⟩
        · simp only [hic, if_false]
          exact h.counts i hi
      · intro x hx
        rcases mem_setAt _ _ _ _ hx with rfl | hx
        · exact ih
        · exact h.children x hx

theorem consistent_incrementEndWord (alphabet : List Char) :
    ∀ (trail : List Int) (t : ProbTable) (backTrack : Nat), Consistent alphabet t →
      Consistent alphabet (incrementEndWord t trail backTrack)
  | [], t, b, h => by
    simp only [incrementEndWord]
    exact consistent_endAt alphabet _ _ _ h
  | [c], t, b, h => by
    simp only [incrementEndWord]
    exact consistent_endAt alphabet _ _ _ h
  | c :: c2 :: rest, t, b, h => by
    simp only [incrementEndWord]
    exact consistent_incrementEndWord alphabet (c2 :: rest) _ _
      (consistent_endAt alphabet _ _ _ h)

theorem createCharTrail_canonical (cs : Casing) (alphabet : List Char) (text : List Char)
    (h : ∀ c ∈ text, Language.isValid (cs.toLowerCase c) alphabet = true) :
    ∀ i ∈ Language.createCharTrail cs text alphabet, Canonical alphabet i := by
  intro i hi
  simp only [Language.createCharTrail, List.mem_map] at hi
  obtain ⟨c, hc, rfl⟩ := hi
  exact indexOf_canonical alphabet _ (h c hc)

theorem callsChars_canonical (cs : Casing) (alphabet : List Char) (capitals : Bool)
    (levels : Nat) : ∀ (text : List Char) (st : List Char × Bool),
      (∀ c ∈ st.1, Language.isValid (cs.toLowerCase c) alphabet = true) →
      ∀ call ∈ callsChars cs alphabet capitals levels st text,
        ∀ i ∈ call.charTrail, Canonical alphabet i
  | [], st, h, call, hcall => by simp [callsChars] at hcall
  | x :: rest, st, h, call, hcall => by
    have hnext := scanStep_valid cs alphabet capitals levels st x h
    have ih := callsChars_canonical cs alphabet capitals levels rest
      (scanStep cs alphabet capitals levels st x) hnext
    simp only [callsChars] at hcall
    split at hcall
    · rcases List.mem_cons.mp hcall with rfl | hc
      · exact createCharTrail_canonical cs alphabet _ hnext
      · exact ih call hc
    · split at hcall
      · rcases List.mem_cons.mp hcall with rfl | hc
        · exact createCharTrail_canonical cs alphabet _ h
        · exact ih call hc
      · exact ih call hcall

theorem callsLines_canonical (cs : Casing) (alphabet : List Char) (capitals : Bool)
    (levels : Nat) : ∀ (lines : List (List Char)) (st : List Char × Bool),
      (∀ c ∈ st.1, Language.isValid (cs.toLowerCase c) alphabet = true) →
      ∀ call ∈ callsLines cs alphabet capitals levels st lines,
        ∀ i ∈ call.charTrail, Canonical alphabet i
  | [], st, h, call, hcall => by simp [callsLines] at hcall
  | line :: rest, st, h, call, hcall => by
    simp only [callsLines] at hcall
    rcases List.mem_append.mp hcall with hc | hc
    · exact callsChars_canonical cs alphabet capitals levels line (st.1, true) h call hc
    · exact callsLines_canonical cs alphabet capitals levels rest _
        (foldl_scanStep_valid cs alphabet capitals levels line (st.1, true) h) call hc

theorem consistent_foldl_apply (alphabet : List Char) :
    ∀ (calls : List Call) (t : ProbTable), Consistent alphabet t →
      (∀ call ∈ calls, ∀ i ∈ call.charTrail, Canonical alphabet i) →
      Consistent alphabet (calls.foldl (Call.apply alphabet) t)
  | [], t, h, _ => h
  | call :: rest, t, h, hcan => by
    rw [List.foldl_cons]
    apply consistent_foldl_apply alphabet rest _ _
      (fun x hx => hcan x (List.mem_cons_of_mem _ hx))
    cases call with
    | incrementCharTrail trail =>
      exact consistent_incrementCharTrail alphabet trail t h
        (hcan _ (List.mem_cons_self _ _))
    | incrementEndWord trail =>
      exact consistent_incrementEndWord alphabet trail t 0 h

theorem consistent_parseTextLines (cs : Casing) (alphabet : List Char) (t : ProbTable)
    (lines : List (List Char)) (capitals : Bool) (h : Consistent alphabet t) :
    Consistent alphabet (parseTextLines cs alphabet t lines capitals) := by
  have hrep : parseTextLines cs alphabet t lines capitals
      = (callsLines cs alphabet capitals t.levels ([], true) lines).foldl
          (Call.apply alphabet) t :=
    foldl_parseLine_table cs alphabet capitals lines
      { table := t, charTrail := [], firstChar := true }
  rw [hrep]
  exact consistent_foldl_apply alphabet _ t h
    (callsLines_canonical cs alphabet capitals t.levels lines ([], true)
      (fun c hc => by cases hc))

theorem consistent_trainCalls (cs : Casing) (alphabet : List Char) :
    ∀ (calls : List (List (List Char) × Bool)) (t : ProbTable), Consistent alphabet t →
      Consistent alphabet (trainCalls cs alphabet t calls)
  | [], t, h => h
  | call :: rest, t, h => by
    have := consistent_trainCalls cs alphabet rest _
      (consistent_parseTextLines cs alphabet t call.1 call.2 h)
    simpa [trainCalls] using this

end ProbTable

namespace ProbTable

mutual
theorem consistent_of_mem_nodes (alphabet : List Char) :
    ∀ t : ProbTable, Consistent alphabet t → ∀ n ∈ t.nodes, Consistent alphabet n
  | mk g l p e ns, h, n, hn => by
    simp only [nodes, List.mem_cons] at hn
    rcases hn with rfl | hn
    · exact h
    · exact consistent_of_mem_nodesOf alphabet ns h.children n hn
theorem consistent_of_mem_nodesOf (alphabet : List Char) :
    ∀ ns : List (Option ProbTable), (∀ c, some c ∈ ns → Consistent alphabet c) →
      ∀ n ∈ nodesOf ns, Consistent alphabet n
  | [], _, n, hn => by simp [nodesOf] at hn
  | none :: r, h, n, hn => by
    simp only [nodesOf] at hn
    exact consistent_of_mem_nodesOf alphabet r
      (fun c hc => h c (List.mem_cons_of_mem _ hc)) n hn
  | some c :: r, h, n, hn => by
    simp only [nodesOf, List.mem_append] at hn
    rcases hn with hn | hn
    · exact consistent_of_mem_nodes alphabet c (h c (List.mem_cons_self _ _)) n hn
    · exact consistent_of_mem_nodesOf alphabet r
        (fun x hx => h x (List.mem_cons_of_mem _ hx)) n hn
end

theorem normalizedChildren_nil (alphabet : List Char) (ps : List Nat) :
    normalizedChildren alphabet ps [] = [] := by
  cases ps <;> simp [normalizedChildren]

mutual
theorem mem_nodes_getNormalizedTable (alphabet : List Char) :
    ∀ (t : ProbTable) (N : NormalizedTable), N ∈ (getNormalizedTable alphabet t).nodes →
      ∃ n ∈ t.nodes, N = getNormalizedTable alphabet n
  | mk g l p e ns, N, h => by
    simp only [getNormalizedTable, NormalizedTable.nodes, List.mem_cons] at h
    rcases h with h | h
    · exact ⟨mk g l p e ns, mem_nodes_self _, by rw [h]; simp [getNormalizedTable]⟩
    · obtain ⟨n, hn, hN⟩ := mem_nodesAll_normalizedChildren alphabet ns p N h
      exact ⟨n, by simp only [nodes, List.mem_cons]; exact Or.inr hn, hN⟩
theorem mem_nodesAll_normalizedChildren (alphabet : List Char) :
    ∀ (ns : List (Option ProbTable)) (ps : List Nat) (N : NormalizedTable),
      N ∈ NormalizedTable.nodesAll (normalizedChildren alphabet ps ns) →
      ∃ n ∈ nodesOf ns, N = getNormalizedTable alphabet n
  | [], ps, N, h => by
    rw [normalizedChildren_nil] at h
    simp [NormalizedTable.nodesAll] at h
  | none :: r, [], N, h => by simp [normalizedChildren, NormalizedTable.nodesAll] at h
  | none :: r, p :: ps, N, h => by
    simp only [normalizedChildren] at h
    obtain ⟨n, hn, hN⟩ := mem_nodesAll_normalizedChildren alphabet r ps N h
    exact ⟨n, by simpa [nodesOf] using hn, hN⟩
  | some c :: r, [], N, h => by simp [normalizedChildren, NormalizedTable.nodesAll] at h
  | some c :: r, p :: ps, N, h => by
    simp only [normalizedChildren] at h
    split at h
    · simp only [NormalizedTable.nodesAll, List.mem_append] at h
      rcases h with h | h
      · obtain ⟨n, hn, hN⟩ := mem_nodes_getNormalizedTable alphabet c N h
        exact ⟨n, by simp only [nodesOf, List.mem_append]; exact Or.inl hn, hN⟩
      · obtain ⟨n, hn, hN⟩ := mem_nodesAll_normalizedChildren alphabet r ps N h
        exact ⟨n, by simp only [nodesOf, List.mem_append]; exact Or.inr hn, hN⟩
    · obtain ⟨n, hn, hN⟩ := mem_nodesAll_normalizedChildren alphabet r ps N h
      exact ⟨n, by simp only [nodesOf, List.mem_append]; exact Or.inr hn, hN⟩
end

theorem normalizedChildren_cons_zero (alphabet : List Char) (p : Nat) (ps : List Nat)
    (ns : List (Option ProbTable)) (hp : ¬ p > 0) :
    normalizedChildren alphabet (p :: ps) ns = normalizedChildren alphabet ps ns.tail := by
  cases ns with
  | nil => simp [normalizedChildren, normalizedChildren_nil]
  | cons o r =>
    cases o with
    | none => simp [normalizedChildren]
    | some c => simp [normalizedChildren, hp]

theorem join_get?_tail (ns : List (Option ProbTable)) (i : Nat) :
    (ns.tail.get? i).join = (ns.get? (i + 1)).join := by
  cases ns with
  | nil => simp
  | cons o r => simp

theorem children_entries (alphabet : List Char) (total : Nat) :
    ∀ (ps : List Nat) (ns : List (Option ProbTable)) (off : Nat),
      (∀ i, 0 < ps.getD i 0 → ((ns.get? i).join).isSome = true) →
      (normalizedChildren alphabet ps ns).length = (entriesFrom alphabet total off ps).length
        ∧ ∀ k e, (entriesFrom alphabet total off ps).get? k = some e →
            ∃ i c, 0 < ps.getD i 0 ∧ e.char = alphabet.get? (off + i)
              ∧ (ns.get? i).join = some c
              ∧ (normalizedChildren alphabet ps ns).get? k
                  = some (getNormalizedTable alphabet c)
  | [], ns, off, _ => by
    simp [normalizedChildren, entriesFrom]
  | p :: ps, ns, off, hp => by
    have htail : ∀ i, 0 < ps.getD i 0 → ((ns.tail.get? i).join).isSome = true := by
      intro i hi
      rw [join_get?_tail]
      exact hp (i + 1) (by simpa using hi)
    obtain ⟨ihlen, ihpos⟩ := children_entries alphabet total ps ns.tail (off + 1) htail
    by_cases hpos : p > 0
    · have h0 := hp 0 (by simpa using hpos)
      cases ns with
      | nil => simp at h0
      | cons o r =>
        cases o with
        | none => simp at h0
        | some c =>
          simp only [List.tail_cons] at ihlen ihpos
          simp only [normalizedChildren, entriesFrom, hpos, if_true, List.length_cons, ihlen,
            true_and]
          intro k e hk
          cases k with
          | zero =>
            simp only [List.get?_cons_zero, Option.some.injEq] at hk
            refine ⟨0, c, by simpa using hpos, by rw [← hk]; rfl, by simp, by simp⟩
          | succ k =>
            simp only [List.get?_cons_succ] at hk
            obtain ⟨i, c2, h1, h2, h3, h4⟩ := ihpos k e hk
            refine ⟨i + 1, c2, by simpa using h1, ?_, by simpa using h3, by simpa using h4⟩
            rw [h2]
            congr 1
            omega
    · rw [normalizedChildren_cons_zero alphabet p ps ns hpos]
      simp only [entriesFrom, hpos, if_false]
      refine ⟨ihlen, ?_⟩
      intro k e hk
      obtain ⟨i, c2, h1, h2, h3, h4⟩ := ihpos k e hk
      refine ⟨i + 1, c2, by simpa using h1, ?_, ?_, h4⟩
      · rw [h2]
        congr 1
        omega
      · rw [← join_get?_tail]
        exact h3

theorem entry_of_positive (alphabet : List Char) (total : Nat) :
    ∀ (ps : List Nat) (off i : Nat), 0 < ps.getD i 0 →
      ∃ e ∈ entriesFrom alphabet total off ps, e.char = alphabet.get? (off + i)
  | [], off, i, h => by simp at h
  | p :: ps, off, 0, h => by
    have hp : p > 0 := by simpa using h
    exact ⟨_, by simp only [entriesFrom, hp, if_true]; exact List.mem_cons_self _ _, rfl⟩
  | p :: ps, off, i + 1, h => by
    obtain ⟨e, he, hc⟩ := entry_of_positive alphabet total ps (off + 1) i (by simpa using h)
    refine ⟨e, ?_, ?_⟩
    · simp only [entriesFrom]
      split
      · exact List.mem_cons_of_mem _ he
      · exact he
    · rw [hc]
      congr 1
      omega

theorem get?_of_indexOf (alphabet : List Char) (ch : Char) (i : Nat)
    (h : Language.indexOf alphabet ch = (i : Int)) : alphabet.get? i = some ch := by
  unfold Language.indexOf at h
  cases hf : alphabet.findIdx? (fun a => a == ch) with
  | none =>
    rw [hf] at h
    simp only at h
    omega
  | some k =>
    rw [hf] at h
    have hk : k = i := by
      simp only at h
      omega
    subst hk
    obtain ⟨hi, hx, _⟩ := List.findIdx?_eq_some_iff_getElem.mp hf
    have hxi : alphabet[k] = ch := by simpa using hx
    rw [List.get?_eq_getElem?, List.getElem?_eq_getElem hi, hxi]

theorem getNormalizedTable_next (alphabet : List Char) (t : ProbTable) :
    (getNormalizedTable alphabet t).next
      = normalizedChildren alphabet t.probabilities t.next := by
  cases t with
  | mk g l p e n => simp [getNormalizedTable, NormalizedTable.next]

/-- What a node with consistent counts and children is normalized to. -/
theorem consistent_normalized (alphabet : List Char) (n : ProbTable)
    (h : Consistent alphabet n) :
    (getNormalizedTable alphabet n).next.length
        = (getNormalizedTable alphabet n).probabilities.length
      ∧ (∀ k e, (getNormalizedTable alphabet n).probabilities.get? k = some e →
          ∃ ch c, e.char = some ch
            ∧ 0 < n.countAt [] (Language.indexOf alphabet ch)
            ∧ n.child (Language.indexOf alphabet ch) = some c
            ∧ (getNormalizedTable alphabet n).next.get? k
                = some (getNormalizedTable alphabet c)) := by
  obtain ⟨hlen, hpos⟩ := children_entries alphabet n.total n.probabilities n.next 0
    (fun i hi => (h.counts i hi).1)
  rw [getNormalizedTable_next, getNormalizedTable_probabilities]
  refine ⟨hlen, ?_⟩
  intro k e hk
  obtain ⟨i, c, h1, h2, h3, h4⟩ := hpos k e hk
  obtain ⟨_, ch, hch, hidx⟩ := h.counts i h1
  rw [Nat.zero_add] at h2
  refine ⟨ch, c, by rw [h2, hch], ?_, ?_, h4⟩
  · rw [hidx]
    simp only [countAt, descend]
    have : ¬ ((i : Int) < 0) := by omega
    simp only [this, if_false, Int.toNat_ofNat]
    exact h1
  · rw [hidx]
    simp only [child, childAt]
    have : ¬ ((i : Int) < 0) := by omega
    simp only [this, if_false, Int.toNat_ofNat]
    exact h3

theorem consistent_getChildByChar (alphabet : List Char) (n : ProbTable)
    (h : Consistent alphabet n) (ch : Char) :
    (getNormalizedTable alphabet n).getChildByChar [ch]
      = if 0 < n.countAt [] (Language.indexOf alphabet ch) then
          (n.child (Language.indexOf alphabet ch)).map (getNormalizedTable alphabet)
        else none := by
  obtain ⟨_, hpos⟩ := consistent_normalized alphabet n h
  have hne : ¬ ([ch] : List Char) = [] := by simp
  simp only [NormalizedTable.getChildByChar, hne, if_false]
  cases hf : (getNormalizedTable alphabet n).probabilities.findIdx?
      (fun e => e.char.map (fun c => [c]) == some [ch]) with
  | some k =>
    obtain ⟨hk, hx, _⟩ := List.findIdx?_eq_some_iff_getElem.mp hf
    have hget : (getNormalizedTable alphabet n).probabilities.get? k
        = some ((getNormalizedTable alphabet n).probabilities[k]) := by
      rw [List.get?_eq_getElem?, List.getElem?_eq_getElem hk]
    obtain ⟨ch2, c, h1, h2, h3, h4⟩ := hpos k _ hget
    have hcc : ch2 = ch := by
      rw [h1] at hx
      simpa using hx
    subst hcc
    simp only [h2, if_true, h3, Option.map_some']
    exact h4
  | none =>
    simp only
    by_cases hcount : 0 < n.countAt [] (Language.indexOf alphabet ch)
    · exfalso
      rw [List.findIdx?_eq_none_iff] at hf
      have hi0 : ¬ Language.indexOf alphabet ch < 0 := by
        intro hneg
        simp [countAt, descend, hneg] at hcount
      have hp : 0 < n.probabilities.getD (Language.indexOf alphabet ch).toNat 0 := by
        simpa [countAt, descend, hi0] using hcount
      obtain ⟨e, he, hc⟩ := entry_of_positive alphabet n.total n.probabilities 0 _ hp
      rw [← getNormalizedTable_probabilities] at he
      have hidx : Language.indexOf alphabet ch
          = (((Language.indexOf alphabet ch).toNat : Nat) : Int) := by omega
      rw [Nat.zero_add, get?_of_indexOf alphabet ch _ hidx] at hc
      have := hf e he
      rw [hc] at this
      simp at this
    · simp [hcount]

end ProbTable

theorem NormalizedTable.self_mem_nodes (t : NormalizedTable) : t ∈ t.nodes := by
  cases t with
  | mk g l p e n => simp [NormalizedTable.nodes]

/-- C18. Entries and children stay parallel: every node of the tree that
`getNormalizedTable` returns for a trie obtained from a freshly created `ProbTable` by
`parseTextLines` (any number of calls) is the normalization of a node of the trie; its child
list is as long as its entry list; the child at the position of an entry is the
normalization of the trie child for the character of that entry; and `getChildByChar(c)`
returns the normalization of the trie child for `c` when the node has counted `c`, null
otherwise. -/
theorem entries_and_children_parallel (cs : Casing) (alphabet : List Char) (language : String)
    (levels : Nat) (calls : List (List (List Char) × Bool)) (N : NormalizedTable)
    (hN : N ∈ (ProbTable.getNormalizedTable alphabet
      (ProbTable.trainCalls cs alphabet (ProbTable.create alphabet language levels)
        calls)).nodes) :
    ∃ n ∈ (ProbTable.trainCalls cs alphabet (ProbTable.create alphabet language levels)
        calls).nodes,
      N = ProbTable.getNormalizedTable alphabet n
        ∧ N.next.length = N.probabilities.length
        ∧ (∀ k e, N.probabilities.get? k = some e →
            ∃ ch c, e.char = some ch
              ∧ 0 < n.countAt [] (Language.indexOf alphabet ch)
              ∧ n.child (Language.indexOf alphabet ch) = some c
              ∧ N.next.get? k = some (ProbTable.getNormalizedTable alphabet c))
        ∧ ∀ ch : Char, N.getChildByChar [ch]
            = if 0 < n.countAt [] (Language.indexOf alphabet ch) then
                (n.child (Language.indexOf alphabet ch)).map
                  (ProbTable.getNormalizedTable alphabet)
              else none := by
  obtain ⟨n, hn, rfl⟩ := ProbTable.mem_nodes_getNormalizedTable alphabet _ N hN
  have hcons : ProbTable.Consistent alphabet n :=
    ProbTable.consistent_of_mem_nodes alphabet _
      (ProbTable.consistent_trainCalls cs alphabet calls _
        (ProbTable.consistent_create alphabet language levels)) n hn
  obtain ⟨h1, h2⟩ := ProbTable.consistent_normalized alphabet n hcons
  exact ⟨n, hn, rfl, h1, h2, ProbTable.consistent_getChildByChar alphabet n hcons⟩

/-- C18, at the root of the runtime tree of the trie trained on `ab ac`. -/
theorem entries_and_children_parallel_witness :
    abAcTable ∈ (ProbTable.getNormalizedTable abc
        (ProbTable.trainCalls jsCasing abc (ProbTable.create abc "abc" 2)
          [(["ab ac".toList], false)])).nodes
    ∧ ∃ n ∈ (ProbTable.trainCalls jsCasing abc (ProbTable.create abc "abc" 2)
          [(["ab ac".toList], false)]).nodes,
        abAcTable = ProbTable.getNormalizedTable abc n
          ∧ abAcTable.next.length = abAcTable.probabilities.length
          ∧ (∀ k e, abAcTable.probabilities.get? k = some e →
              ∃ ch c, e.char = some ch
                ∧ 0 < n.countAt [] (Language.indexOf abc ch)
                ∧ n.child (Language.indexOf abc ch) = some c
                ∧ abAcTable.next.get? k = some (ProbTable.getNormalizedTable abc c))
          ∧ ∀ ch : Char, abAcTable.getChildByChar [ch]
              = if 0 < n.countAt [] (Language.indexOf abc ch) then
                  (n.child (Language.indexOf abc ch)).map (ProbTable.getNormalizedTable abc)
                else none :=
  ⟨NormalizedTable.self_mem_nodes _,
    entries_and_children_parallel jsCasing abc "abc" 2 [(["ab ac".toList], false)] abAcTable
      (NormalizedTable.self_mem_nodes _)⟩

/-! ### C20 -/

theorem roundDouble_of_lt (q : ℚ) (h1 : -2 ^ 1024 < roundValue q) (h2 : roundValue q < 2 ^ 1024) :
    roundDouble q = JSNumber.finite (roundValue q) := by
  unfold roundDouble
  rw [if_neg (not_le.mpr h2), if_neg (not_le.mpr h1)]

theorem roundValue_one : roundValue 1 = 1 :=
  roundValue_of_grid 1 1 0 (by norm_num) (by norm_num) (by norm_num)

theorem roundValue_halfPi : roundValue (mathPI / 2) = mathPI / 2 :=
  roundValue_of_grid (mathPI / 2) 884279719003555 (-49) (by norm_num)
    (by norm_num [mathPI]) (by rw [abs_of_pos (by norm_num [mathPI])]; norm_num [mathPI])

theorem roundDouble_one_le (q : ℚ) (h : 1 ≤ q) :
    roundDouble q = JSNumber.infinity ∨ ∃ r, 1 ≤ r ∧ roundDouble q = JSNumber.finite r := by
  have h1 : 1 ≤ roundValue q := by
    have := roundValue_mono 1 q h
    rw [roundValue_one] at this
    exact this
  unfold roundDouble
  by_cases hbig : (2 : ℚ) ^ 1024 ≤ roundValue q
  · left
    rw [if_pos hbig]
  · right
    refine ⟨roundValue q, h1, ?_⟩
    rw [if_neg hbig, if_neg]
    intro hle
    have : (0 : ℚ) < 2 ^ 1024 := by positivity
    linarith

theorem ltRat_of_one_le (x : JSNumber) (v : ℚ) (hv : v < 1)
    (hx : x = JSNumber.infinity ∨ ∃ r, 1 ≤ r ∧ x = JSNumber.finite r) : x.ltRat v = false := by
  rcases hx with rfl | ⟨r, hr, rfl⟩
  · rfl
  · simp only [JSNumber.ltRat, decide_eq_false_iff_not, not_lt]
    linarith

theorem geRat_of_one_le (x : JSNumber)
    (hx : x = JSNumber.infinity ∨ ∃ r, 1 ≤ r ∧ x = JSNumber.finite r) : x.geRat 1 = true := by
  rcases hx with rfl | ⟨r, hr, rfl⟩
  · rfl
  · simp only [JSNumber.geRat, decide_eq_true_eq]
    exact hr

namespace NormalizedTable

/-- The argument that `weighedEndFactor` passes to `Math.cos`. -/
theorem endAngle_le_halfPi (d k : ℚ) (hd1 : 1 ≤ d) (hd2 : d ≤ 2 ^ 53) (hk : 0 ≤ k)
    (hkd : 2 * k + 1 ≤ d) :
    ∃ a, 0 ≤ a ∧ a ≤ mathPI / 2
      ∧ ((JSNumber.finite mathPI).divDouble (JSNumber.finite d)).mulDouble (JSNumber.finite k)
          = JSNumber.finite a := by
  have hd0 : d ≠ 0 := by linarith
  have hdpos : 0 < d := by linarith
  have hpi : (0 : ℚ) < mathPI := by norm_num [mathPI]
  have hpi3 : mathPI ≤ 4 := by norm_num [mathPI]
  have hq : 0 < mathPI / d := div_pos hpi hdpos
  have hnormal : (2 : ℚ) ^ (-1022 : ℤ) ≤ mathPI / d := by
    have h1 : (2 : ℚ) ^ (-1022 : ℤ) ≤ 2 ^ (-53 : ℤ) :=
      zpow_le_zpow_right₀ (by norm_num) (by norm_num)
    have h2 : (2 : ℚ) ^ (-53 : ℤ) = 1 / 2 ^ 53 := by norm_num
    have h3 : (1 : ℚ) / 2 ^ 53 ≤ mathPI / d := by
      rw [div_le_div_iff₀ (by positivity) hdpos]
      have : (1 : ℚ) ≤ mathPI := by norm_num [mathPI]
      nlinarith
    linarith
  have hrel := roundValue_le_rel (mathPI / d) hnormal
  have ha1 : 0 ≤ roundValue (mathPI / d) := roundValue_nonneg _ (le_of_lt hq)
  have hqle : mathPI / d ≤ 4 := by
    rw [div_le_iff₀ hdpos]
    nlinarith
  have ha1lt : roundValue (mathPI / d) < 2 ^ 1024 := by
    have h1 : roundValue (mathPI / d) ≤ 4 * (1 + 1 / 2 ^ 53) :=
      le_trans hrel (mul_le_mul_of_nonneg_right hqle (by positivity))
    have h2 : (4 : ℚ) * (1 + 1 / 2 ^ 53) < 2 ^ 1024 := by norm_num
    linarith
  have hdiv : (JSNumber.finite mathPI).divDouble (JSNumber.finite d)
      = JSNumber.finite (roundValue (mathPI / d)) := by
    simp only [JSNumber.divDouble, hd0, if_false]
    exact roundDouble_of_lt _ (by have : (0 : ℚ) < 2 ^ 1024 := by positivity
                                  linarith) ha1lt
  have hprod0 : 0 ≤ roundValue (mathPI / d) * k := mul_nonneg ha1 hk
  have hprod : roundValue (mathPI / d) * k ≤ mathPI / 2 := by
    have h1 : roundValue (mathPI / d) * k ≤ mathPI / d * (1 + 1 / 2 ^ 53) * k :=
      mul_le_mul_of_nonneg_right hrel hk
    have h2 : mathPI / d * (1 + 1 / 2 ^ 53) * k = mathPI * ((1 + 1 / 2 ^ 53) * k) / d := by ring
    have h3 : (1 + 1 / 2 ^ 53) * (2 * k) ≤ d := by
      have h4 : (1 + 1 / 2 ^ 53) * (2 * k) ≤ (1 + 1 / 2 ^ 53) * (d - 1) :=
        mul_le_mul_of_nonneg_left (by linarith) (by positivity)
      have h5 : (1 + 1 / 2 ^ 53) * (d - 1) ≤ d := by
        have : (1 : ℚ) / 2 ^ 53 * (d - 1) ≤ 1 / 2 ^ 53 * 2 ^ 53 :=
          mul_le_mul_of_nonneg_left (by linarith) (by positivity)
        have h6 : (1 : ℚ) / 2 ^ 53 * 2 ^ 53 = 1 := by norm_num
        linarith
      linarith
    have h7 : mathPI * ((1 + 1 / 2 ^ 53) * k) / d ≤ mathPI / 2 := by
      rw [div_le_div_iff₀ hdpos (by norm_num)]
      nlinarith
    linarith
  have hv0 : 0 ≤ roundValue (roundValue (mathPI / d) * k) := roundValue_nonneg _ hprod0
  have hv1 : roundValue (roundValue (mathPI / d) * k) ≤ mathPI / 2 := by
    have := roundValue_mono _ _ hprod
    rw [roundValue_halfPi] at this
    exact this
  refine ⟨roundValue (roundValue (mathPI / d) * k), hv0, hv1, ?_⟩
  rw [hdiv]
  simp only [JSNumber.mulDouble]
  exact roundDouble_of_lt _ (by have : (0 : ℚ) < 2 ^ 1024 := by positivity
                                linarith)
    (by have : mathPI / 2 < (2 : ℚ) ^ 1024 := by norm_num [mathPI]
        linarith)

theorem endThreshold_early (cos : ℚ → ℚ)
    (hcos : ∀ x : ℚ, 0 ≤ x → x ≤ mathPI / 2 → 0 ≤ cos x)
    (length minLength maxLength : Nat) (hmax : maxLength ≤ 2 ^ 53)
    (hmin : minLength ≤ length)
    (hhalf : 2 * (length - minLength) < maxLength - minLength) :
    endThreshold cos 1 length minLength maxLength = JSNumber.infinity
      ∨ ∃ r, 1 ≤ r ∧ endThreshold cos 1 length minLength maxLength = JSNumber.finite r := by
  have hd1 : (1 : ℚ) ≤ (maxLength : ℚ) - (minLength : ℚ) := by
    have h3 : minLength + 1 ≤ maxLength := by omega
    have h4 : (minLength : ℚ) + 1 ≤ (maxLength : ℚ) := by exact_mod_cast h3
    linarith
  have hd2 : (maxLength : ℚ) - (minLength : ℚ) ≤ 2 ^ 53 := by
    have h4 : (maxLength : ℚ) ≤ 2 ^ 53 := by exact_mod_cast hmax
    have h5 : (0 : ℚ) ≤ (minLength : ℚ) := Nat.cast_nonneg _
    linarith
  have hk : (0 : ℚ) ≤ (length : ℚ) - (minLength : ℚ) := by
    have : (minLength : ℚ) ≤ (length : ℚ) := by exact_mod_cast hmin
    linarith
  have hkd : 2 * ((length : ℚ) - (minLength : ℚ)) + 1 ≤ (maxLength : ℚ) - (minLength : ℚ) := by
    have h3 : 2 * length + minLength + 1 ≤ maxLength + 2 * minLength := by omega
    have h4 : (2 : ℚ) * (length : ℚ) + (minLength : ℚ) + 1
        ≤ (maxLength : ℚ) + 2 * (minLength : ℚ) := by exact_mod_cast h3
    linarith
  obtain ⟨a, ha0, ha1, harg⟩ := endAngle_le_halfPi _ _ hd1 hd2 hk hkd
  have hc := hcos a ha0 ha1
  unfold endThreshold
  rw [harg]
  simp only [mathCos, JSNumber.addDouble]
  rcases roundDouble_one_le (1 + cos a) (by linarith) with hinf | ⟨r, hr, hfin⟩
  · left
    rw [hinf]
    simp [JSNumber.mulDouble, JSNumber.mulInfinity]
  · rw [hfin]
    simp only [JSNumber.mulDouble]
    exact roundDouble_one_le (r * 1) (by linarith)

theorem weighedEndFactor_early (cos : ℚ → ℚ)
    (hcos : ∀ x : ℚ, 0 ≤ x → x ≤ mathPI / 2 → 0 ≤ cos x)
    (prob : Option JSNumber) (value : ℚ) (length minLength maxLength : Nat)
    (hmax : maxLength ≤ 2 ^ 53) (hvalue : value < 1) (hmin : minLength ≤ length)
    (hhalf : 2 * (length - minLength) < maxLength - minLength) :
    weighedEndFactor cos 1 prob value length minLength maxLength = false := by
  unfold weighedEndFactor
  rw [ltRat_of_one_le _ value hvalue
    (endThreshold_early cos hcos length minLength maxLength hmax hmin hhalf)]
  simp

theorem genLoop_late (root : NormalizedTable) (hroot : root.probabilities ≠ [])
    (hcd : CharsDefined root) (minLength maxLength : Nat) (endFactor : EndFactor)
    (levels endBacktrack : Int) (fuel : Nat) (rnd : Nat → ℚ) (L : Nat)
    (hL : levels ≤ L) (hfuel : L < fuel)
    (hearly : ∀ (prob : Option JSNumber) (i length : Nat), minLength ≤ length →
      2 * (length - minLength) < maxLength - minLength →
      endFactor prob (rnd i) length minLength maxLength = false) :
    ∀ (remaining i : Nat) (word charTrail : List Char) (c : Char), charTrail.length ≤ L →
      ∃ rest ks, genLoop root minLength maxLength endFactor levels endBacktrack fuel rnd
          (remaining + 1) i word charTrail (some c) = some (word ++ c :: rest, ks)
        ∧ rest.length ≤ remaining
        ∧ (rest.length < remaining →
            minLength ≤ (word ++ c :: rest).length
              ∧ maxLength - minLength ≤ 2 * ((word ++ c :: rest).length - minLength)) := by
  intro remaining
  induction remaining with
  | zero =>
    intro i word charTrail c hlen
    obtain ⟨rest, ks, hrun, hrl, _, _⟩ := genLoop_spec root hroot hcd minLength maxLength
      endFactor levels endBacktrack fuel rnd L hL hfuel 0 i word charTrail c hlen
    exact ⟨rest, ks, hrun, hrl, fun h => absurd h (by omega)⟩
  | succ n ih =>
    intro i word charTrail c hlen
    have hpl := pushTrail_length levels L hL charTrail c hlen
    obtain ⟨k, node, hk, hkl, hne, hlook⟩ :=
      backoff_spec root hroot fuel (pushTrail levels charTrail (some c)) (lt_of_le_of_lt hpl hfuel)
    obtain ⟨e, he, hchar⟩ := getCharFromProb_mem node (rnd (i + 1)) hne
    have hnode : CharsDefined node := CharsDefined.trail _ root hcd hlook
    obtain ⟨c2, hc2⟩ := Option.ne_none_iff_exists'.mp (hnode.entry e he)
    have hdrop : ((pushTrail levels charTrail (some c)).drop k).length ≤ L := by
      rw [List.length_drop]
      exact le_trans (Nat.sub_le _ _) hpl
    obtain ⟨rest, ks, hrec, hrl, hlate⟩ := ih (i + 1) (word ++ [c]) _ c2 hdrop
    have hturn := genLoop_turn root minLength maxLength endFactor levels endBacktrack fuel rnd
      (n + 1) i word charTrail c k _ node hk
    by_cases hstop : (decide ((word ++ [c]).length ≥ minLength)
        && endFactor (endProbAt node.endProbability endBacktrack) (rnd (i + 1))
          (word ++ [c]).length minLength maxLength) = true
    · refine ⟨[], [k], ?_, Nat.zero_le _, ?_⟩
      · rw [hturn, if_pos hstop]
      · intro _
        simp only [Bool.and_eq_true, decide_eq_true_eq] at hstop
        refine ⟨hstop.1, ?_⟩
        by_contra hnot
        have := hearly (endProbAt node.endProbability endBacktrack) (i + 1)
          (word ++ [c]).length hstop.1 (by omega)
        rw [this] at hstop
        exact absurd hstop.2 (by simp)
    · refine ⟨c2 :: rest, k :: ks, ?_, ?_, ?_⟩
      · rw [hturn, if_neg hstop, hchar, hc2]
        simp only [hrec, Option.map_some']
        simp
      · simpa using hrl
      · intro hlt
        have hlt2 : rest.length < n := by simpa using hlt
        have := hlate hlt2
        simpa [Nat.add_assoc] using this

theorem jsUpper_length (c : Char) : 1 ≤ (jsUpper c).length := by
  unfold jsUpper
  simp only
  split
  · simp
  · split
    · simp
    · split
      · simp
      · split
        · simp
        · split <;> simp

theorem capitalize_length (w : List Char) : w.length ≤ (capitalize jsCasing w).length := by
  cases w with
  | nil => simp [capitalize]
  | cons c rest =>
    have := jsUpper_length c
    simp only [capitalize, jsCasing, List.length_append, List.length_cons]
    omega

end NormalizedTable

theorem roundDouble_zero : roundDouble 0 = JSNumber.finite 0 := by
  unfold roundDouble
  rw [roundValue_zero]
  norm_num

theorem cosTaylor_nonneg (x : ℚ) (h0 : 0 ≤ x) (h1 : x ≤ mathPI / 2) : 0 ≤ cosTaylor x := by
  have h2 : mathPI / 2 ≤ 158 / 100 := by norm_num [mathPI]
  have h3 : x ≤ 158 / 100 := le_trans h1 h2
  have h4 : x ^ 2 ≤ 5 / 2 := by nlinarith
  have h5 : 0 ≤ x ^ 2 := by positivity
  unfold cosTaylor
  nlinarith [mul_nonneg (sub_nonneg.mpr h4) (by linarith : (0 : ℚ) ≤ 19 / 2 - x ^ 2)]

theorem probPositive_zero_of_two :
    NormalizedTable.probPositive (some (JSNumber.div 0 2)) = false := by
  have hd : JSNumber.div 0 2 = JSNumber.finite 0 := by norm_num [JSNumber.div]
  simp [NormalizedTable.probPositive, hd, JSNumber.toDouble, roundDouble_zero]

theorem probPositive_one_of_five :
    NormalizedTable.probPositive (some (JSNumber.div 1 5)) = true := by
  have hd : JSNumber.div 1 5 = JSNumber.finite (1 / 5) := by norm_num [JSNumber.div]
  have h0 : roundDouble (1 / 5) = JSNumber.finite (3602879701896397 / 18014398509481984) := by
    apply roundDouble_eval _ _ (-55) 7205759403792794 <;> norm_num
  simp only [NormalizedTable.probPositive, hd, JSNumber.toDouble, h0]
  norm_num

/-- In the scenario the threshold at length 4 is `0.5083756459426735`. -/
theorem endThreshold_late :
    NormalizedTable.endThreshold cosTaylor 1 4 1 5
      = JSNumber.finite (4579040739263319 / 9007199254740992) := by
  have hd : ((5 : ℕ) : ℚ) - ((1 : ℕ) : ℚ) = 4 := by norm_num
  have hk : ((4 : ℕ) : ℚ) - ((1 : ℕ) : ℚ) = 3 := by norm_num
  have h1 : roundDouble (mathPI / 4) = JSNumber.finite (mathPI / 4) := by
    apply roundDouble_eval _ _ (-53) 7074237752028440 <;> norm_num [mathPI]
  have h2 : roundDouble (mathPI / 4 * 3)
      = JSNumber.finite (2652839157010665 / 1125899906842624) := by
    apply roundDouble_eval _ _ (-51) 5305678314021330 <;> norm_num [mathPI]
  have h3 : roundDouble (1 + cosTaylor (2652839157010665 / 1125899906842624))
      = JSNumber.finite (4579040739263319 / 9007199254740992) := by
    apply roundDouble_eval _ _ (-53) 4579040739263319 <;> norm_num [cosTaylor]
  have h4 : roundDouble (4579040739263319 / 9007199254740992 * 1)
      = JSNumber.finite (4579040739263319 / 9007199254740992) := by
    apply roundDouble_eval _ _ (-53) 4579040739263319 <;> norm_num
  unfold NormalizedTable.endThreshold
  rw [hd, hk]
  simp only [JSNumber.divDouble, JSNumber.mulDouble, JSNumber.addDouble, mathCos,
    show ¬ ((4 : ℚ) = 0) by norm_num, if_false, h1, h2, h3, h4]

theorem weighedEndFactor_late :
    NormalizedTable.weighedEndFactor cosTaylor 1 (some (JSNumber.div 1 5)) (99 / 100) 4 1 5
      = true := by
  unfold NormalizedTable.weighedEndFactor
  rw [probPositive_one_of_five, endThreshold_late]
  simp only [JSNumber.ltRat, Bool.true_and, decide_eq_true_eq]
  norm_num

theorem abAc_run_late :
    NormalizedTable.generateWord jsCasing abAcTable (NormalizedTable.weighedEndFactor cosTaylor 1)
      lateOptions 3 (fun _ => 99 / 100) = some "Acac".toList := by
  have hroot1 : abAcTable.getCharFromProb (99 / 100) = some (some 'a') := by
    rw [abAcTable_eq]
    rfl
  have hhalf := roundDouble_half
  have hd : JSNumber.div 1 2 = JSNumber.finite (1 / 2) := by norm_num [JSNumber.div]
  obtain ⟨nodeA, hb1, hprob, hend⟩ : ∃ temp, NormalizedTable.backoff abAcTable 3
      (NormalizedTable.pushTrail 2 [] (some 'a')) = some (0, ['a'], temp)
      ∧ temp.probabilities = [⟨JSNumber.div 1 2, some 'b'⟩, ⟨JSNumber.div 1 2, some 'c'⟩]
      ∧ NormalizedTable.endProbAt temp.endProbability 1 = some (JSNumber.div 0 2) := by
    rw [abAcTable_eq]
    exact ⟨_, rfl, rfl, rfl⟩
  have hb2 : NormalizedTable.backoff abAcTable 3
      (NormalizedTable.pushTrail 2 ['a'] (some 'c')) = some (2, [], abAcTable) := by
    rw [abAcTable_eq]
    rfl
  have hrootEnd : NormalizedTable.endProbAt abAcTable.endProbability 1
      = some (JSNumber.div 1 5) := by
    rw [abAcTable_eq]
    rfl
  have hcharA : nodeA.getCharFromProb (99 / 100) = some (some 'c') := by
    simp only [NormalizedTable.getCharFromProb, hprob, NormalizedTable.scanProb, hd,
      JSNumber.toDouble, hhalf, JSNumber.ltRat]
    norm_num
  have hstopA : ∀ length : Nat,
      NormalizedTable.weighedEndFactor cosTaylor 1 (some (JSNumber.div 0 2)) (99 / 100)
        length 1 5 = false := by
    intro length
    simp [NormalizedTable.weighedEndFactor, probPositive_zero_of_two]
  have hstop2 : NormalizedTable.weighedEndFactor cosTaylor 1 (some (JSNumber.div 1 5))
      (99 / 100) 2 1 5 = false :=
    NormalizedTable.weighedEndFactor_early cosTaylor cosTaylor_nonneg _ _ 2 1 5 (by norm_num)
      (by norm_num) (by norm_num) (by norm_num)
  have hgl : NormalizedTable.genLevels abAcTable lateOptions = 2 := by
    rw [abAcTable_eq]
    rfl
  have hgb : NormalizedTable.genEndBacktrack abAcTable lateOptions = 1 := by
    rw [abAcTable_eq]
    rfl
  have t1 := NormalizedTable.genLoop_turn abAcTable 1 5
    (NormalizedTable.weighedEndFactor cosTaylor 1) 2 1 3 (fun _ => 99 / 100) 4 0 [] [] 'a' 0
    ['a'] nodeA hb1
  have t2 := NormalizedTable.genLoop_turn abAcTable 1 5
    (NormalizedTable.weighedEndFactor cosTaylor 1) 2 1 3 (fun _ => 99 / 100) 3 1 ['a'] ['a'] 'c' 2
    [] abAcTable hb2
  have t3 := NormalizedTable.genLoop_turn abAcTable 1 5
    (NormalizedTable.weighedEndFactor cosTaylor 1) 2 1 3 (fun _ => 99 / 100) 2 2 ['a', 'c'] []
    'a' 0 ['a'] nodeA hb1
  have t4 := NormalizedTable.genLoop_turn abAcTable 1 5
    (NormalizedTable.weighedEndFactor cosTaylor 1) 2 1 3 (fun _ => 99 / 100) 1 3
    ['a', 'c', 'a'] ['a'] 'c' 2 [] abAcTable hb2
  simp only [hend, hstopA, hrootEnd, hcharA, hroot1, List.nil_append, List.cons_append,
    List.length_cons, List.length_nil, Nat.zero_add, Nat.reduceAdd, hstop2, weighedEndFactor_late,
    Bool.and_false, Bool.and_true, ge_iff_le, Nat.one_le_ofNat, le_refl, decide_True,
    if_true, Bool.false_eq_true, if_false] at t1 t2 t3 t4
  simp only [NormalizedTable.generateWord, NormalizedTable.generateRaw, lateOptions, hroot1]
  have hgl2 : NormalizedTable.genLevels abAcTable { minLength := 1, maxLength := 5 } = 2 := hgl
  have hgb2 : NormalizedTable.genEndBacktrack abAcTable { minLength := 1, maxLength := 5 } = 1 :=
    hgb
  rw [hgl2, hgb2, t1, t2, t3, t4]
  rfl

/-- C20, as stated, fails at the midpoint. With `minLength = 50`, `maxLength = 100` and
`length = 75`, where `length - minLength = (maxLength - minLength) / 2`, the argument that
the code passes to `Math.cos`, `Math.PI / 50 * 25`, is the double `1.5707963267948968`. It
is above `Math.PI / 2`, and the cosine is negative there. For every value between
`-3 / 2 ^ 54` and `-1 / 2 ^ 54`, as the one `Math.cos` returns (`-1.6081226496766364e-16`),
the threshold is `1 - 2 ^ -53 = 0.9999999999999999`, which is not at least 1. -/
theorem default_threshold_below_one_at_midpoint :
    (∀ cos : ℚ → ℚ, NormalizedTable.endThreshold cos 1 75 50 100
        = ((JSNumber.finite 1).addDouble
            (JSNumber.finite (cos (7074237752028441 / 4503599627370496)))).mulDouble
          (JSNumber.finite 1))
      ∧ mathPI / 2 < 7074237752028441 / 4503599627370496
      ∧ Real.cos (7074237752028441 / 4503599627370496) < 0
      ∧ (∀ cos : ℚ → ℚ, -3 / 2 ^ 54 < cos (7074237752028441 / 4503599627370496) →
          cos (7074237752028441 / 4503599627370496) < -1 / 2 ^ 54 →
          NormalizedTable.endThreshold cos 1 75 50 100
              = JSNumber.finite (9007199254740991 / 9007199254740992)
            ∧ (NormalizedTable.endThreshold cos 1 75 50 100).geRat 1 = false)
      ∧ -3 / 2 ^ 54 < cosAboveHalfPi ∧ cosAboveHalfPi < -1 / 2 ^ 54 := by
  have hd : ((100 : ℕ) : ℚ) - ((50 : ℕ) : ℚ) = 50 := by norm_num
  have hk : ((75 : ℕ) : ℚ) - ((50 : ℕ) : ℚ) = 25 := by norm_num
  have h1 : roundDouble (mathPI / 50)
      = JSNumber.finite (2263756080649101 / 36028797018963968) := by
    apply roundDouble_eval _ _ (-56) 4527512161298202 <;> norm_num [mathPI]
  have h2 : roundDouble (2263756080649101 / 36028797018963968 * 25)
      = JSNumber.finite (7074237752028441 / 4503599627370496) := by
    apply roundDouble_eval _ _ (-52) 7074237752028441 <;> norm_num
  have harg : ∀ cos : ℚ → ℚ, NormalizedTable.endThreshold cos 1 75 50 100
      = ((JSNumber.finite 1).addDouble
          (JSNumber.finite (cos (7074237752028441 / 4503599627370496)))).mulDouble
        (JSNumber.finite 1) := by
    intro cos
    unfold NormalizedTable.endThreshold
    rw [hd, hk]
    simp only [JSNumber.divDouble, JSNumber.mulDouble, mathCos,
      show ¬ ((50 : ℚ) = 0) by norm_num, if_false, h1, h2]
  refine ⟨harg, by norm_num [mathPI], ?_, ?_, by norm_num [cosAboveHalfPi],
    by norm_num [cosAboveHalfPi]⟩
  · apply Real.cos_neg_of_pi_div_two_lt_of_lt
    · have := Real.pi_lt_d20
      norm_num at this ⊢
      linarith
    · have := Real.pi_gt_d20
      norm_num at this ⊢
      linarith
  · intro cos hc1 hc2
    have h3 : roundDouble (1 + cos (7074237752028441 / 4503599627370496))
        = JSNumber.finite (9007199254740991 / 9007199254740992) := by
      apply roundDouble_eval _ _ (-53) 9007199254740991
      · norm_num
      · norm_num
      · norm_num at hc1 ⊢
        linarith
      · norm_num at hc1 ⊢
        linarith
      · norm_num at hc2 ⊢
        linarith
      · norm_num at hc1 ⊢
        linarith
      · norm_num at hc2 ⊢
        linarith
      · norm_num
    have h4 : roundDouble (9007199254740991 / 9007199254740992 * 1)
        = JSNumber.finite (9007199254740991 / 9007199254740992) := by
      apply roundDouble_eval _ _ (-53) 9007199254740991 <;> norm_num
    have hth : NormalizedTable.endThreshold cos 1 75 50 100
        = JSNumber.finite (9007199254740991 / 9007199254740992) := by
      rw [harg cos]
      simp only [JSNumber.addDouble, JSNumber.mulDouble, h3, h4]
    refine ⟨hth, ?_⟩
    rw [hth]
    simp only [JSNumber.geRat, decide_eq_false_iff_not, not_le]
    norm_num

/-- C20, amended. Let `Math.cos` be non-negative between 0 and `Math.PI / 2`, and let
`minLength < maxLength <= 2 ^ 53`. With the default end factor `weighedEndFactor(1)`, at every
length with `length - minLength < (maxLength - minLength) / 2`, that is
`2 * length < minLength + maxLength`, the threshold is at least 1 and the stop condition of
`generateWord` (`word.length >= minLength && endFactor(...)`) is false for every
end-probability and every draw below 1; hence, from a runtime tree whose root has an entry
and whose entries all carry a character, a word generated with the default end factor has
at least `(minLength + maxLength) / 2` characters and never exactly `minLength`. -/
theorem default_end_factor_no_early_stop (cos : ℚ → ℚ)
    (hcos : ∀ x : ℚ, 0 ≤ x → x ≤ mathPI / 2 → 0 ≤ cos x)
    (t : NormalizedTable) (hroot : t.probabilities ≠ []) (hcd : NormalizedTable.CharsDefined t)
    (options : NormalizedTable.Options) (hdefault : options.endFactor = none)
    (hlt : options.minLength < options.maxLength) (hmax : options.maxLength ≤ 2 ^ 53)
    (fuel : Nat) (hfuel : t.levels < fuel) (rnd : Nat → ℚ) (hrnd : ∀ i, rnd i < 1) :
    (∀ length : Nat, options.minLength ≤ length →
        2 * length < options.minLength + options.maxLength →
        (NormalizedTable.endThreshold cos 1 length options.minLength options.maxLength).geRat 1
          = true)
      ∧ (∀ (prob : Option JSNumber) (value : ℚ) (length : Nat), value < 1 →
        2 * length < options.minLength + options.maxLength →
        (decide (length ≥ options.minLength)
          && NormalizedTable.weighedEndFactor cos 1 prob value length
            options.minLength options.maxLength) = false)
      ∧ ∃ w, NormalizedTable.generateWord jsCasing t (NormalizedTable.weighedEndFactor cos 1)
            options fuel rnd = some w
          ∧ options.minLength + options.maxLength ≤ 2 * w.length
          ∧ w.length ≠ options.minLength := by
  have hearly : ∀ (prob : Option JSNumber) (value : ℚ) (length : Nat), value < 1 →
      options.minLength ≤ length →
      2 * (length - options.minLength) < options.maxLength - options.minLength →
      NormalizedTable.weighedEndFactor cos 1 prob value length
        options.minLength options.maxLength = false :=
    fun prob value length hv hm hh =>
      NormalizedTable.weighedEndFactor_early cos hcos prob value length _ _ hmax hv hm hh
  refine ⟨?_, ?_, ?_⟩
  · intro length hm hh
    exact geRat_of_one_le _
      (NormalizedTable.endThreshold_early cos hcos length _ _ hmax hm (by omega))
  · intro prob value length hv hh
    by_cases hm : options.minLength ≤ length
    · rw [hearly prob value length hv hm (by omega)]
      simp
    · simp [hm]
  obtain ⟨e, he, hchar⟩ := NormalizedTable.getCharFromProb_mem t (rnd 0) hroot
  obtain ⟨c, hc⟩ := Option.ne_none_iff_exists'.mp (hcd.entry e he)
  obtain ⟨n, hn⟩ : ∃ n, options.maxLength = n + 1 := ⟨options.maxLength - 1, by omega⟩
  obtain ⟨rest, ks, hrun, hrl, hlate⟩ :=
    NormalizedTable.genLoop_late t hroot hcd options.minLength options.maxLength
      (NormalizedTable.weighedEndFactor cos 1)
      (NormalizedTable.genLevels t options) (NormalizedTable.genEndBacktrack t options) fuel rnd
      t.levels (NormalizedTable.genLevels_le t options) hfuel
      (fun prob i length hm hh => hearly prob (rnd i) length (hrnd i) hm hh)
      n 0 [] [] c (Nat.zero_le _)
  have hraw : NormalizedTable.generateRaw t (NormalizedTable.weighedEndFactor cos 1) options
      fuel rnd = some (c :: rest, ks) := by
    unfold NormalizedTable.generateRaw
    simp only [hdefault, hchar, hc]
    rw [← hn] at hrun
    rw [hrun]
    rfl
  have hcap := NormalizedTable.capitalize_length (c :: rest)
  refine ⟨NormalizedTable.capitalize jsCasing (c :: rest), ?_, ?_, ?_⟩
  · simp [NormalizedTable.generateWord, hraw]
  · simp only [List.length_cons, List.nil_append] at hcap hlate hrl ⊢
    rcases Nat.lt_or_ge rest.length n with h | h
    · have := hlate h
      omega
    · omega
  · simp only [List.length_cons, List.nil_append] at hcap hlate hrl ⊢
    rcases Nat.lt_or_ge rest.length n with h | h
    · have := hlate h
      omega
    · omega

/-- C20, amended, at the tree trained on `ab ac` with `minLength = 1`, `maxLength = 5`, every
draw 0.99 and the Taylor polynomial of degree 4 for the cosine: the hypotheses hold; the
end factor is reached with a positive end-probability at the lengths 2 and 4, it is false at
length 2 and true at length 4, where the threshold is `0.5083756459426735`; the word
generated is `Acac`. -/
theorem default_end_factor_no_early_stop_witness :
    ((∀ x : ℚ, 0 ≤ x → x ≤ mathPI / 2 → 0 ≤ cosTaylor x)
      ∧ abAcTable.probabilities ≠ [] ∧ NormalizedTable.CharsDefined abAcTable
      ∧ lateOptions.endFactor = none ∧ lateOptions.minLength < lateOptions.maxLength
      ∧ lateOptions.maxLength ≤ 2 ^ 53 ∧ abAcTable.levels < 3
      ∧ ∀ i : Nat, (fun _ : Nat => (99 / 100 : ℚ)) i < 1)
    ∧ NormalizedTable.weighedEndFactor cosTaylor 1 (some (JSNumber.div 1 5)) (99 / 100) 4 1 5
        = true
    ∧ NormalizedTable.generateWord jsCasing abAcTable
        (NormalizedTable.weighedEndFactor cosTaylor 1) lateOptions 3 (fun _ => 99 / 100)
        = some "Acac".toList
    ∧ ((∀ length : Nat, lateOptions.minLength ≤ length →
        2 * length < lateOptions.minLength + lateOptions.maxLength →
        (NormalizedTable.endThreshold cosTaylor 1 length lateOptions.minLength
          lateOptions.maxLength).geRat 1 = true)
      ∧ (∀ (prob : Option JSNumber) (value : ℚ) (length : Nat), value < 1 →
        2 * length < lateOptions.minLength + lateOptions.maxLength →
        (decide (length ≥ lateOptions.minLength)
          && NormalizedTable.weighedEndFactor cosTaylor 1 prob value length
            lateOptions.minLength lateOptions.maxLength) = false)
      ∧ ∃ w, NormalizedTable.generateWord jsCasing abAcTable
            (NormalizedTable.weighedEndFactor cosTaylor 1) lateOptions 3 (fun _ => 99 / 100)
            = some w
          ∧ lateOptions.minLength + lateOptions.maxLength ≤ 2 * w.length
          ∧ w.length ≠ lateOptions.minLength) :=
  ⟨⟨cosTaylor_nonneg, abAcTable_root, abAcTable_charsDefined, rfl, by decide, by decide,
      by rw [abAcTable_eq]; decide, fun _ => by norm_num⟩,
    weighedEndFactor_late, abAc_run_late,
    default_end_factor_no_early_stop cosTaylor cosTaylor_nonneg abAcTable abAcTable_root
      abAcTable_charsDefined lateOptions rfl (by decide) (by decide) 3
      (by rw [abAcTable_eq]; decide) (fun _ => 99 / 100) (fun _ => by norm_num)⟩

/-! ### C3 -/

namespace NormalizedTable

theorem self_mem_nodes_mk (T : NormalizedTable) : T ∈ T.nodes := by
  cases T with
  | mk g l p e n => simp [nodes]

theorem nodes_sub_of_mem_next (g : String) (l : Nat) (p : List ProbEntry) (e : List JSNumber) :
    ∀ (n : List NormalizedTable) (N : NormalizedTable), N ∈ nodesAll n → N ∈ (mk g l p e n).nodes := by
  intro n N h
  simp only [nodes, List.mem_cons]
  exact Or.inr h

theorem minifyEntries_eq : ∀ p : List ProbEntry,
    (∀ x ∈ p, x.char ≠ none ∧ JSONMinify.writeNumber x.value = JSONNumber.number x.value) →
    ∃ ms, JSONMinify.minifyEntries p = Except.ok ms ∧ ms.map convertEntry = p.map LoadedTable.ofEntry
  | [], _ => ⟨[], rfl, rfl⟩
  | x :: p, h => by
    obtain ⟨ms, h1, h2⟩ := minifyEntries_eq p (fun y hy => h y (List.mem_cons_of_mem _ hy))
    obtain ⟨hc, hv⟩ := h x (List.mem_cons_self _ _)
    obtain ⟨c, hc⟩ := Option.ne_none_iff_exists'.mp hc
    refine ⟨⟨some (JSONMinify.writeNumber x.value), some c⟩ :: ms, ?_, ?_⟩
    · simp only [JSONMinify.minifyEntries, JSONMinify.minifyEntry, hc, h1]
    · simp only [List.map_cons, h2, convertEntry, LoadedTable.ofEntry, hv, hc]

mutual
theorem roundTrip_aux : ∀ T : NormalizedTable,
    (∀ N ∈ T.nodes,
      (∀ x ∈ N.probabilities,
        x.char ≠ none ∧ JSONMinify.writeNumber x.value = JSONNumber.number x.value)
      ∧ ∀ x ∈ N.endProbability, JSONMinify.writeNumber x = LoadedTable.nanAsNull x) →
    ∃ M, JSONMinify.minify T = Except.ok M
      ∧ convertToNormalizedTable M = Except.ok (LoadedTable.withNull T)
  | mk g l p e n, h => by
    obtain ⟨hp, he⟩ := h (mk g l p e n) (self_mem_nodes_mk _)
    obtain ⟨ms, hm1, hm2⟩ := minifyEntries_eq p hp
    obtain ⟨Ms, hn1, hn2⟩ := roundTrip_auxAll n
      (fun N hN => h N (nodes_sub_of_mem_next g l p e n N hN))
    have hmap : e.map JSONMinify.writeNumber = e.map LoadedTable.nanAsNull :=
      List.map_congr_left he
    refine ⟨MinifiedTable.mk (some g) (some l) (some ms) (some (e.map JSONMinify.writeNumber))
      (some Ms), by simp only [JSONMinify.minify, hm1, hn1], ?_⟩
    simp only [convertToNormalizedTable, convertNext, hn2, hm2, hmap, LoadedTable.withNull]
theorem roundTrip_auxAll : ∀ ts : List NormalizedTable,
    (∀ N ∈ nodesAll ts,
      (∀ x ∈ N.probabilities,
        x.char ≠ none ∧ JSONMinify.writeNumber x.value = JSONNumber.number x.value)
      ∧ ∀ x ∈ N.endProbability, JSONMinify.writeNumber x = LoadedTable.nanAsNull x) →
    ∃ Ms, JSONMinify.minifyAll ts = Except.ok Ms
      ∧ convertAll Ms = Except.ok (LoadedTable.withNullAll ts)
  | [], _ => ⟨[], rfl, rfl⟩
  | T :: ts, h => by
    obtain ⟨M, h1, h2⟩ := roundTrip_aux T (fun N hN => h N (by
      simp only [nodesAll, List.mem_append]
      exact Or.inl hN))
    obtain ⟨Ms, h3, h4⟩ := roundTrip_auxAll ts (fun N hN => h N (by
      simp only [nodesAll, List.mem_append]
      exact Or.inr hN))
    refine ⟨M :: Ms, by simp only [JSONMinify.minifyAll, h1, h3], ?_⟩
    simp only [convertAll, h2, h4, LoadedTable.withNullAll]
end

theorem roundTrip_of_nodes (T : NormalizedTable)
    (h : ∀ N ∈ T.nodes,
      (∀ x ∈ N.probabilities,
        x.char ≠ none ∧ JSONMinify.writeNumber x.value = JSONNumber.number x.value)
      ∧ ∀ x ∈ N.endProbability, JSONMinify.writeNumber x = LoadedTable.nanAsNull x) :
    roundTrip T = Except.ok (LoadedTable.withNull T) := by
  obtain ⟨M, h1, h2⟩ := roundTrip_aux T h
  simp only [roundTrip, h1, h2]

end NormalizedTable

/-- A quotient of two counts, the first at most the second, is written as it is, or as
`null` when it is `NaN`. -/
theorem writeNumber_div (a b : Nat) (h : a ≤ b) :
    JSONMinify.writeNumber (JSNumber.div a b) = LoadedTable.nanAsNull (JSNumber.div a b) := by
  by_cases hb : b = 0
  · have ha : a = 0 := by omega
    subst hb
    subst ha
    rfl
  · have hbpos : (0 : ℚ) < (b : ℚ) := by
      exact_mod_cast Nat.pos_of_ne_zero hb
    have hq0 : (0 : ℚ) ≤ (a : ℚ) / (b : ℚ) := div_nonneg (Nat.cast_nonneg _) (le_of_lt hbpos)
    have hq1 : (a : ℚ) / (b : ℚ) ≤ 1 := by
      rw [div_le_one hbpos]
      exact_mod_cast h
    have h0 := roundValue_nonneg _ hq0
    have h1 := roundValue_mono _ _ hq1
    rw [roundValue_one] at h1
    have hfin : roundDouble ((a : ℚ) / (b : ℚ)) = JSNumber.finite (roundValue ((a : ℚ) / (b : ℚ))) :=
      roundDouble_of_lt _ (by have : (0 : ℚ) < 2 ^ 1024 := by positivity
                              linarith)
        (by have : (1 : ℚ) < 2 ^ 1024 := by norm_num
            linarith)
    simp only [JSNumber.div, hb, if_false, JSONMinify.writeNumber, JSNumber.toDouble, hfin,
      LoadedTable.nanAsNull]

namespace ProbTable

theorem entriesFrom_value (alphabet : List Char) (total : Nat) :
    ∀ (ps : List Nat) (off : Nat) (e : ProbEntry), e ∈ entriesFrom alphabet total off ps →
      ∃ q ∈ ps, 0 < q ∧ e.value = JSNumber.div q total
  | [], _, e, h => by simp [entriesFrom] at h
  | q :: ps, off, e, h => by
    simp only [entriesFrom] at h
    split at h
    · next hq =>
      rcases List.mem_cons.mp h with h | h
      · exact ⟨q, List.mem_cons_self _ _, hq, by rw [h]⟩
      · obtain ⟨r, hr, hr0, hv⟩ := entriesFrom_value alphabet total ps (off + 1) e h
        exact ⟨r, List.mem_cons_of_mem _ hr, hr0, hv⟩
    · obtain ⟨r, hr, hr0, hv⟩ := entriesFrom_value alphabet total ps (off + 1) e h
      exact ⟨r, List.mem_cons_of_mem _ hr, hr0, hv⟩

theorem getNormalizedTable_endProbability (alphabet : List Char) (t : ProbTable) :
    (getNormalizedTable alphabet t).endProbability
      = t.endProbability.map (fun e => JSNumber.div e (t.total + e)) := by
  cases t with
  | mk g l p e n => simp [getNormalizedTable, NormalizedTable.endProbability, total,
      probabilities, endProbability]

/-- What the file keeps of a node normalized from a node with consistent counts. -/
theorem written_normalized (alphabet : List Char) (n : ProbTable) (h : Consistent alphabet n) :
    (∀ x ∈ (getNormalizedTable alphabet n).probabilities,
        x.char ≠ none ∧ JSONMinify.writeNumber x.value = JSONNumber.number x.value)
      ∧ ∀ x ∈ (getNormalizedTable alphabet n).endProbability,
          JSONMinify.writeNumber x = LoadedTable.nanAsNull x := by
  constructor
  · intro x hx
    constructor
    · obtain ⟨k, hk⟩ := List.get?_of_mem hx
      obtain ⟨ch, _, hch, _⟩ := (consistent_normalized alphabet n h).2 k x hk
      rw [hch]
      simp
    · rw [getNormalizedTable_probabilities] at hx
      obtain ⟨q, hq, hq0, hv⟩ := entriesFrom_value alphabet n.total n.probabilities 0 x hx
      have hle : q ≤ n.total := List.single_le_sum (fun _ _ => Nat.zero_le _) q hq
      have hne : n.total ≠ 0 := by omega
      rw [hv, writeNumber_div q n.total hle]
      simp [JSNumber.div, hne, LoadedTable.nanAsNull]
  · intro x hx
    rw [getNormalizedTable_endProbability] at hx
    obtain ⟨e, _, rfl⟩ := List.mem_map.mp hx
    exact writeNumber_div e (n.total + e) (Nat.le_add_left _ _)

/-- The round trip of the tree normalized from a trie with consistent counts. -/
theorem roundTrip_consistent (alphabet : List Char) (t : ProbTable) (h : Consistent alphabet t) :
    NormalizedTable.roundTrip (getNormalizedTable alphabet t)
      = Except.ok (LoadedTable.withNull (getNormalizedTable alphabet t)) := by
  apply NormalizedTable.roundTrip_of_nodes
  intro N hN
  obtain ⟨n, hn, rfl⟩ := mem_nodes_getNormalizedTable alphabet t N hN
  exact written_normalized alphabet n (consistent_of_mem_nodes alphabet t h n hn)

end ProbTable

/-- C3, as stated, fails. The tree normalized from the trie trained on `ab ac` has a leaf,
below `a` and `c`, whose two end-probabilities are `NaN`. Written to a file and read back,
the tree has `null` in their place: the tree loaded is not the tree written. -/
theorem round_trip_loses_nan :
    ∃ r, NormalizedTable.roundTrip abAcTable = Except.ok r
      ∧ r.endProbabilityAt [0, 1] = some [JSONNumber.null, JSONNumber.null]
      ∧ (LoadedTable.ofTable abAcTable).endProbabilityAt [0, 1]
          = some [JSONNumber.number JSNumber.nan, JSONNumber.number JSNumber.nan]
      ∧ r ≠ LoadedTable.ofTable abAcTable := by
  have hcons : ProbTable.Consistent abc abAc :=
    ProbTable.consistent_parseTextLines jsCasing abc _ _ _ (ProbTable.consistent_create abc "abc" 2)
  have hrt := ProbTable.roundTrip_consistent abc abAc hcons
  have h1 : (LoadedTable.withNull abAcTable).endProbabilityAt [0, 1]
      = some [JSONNumber.null, JSONNumber.null] := by
    rw [abAcTable_eq]
    rfl
  have h2 : (LoadedTable.ofTable abAcTable).endProbabilityAt [0, 1]
      = some [JSONNumber.number JSNumber.nan, JSONNumber.number JSNumber.nan] := by
    rw [abAcTable_eq]
    rfl
  refine ⟨LoadedTable.withNull abAcTable, hrt, h1, h2, ?_⟩
  intro heq
  rw [heq, h2] at h1
  simp at h1

/-- C3, amended. For every runtime tree `t` that `getNormalizedTable` produces from a trie
trained by `parseTextLines` (any number of calls on a freshly created `ProbTable`), writing
`t` with `JSON.stringify` and `JSONMinify.minify`, reading the text back and converting it
with `convertToNormalizedTable` succeeds and yields `t` with `null` in the place of every
end-probability that is `NaN`: the same language and levels, the same entries in the same
order, the same end-probabilities apart from that, and the same children, at every node. -/
theorem round_trip_up_to_null (cs : Casing) (alphabet : List Char) (language : String)
    (levels : Nat) (calls : List (List (List Char) × Bool)) :
    NormalizedTable.roundTrip (ProbTable.getNormalizedTable alphabet
        (ProbTable.trainCalls cs alphabet (ProbTable.create alphabet language levels) calls))
      = Except.ok (LoadedTable.withNull (ProbTable.getNormalizedTable alphabet
        (ProbTable.trainCalls cs alphabet (ProbTable.create alphabet language levels) calls))) :=
  ProbTable.roundTrip_consistent alphabet _
    (ProbTable.consistent_trainCalls cs alphabet calls _
      (ProbTable.consistent_create alphabet language levels))

/-! ### Trained tries give runtime trees -/

namespace NormalizedTable

mutual
theorem charsDefined_of_nodes : ∀ T : NormalizedTable,
    (∀ N ∈ T.nodes, ∀ x ∈ N.probabilities, x.char ≠ none) → CharsDefined T
  | mk g l p e n, h =>
    CharsDefined.mk g l p e n (h (mk g l p e n) (self_mem_nodes_mk _))
      (charsDefined_of_nodesAll n (fun N hN => h N (nodes_sub_of_mem_next g l p e n N hN)))
theorem charsDefined_of_nodesAll : ∀ ts : List NormalizedTable,
    (∀ N ∈ nodesAll ts, ∀ x ∈ N.probabilities, x.char ≠ none) → ∀ c ∈ ts, CharsDefined c
  | [], _, c, hc => by cases hc
  | T :: ts, h, c, hc => by
    rcases List.mem_cons.mp hc with rfl | hc
    · exact charsDefined_of_nodes c (fun N hN => h N (by
        simp only [nodesAll, List.mem_append]
        exact Or.inl hN))
    · exact charsDefined_of_nodesAll ts (fun N hN => h N (by
        simp only [nodesAll, List.mem_append]
        exact Or.inr hN)) c hc
end

end NormalizedTable

/-- Every entry of the tree normalized from a trie trained by `parseTextLines` carries a
character. -/
theorem ProbTable.charsDefined_trained (cs : Casing) (alphabet : List Char) (language : String)
    (levels : Nat) (calls : List (List (List Char) × Bool)) :
    NormalizedTable.CharsDefined (ProbTable.getNormalizedTable alphabet
      (ProbTable.trainCalls cs alphabet (ProbTable.create alphabet language levels) calls)) := by
  apply NormalizedTable.charsDefined_of_nodes
  intro N hN
  obtain ⟨n, hn, rfl⟩ := ProbTable.mem_nodes_getNormalizedTable alphabet _ N hN
  intro x hx
  exact ((ProbTable.written_normalized alphabet n
    (ProbTable.consistent_of_mem_nodes alphabet _
      (ProbTable.consistent_trainCalls cs alphabet calls _
        (ProbTable.consistent_create alphabet language levels)) n hn)).1 x hx).1

end JsWords
